import Mathlib

/-!
# joincap: merging packet-capture files by timestamp

A shallow embedding of `main.go` (the admission loop, the merge loop, `readNext`,
`write`, `max`) together with the part of Go's `container/heap` that `main` calls.

Conventions of the embedding.

* An input file is the finite list of results that successive calls of
  `reader.ReadPacketData()` give before `io.EOF`.  Readers that never report `io.EOF`,
  because an error other than `io.EOF` persists, are embedded in `readRecordsWith` and the
  definitions after it, which end in `mainWith`.
* A `*pcapgo.Reader` / `*os.File` pair is identified by the position of its path in
  `opts.Rest.InFiles[1:]`; the mutable read cursors live in `State.readers`.
* The sink is a log of the calls made on the writer and of the `Close` calls made on
  input files, in program order.  The verbose diagnostics and `totalInputSizeBytes`
  (read only by a diagnostic) are left out.
* `uint32`, `int64` values are `Nat`, `Int`: the program only compares them.
-/

namespace Joincap

/-! ## Data model -/

/-- The fields of `gopacket.CaptureInfo` that the pcap reader fills in; `Timestamp` is the
value of `captureInfo.Timestamp.UnixNano()`. -/
structure CaptureInfo where
  Timestamp : Int
  CaptureLength : Int
  Length : Int
  InterfaceIndex : Int
deriving DecidableEq, Inhabited

/-- The struct `Packet` built at the end of `readNext`.  `Reader` stands for both the
`Reader` and the `InputFile` pointer: the position of the input the packet was read from. -/
structure Packet where
  Timestamp : Int
  CaptureInfo : CaptureInfo
  Data : List Nat
  Reader : Nat
deriving DecidableEq, Inhabited

/-- One result of `reader.ReadPacketData()` other than `io.EOF`: an error, or the payload
bytes with their capture info. -/
inductive Record where
  | decodeError : Record
  | data (captureInfo : CaptureInfo) (data : List Nat) : Record
deriving DecidableEq, Inhabited

/-- What a path of `opts.Rest.InFiles[1:]` leads to: `os.Open` fails, `pcapgo.NewReader`
fails, or a reader with its snaplen, link type and records. -/
inductive Input where
  | openError : Input
  | headerError : Input
  | pcap (snaplen : Nat) (linkType : Nat) (records : List Record) : Input
deriving DecidableEq, Inhabited

/-- A call observed from outside: `writer.WriteFileHeader`, `write(writer, p)`, or
`inputFile.Close()`. -/
inductive Event where
  | fileHeader (snaplen : Nat) (linkType : Nat) : Event
  | packet (p : Packet) : Event
  | close (inputFile : Nat) : Event
deriving DecidableEq, Inhabited

/-- Modelled from the spec: the type `PacketHeap` (its declaration is not among the
sources).  `main` indexes it (`minTimeHeap[0].Timestamp`) and hands it to `container/heap`,
so it is a slice of `Packet`, "ordered by timestamp ascending". -/
abbrev PacketHeap := List Packet

/-- The variables of `main` that the loops read and write, the read cursors of the input
files, and the log of observable calls. -/
structure State where
  snaplen : Nat
  linkType : Nat
  minTimeHeap : PacketHeap
  readers : List (List Record)
  log : List Event

/-- How a run of `main` ends: the panic of the link-type check, a normal return, or (an
artefact of the fuel of the loops, shown never to happen) an unfinished loop. -/
inductive Outcome where
  | panicked (st : State) : Outcome
  | finished (st : State) : Outcome
  | outOfFuel : Outcome

/-- The constant `layers.LinkTypeNull` of gopacket. -/
def LinkTypeNull : Nat := 0

/-! ## `PacketHeap` and `container/heap` -/

/-- Modelled from the spec: `PacketHeap.Less`, timestamp ascending. -/
def PacketHeap.Less (h : PacketHeap) (i j : Nat) : Bool :=
  decide ((h.getD i default).Timestamp < (h.getD j default).Timestamp)

/-- Modelled from the spec: `PacketHeap.Swap`, exchanging two elements of the slice. -/
def PacketHeap.Swap (h : PacketHeap) (i j : Nat) : PacketHeap :=
  match h[i]?, h[j]? with
  | some a, some b => (h.set i b).set j a
  | _, _ => h

/-- Modelled from the spec: `PacketHeap.Push`, appending to the slice. -/
def PacketHeap.Push (h : PacketHeap) (x : Packet) : PacketHeap :=
  h ++ [x]

/-- Modelled from the spec: `PacketHeap.Pop`, removing and returning the last element of
the slice. -/
def PacketHeap.Pop (h : PacketHeap) : Option (Packet × PacketHeap) :=
  match h.getLast? with
  | none => none
  | some x => some (x, h.dropLast)

/-- The loop of `up` in `container/heap`.  The first argument bounds the number of
iterations; `j` is enough, since `j` at least halves each time. -/
def heap.up : Nat → PacketHeap → Nat → PacketHeap
  | 0, h, _ => h
  | fuel + 1, h, j =>
    let i := (j - 1) / 2
    if i = j ∨ !PacketHeap.Less h j i then h
    else heap.up fuel (PacketHeap.Swap h i j) i

/-- The loop of `down` in `container/heap` (its boolean result is not used by `Push`, `Pop`
or `Init`).  The first argument bounds the number of iterations; `n - i` is enough. -/
def heap.down : Nat → PacketHeap → Nat → Nat → PacketHeap
  | 0, h, _, _ => h
  | fuel + 1, h, i, n =>
    let j1 := 2 * i + 1
    if j1 ≥ n then h
    else
      let j := if j1 + 1 < n ∧ PacketHeap.Less h (j1 + 1) j1 then j1 + 1 else j1
      if !PacketHeap.Less h j i then h
      else heap.down fuel (PacketHeap.Swap h i j) j n

/-- The loop of `heap.Init`, for `i` from `k - 1` down to `0`. -/
def heap.initLoop : Nat → PacketHeap → PacketHeap
  | 0, h => h
  | k + 1, h => heap.initLoop k (heap.down h.length h k h.length)

/-- `heap.Init` of `container/heap`. -/
def heap.Init (h : PacketHeap) : PacketHeap :=
  heap.initLoop (h.length / 2) h

/-- `heap.Push` of `container/heap`. -/
def heap.Push (h : PacketHeap) (x : Packet) : PacketHeap :=
  let h1 := PacketHeap.Push h x
  heap.up (h1.length - 1) h1 (h1.length - 1)

/-- `heap.Pop` of `container/heap`; `none` when the heap is empty (`main` calls it only
under `minTimeHeap.Len() > 0`). -/
def heap.Pop (h : PacketHeap) : Option (Packet × PacketHeap) :=
  if h.length = 0 then none
  else
    let n := h.length - 1
    PacketHeap.Pop (heap.down n (PacketHeap.Swap h 0 n) 0 n)

/-! ## `main.go` -/

/-- The function `max` of `main.go`. -/
def max (x y : Nat) : Nat :=
  if x > y then x else y

/-- The loop of `readNext` over the unread records of one input: the packet returned (or
`none` for `io.EOF`) and the records left unread. -/
def readRecords (reader : Nat) : List Record → Option Packet × List Record
  | [] => (none, [])
  | Record.decodeError :: rest => readRecords reader rest
  | Record.data captureInfo data :: rest =>
    if data.length = 0 then readRecords reader rest
    else
      (some
        { Timestamp := captureInfo.Timestamp
          CaptureInfo := captureInfo
          Data := data
          Reader := reader },
       rest)

/-- The function `readNext`: reads from the cursor of `reader`, and on `io.EOF` closes the
input file. -/
def readNext (reader : Nat) (st : State) : Option Packet × State :=
  match readRecords reader (st.readers.getD reader []) with
  | (none, rest) =>
    (none, { st with readers := st.readers.set reader rest
                     log := st.log ++ [Event.close reader] })
  | (some p, rest) =>
    (some p, { st with readers := st.readers.set reader rest })

/-- The function `write`; the sink is taken to accept every packet. -/
def write (st : State) (packet : Packet) : State :=
  { st with log := st.log ++ [Event.packet packet] }

/-- The link-type check of the admission loop: the new value of `linkType`, or `none` for
the panic. -/
def reconcileLinkType (linkType readerLinkType : Nat) : Option Nat :=
  if linkType = LinkTypeNull then some readerLinkType
  else if linkType ≠ readerLinkType then none
  else some linkType

/-- The body of the admission loop of `main` for the path at position `idx`; `Except.error`
carries the state at the panic. -/
def admitInput (st : State) (idx : Nat) : Input → Except State State
  | Input.openError => Except.ok st
  | Input.headerError => Except.ok st
  | Input.pcap readerSnaplen readerLinkType _ =>
    let st1 := { st with snaplen := max st.snaplen readerSnaplen }
    match reconcileLinkType st1.linkType readerLinkType with
    | none => Except.error st1
    | some linkType =>
      match readNext idx { st1 with linkType := linkType } with
      | (some nextPacket, st2) =>
        Except.ok { st2 with minTimeHeap := heap.Push st2.minTimeHeap nextPacket }
      | (none, st2) => Except.ok st2

/-- The admission loop of `main` over the paths from position `idx` on. -/
def admitLoop : Nat → List Input → State → Except State State
  | _, [], st => Except.ok st
  | idx, input :: rest, st =>
    match admitInput st idx input with
    | Except.error st1 => Except.error st1
    | Except.ok st1 => admitLoop (idx + 1) rest st1

/-- The inner `for` of the merge loop: reading on from the source of the packet just
written.  The first argument bounds the number of iterations. -/
def lookaheadLoop : Nat → Packet → Int → State → Option State
  | 0, _, _, _ => none
  | fuel + 1, packet, earliestHeapTime, st =>
    match readNext packet.Reader st with
    | (none, st1) => some st1
    | (some nextPacket, st1) =>
      if nextPacket.Timestamp ≤ earliestHeapTime then
        lookaheadLoop fuel packet earliestHeapTime (write st1 nextPacket)
      else
        some { st1 with minTimeHeap := heap.Push st1.minTimeHeap nextPacket }

/-- The value of `earliestHeapTime` after its declaration and the `if` that follows. -/
def earliestHeapTime (h : PacketHeap) : Int :=
  match h with
  | [] => 0
  | p :: _ => p.Timestamp

/-- The merge loop of `main`, `for minTimeHeap.Len() > 0`; the loop ends when `heap.Pop`
finds the heap empty.  The first argument bounds the number of iterations of this loop and
of each inner loop. -/
def mergeLoop : Nat → State → Option State
  | 0, _ => none
  | fuel + 1, st =>
    match heap.Pop st.minTimeHeap with
    | none => some st
    | some (packet, h) =>
      let st1 := write { st with minTimeHeap := h } packet
      match lookaheadLoop (fuel + 1) packet (earliestHeapTime h) st1 with
      | none => none
      | some st2 => mergeLoop fuel st2

/-- The records of an input file; none when it cannot be opened or has no header. -/
def Input.records : Input → List Record
  | Input.pcap _ _ records => records
  | _ => []

/-- The state of `main` before the admission loop. -/
def initialState (inFiles : List Input) : State :=
  { snaplen := 0
    linkType := LinkTypeNull
    minTimeHeap := heap.Init []
    readers := inFiles.map Input.records
    log := [] }

/-- A number of iterations that the loops of `main` never reach: one more than the number
of records and of inputs. -/
def mergeFuel (inFiles : List Input) : Nat :=
  (inFiles.map fun input => input.records.length).sum + inFiles.length + 1

/-- The function `main`, from the admission loop on; `inFiles` is what the paths
`opts.Rest.InFiles[1:]` lead to. -/
def main (inFiles : List Input) : Outcome :=
  match admitLoop 0 inFiles (initialState inFiles) with
  | Except.error st => Outcome.panicked st
  | Except.ok st =>
    let st1 := { st with log := st.log ++ [Event.fileHeader st.snaplen st.linkType] }
    match mergeLoop (mergeFuel inFiles) st1 with
    | none => Outcome.outOfFuel
    | some st2 => Outcome.finished st2

/-! ## Invariants -/

/-- The timestamp at position `i` of the slice. -/
def tsAt (h : PacketHeap) (i : Nat) : Int := (h.getD i default).Timestamp

/-- The heap order of `container/heap` on the first `n` elements: no element is earlier
than its parent. -/
def IsHeapUpTo (h : PacketHeap) (n : Nat) : Prop :=
  ∀ k, 0 < k → k < n → tsAt h ((k - 1) / 2) ≤ tsAt h k

/-- The heap order on the whole slice. -/
def IsHeap (h : PacketHeap) : Prop := IsHeapUpTo h h.length

/-- The packet `readNext` builds from a record read by `reader`, when the record decodes
without error and has a non-empty payload. -/
def Record.toPacket (reader : Nat) : Record → Option Packet
  | Record.decodeError => none
  | Record.data captureInfo payload =>
    if payload.length = 0 then none
    else
      some
        { Timestamp := captureInfo.Timestamp
          CaptureInfo := captureInfo
          Data := payload
          Reader := reader }

/-- The valid records of an input, as the packets `readNext` builds from them. -/
def validPackets (reader : Nat) (records : List Record) : List Packet :=
  records.filterMap (Record.toPacket reader)

/-- The packet of a `write` call in the log. -/
def Event.toPacket : Event → Option Packet
  | Event.packet p => some p
  | _ => none

/-- The packets written, in the order of the `write` calls. -/
def written (log : List Event) : List Packet :=
  log.filterMap Event.toPacket

/-- The packets of a list that were read from input `i`. -/
def fromReader (i : Nat) (l : List Packet) : List Packet :=
  l.filter fun p => decide (p.Reader = i)

/-- The valid records of the input at position `i`. -/
def sourcePackets (inFiles : List Input) (i : Nat) : List Packet :=
  validPackets i ((inFiles.map Input.records).getD i [])

/-- The valid records that input `i` still has to deliver. -/
def unread (st : State) (i : Nat) : List Packet :=
  validPackets i (st.readers.getD i [])

/-- Timestamp order on packets. -/
def tsLE (p q : Packet) : Prop := p.Timestamp ≤ q.Timestamp

/-- The number of records not yet read plus the number of packets in the heap: it bounds
the number of iterations left. -/
def remaining (st : State) : Nat :=
  (st.readers.map List.length).sum + st.minTimeHeap.length

/-- At the head of the merge loop, input `i` either is retired with everything written, or
has exactly its next packet in the heap. -/
def SourceOuter (srcs : Nat → List Packet) (st : State) (i : Nat) : Prop :=
  (fromReader i st.minTimeHeap = [] ∧ st.readers.getD i [] = [] ∧
      fromReader i (written st.log) = srcs i) ∨
  (∃ p, fromReader i st.minTimeHeap = [p] ∧
      fromReader i (written st.log) ++ p :: unread st i = srcs i)

/-- Inside the inner loop, the input being read has no packet in the heap. -/
def SourceInner (srcs : Nat → List Packet) (st : State) (s : Nat) : Prop :=
  fromReader s st.minTimeHeap = [] ∧ fromReader s (written st.log) ++ unread st s = srcs s

/-- What is written is in timestamp order and not later than anything pending. -/
def Ordered (st : State) : Prop :=
  (written st.log).Pairwise tsLE ∧
  (∀ w ∈ written st.log, ∀ q ∈ st.minTimeHeap, tsLE w q) ∧
  (∀ w ∈ written st.log, ∀ i, ∀ q ∈ unread st i, tsLE w q)

/-- The invariant at the head of an iteration of the merge loop, for the inputs in `A` (all
of them in the merge loop, those already seen in the admission loop). -/
def OuterInv (srcs : Nat → List Packet) (A : Nat → Prop) (st : State) : Prop :=
  IsHeap st.minTimeHeap ∧ (∀ i, A i → SourceOuter srcs st i) ∧
  ((∀ i, (srcs i).Pairwise tsLE) → Ordered st)

/-- The invariant of the inner loop reading input `s`. -/
def InnerInv (srcs : Nat → List Packet) (A : Nat → Prop) (s : Nat) (st : State) : Prop :=
  IsHeap st.minTimeHeap ∧ SourceInner srcs st s ∧ (∀ i, A i → i ≠ s → SourceOuter srcs st i) ∧
  ((∀ i, (srcs i).Pairwise tsLE) → Ordered st)

/-- The header calls in a log. -/
def headers (log : List Event) : List (Nat × Nat) :=
  log.filterMap fun e =>
    match e with
    | Event.fileHeader a b => some (a, b)
    | _ => none

/-- What a loop leaves untouched. -/
structure Frame (st st1 : State) : Prop where
  snaplen : st1.snaplen = st.snaplen
  linkType : st1.linkType = st.linkType
  headers : headers st1.log = headers st.log
  readers : st1.readers.length = st.readers.length

/-- The invariant of the admission loop before the path at position `k`. -/
structure AdmInv (inFiles : List Input) (k : Nat) (st : State) : Prop where
  inv : OuterInv (sourcePackets inFiles) (fun i => i < k) st
  log_written : written st.log = []
  log_headers : headers st.log = []
  heap_lt : ∀ p ∈ st.minTimeHeap, p.Reader < k
  untouched : ∀ i, k ≤ i → st.readers.getD i [] = (inFiles.map Input.records).getD i []
  readers_length : st.readers.length = inFiles.length
  records_le : (st.readers.map List.length).sum ≤
    (inFiles.map fun input => input.records.length).sum
  heap_le : st.minTimeHeap.length ≤ k

/-- What a finished run has established. -/
structure Finished (inFiles : List Input) (st0 st : State) : Prop where
  heap : st.minTimeHeap = []
  eof : ∀ i, st.readers.getD i [] = []
  readers : st.readers.length = inFiles.length
  bySource : ∀ i, fromReader i (written st.log) = sourcePackets inFiles i
  ordered : (∀ i, (sourcePackets inFiles i).Pairwise tsLE) → (written st.log).Pairwise tsLE
  headers : headers st.log = [(st0.snaplen, st0.linkType)]

/-- The simpler strategy that the specification describes as equivalent to the lookahead:
every newly read packet is inserted into the priority structure, and the minimum is
extracted again.  The first argument bounds the number of iterations. -/
def simpleLoop : Nat → State → Option State
  | 0, _ => none
  | fuel + 1, st =>
    match heap.Pop st.minTimeHeap with
    | none => some st
    | some (packet, h) =>
      match readNext packet.Reader (write { st with minTimeHeap := h } packet) with
      | (none, st1) => simpleLoop fuel st1
      | (some nextPacket, st1) =>
        simpleLoop fuel { st1 with minTimeHeap := heap.Push st1.minTimeHeap nextPacket }

/-- The run of `main` with the merge loop replaced by the simpler strategy. -/
def mainSimple (inFiles : List Input) : Outcome :=
  match admitLoop 0 inFiles (initialState inFiles) with
  | Except.error st => Outcome.panicked st
  | Except.ok st =>
    let st1 := { st with log := st.log ++ [Event.fileHeader st.snaplen st.linkType] }
    match simpleLoop (mergeFuel inFiles) st1 with
    | none => Outcome.outOfFuel
    | some st2 => Outcome.finished st2

/-! ## Vocabulary of the claims -/

/-- A record that decodes without error and has a non-empty payload. -/
def Record.valid : Record → Bool
  | Record.decodeError => false
  | Record.data _ payload => decide (payload.length ≠ 0)

/-- The number of records of an input that `readNext` skips. -/
def skipped (records : List Record) : Nat :=
  (records.filter fun r => !r.valid).length

/-- The timestamps of the valid records of an input, in file order. -/
def validTimestamps (records : List Record) : List Int :=
  (validPackets 0 records).map Packet.Timestamp

/-- An input whose valid records are in non-decreasing timestamp order. -/
def Input.Sorted (input : Input) : Prop :=
  (validTimestamps input.records).Sorted (· ≤ ·)

instance (input : Input) : Decidable input.Sorted :=
  inferInstanceAs (Decidable ((validTimestamps input.records).Sorted (· ≤ ·)))

/-- The record that a written packet carries: its capture info and payload. -/
def Packet.toRecord (p : Packet) : Record :=
  Record.data p.CaptureInfo p.Data

/-- The log of observable calls of a run. -/
def Outcome.log : Outcome → List Event
  | Outcome.panicked st => st.log
  | Outcome.finished st => st.log
  | Outcome.outOfFuel => []

/-- The packets a run has written, in order. -/
def Outcome.packets (o : Outcome) : List Packet :=
  written o.log

/-- The timestamps of the packets a run has written, in order. -/
def Outcome.timestamps (o : Outcome) : List Int :=
  o.packets.map Packet.Timestamp

/-- Whether the run ended in the panic of the link-type check. -/
def Outcome.aborted : Outcome → Bool
  | Outcome.panicked _ => true
  | _ => false

/-- Whether the run returned normally. -/
def Outcome.completed : Outcome → Bool
  | Outcome.finished _ => true
  | _ => false

/-- The snaplen values of the admitted inputs. -/
def snaplens (inFiles : List Input) : List Nat :=
  inFiles.filterMap fun input =>
    match input with
    | Input.pcap snaplen _ _ => some snaplen
    | _ => none

/-- The link-layer types of the admitted inputs, in admission order. -/
def linkTypes (inFiles : List Input) : List Nat :=
  inFiles.filterMap fun input =>
    match input with
    | Input.pcap _ linkType _ => some linkType
    | _ => none

/-- Whether an input is admitted: the file opens and its header decodes. -/
def Input.admitted : Input → Bool
  | Input.pcap _ _ _ => true
  | _ => false

/-! ## Relating two runs -/

/-- The packet with its source renamed by `f`; everything written to the sink is kept. -/
def Packet.rename (f : Nat → Nat) (p : Packet) : Packet :=
  { p with Reader := f p.Reader }

/-- The event with its source renamed by `f`. -/
def Event.rename (f : Nat → Nat) : Event → Event
  | Event.fileHeader a b => Event.fileHeader a b
  | Event.packet p => Event.packet (p.rename f)
  | Event.close i => Event.close (f i)

/-- Two states of two runs that differ only by the names of their sources and by records
that `readNext` skips. -/
structure Sim (f : Nat → Nat) (st1 st2 : State) : Prop where
  snaplen : st1.snaplen = st2.snaplen
  linkType : st1.linkType = st2.linkType
  heap : st1.minTimeHeap = st2.minTimeHeap.map (Packet.rename f)
  log : st1.log = st2.log.map (Event.rename f)
  readers : ∀ j, unread st1 (f j) = (unread st2 j).map (Packet.rename f)

/-- Two results of a loop of the two runs: both unfinished, or both finished in related
states. -/
def OptSim (f : Nat → Nat) : Option State → Option State → Prop
  | some a, some b => Sim f a b
  | none, none => True
  | _, _ => False

/-- Two results of the admission of the two runs: both the panic, or both a normal end, in
related states. -/
def ExSim (f : Nat → Nat) : Except State State → Except State State → Prop
  | Except.ok a, Except.ok b => Sim f a b
  | Except.error a, Except.error b => Sim f a b
  | _, _ => False

/-- What admission reads of an input apart from its records. -/
def Input.header : Input → Option (Nat × Nat)
  | Input.pcap snaplen linkType _ => some (snaplen, linkType)
  | _ => none

/-- The position in the longer list of the input at position `j` of the list without the
input at position `r`. -/
def skipIndex (r j : Nat) : Nat :=
  if j < r then j else j + 1

/-- Two runs that end the same way, in states that differ only by the names of the sources
and by skipped records. -/
def OutSim (f : Nat → Nat) : Outcome → Outcome → Prop
  | Outcome.panicked a, Outcome.panicked b => Sim f a b
  | Outcome.finished a, Outcome.finished b => Sim f a b
  | _, _ => False

/-- The input with the records that `readNext` skips removed from the file. -/
def Input.dropSkipped : Input → Input
  | Input.pcap snaplen linkType records =>
    Input.pcap snaplen linkType (records.filter Record.valid)
  | input => input

/-- The valid records of all inputs, as the packets `readNext` builds from them. -/
def allValid (inFiles : List Input) : List Packet :=
  (List.range inFiles.length).flatMap (sourcePackets inFiles)

/-- No valid record of one input has the timestamp of a valid record of another input. -/
def NoCrossTies (inFiles : List Input) : Prop :=
  (allValid inFiles).Pairwise fun p q => p.Timestamp = q.Timestamp → p.Reader = q.Reader

instance (inFiles : List Input) : Decidable (NoCrossTies inFiles) :=
  inferInstanceAs (Decidable ((allValid inFiles).Pairwise
    fun (p q : Packet) => p.Timestamp = q.Timestamp → p.Reader = q.Reader))

/-! ## Example inputs -/

/-- A record with the given timestamp and payload. -/
def exampleRecord (t : Int) (payload : List Nat) : Record :=
  Record.data { Timestamp := t, CaptureLength := payload.length, Length := payload.length,
                InterfaceIndex := 0 } payload

/-- Input A of the interleaving example of the specification. -/
def exampleA : Input :=
  Input.pcap 65535 1 [exampleRecord 1 [10], exampleRecord 5 [11], exampleRecord 9 [12]]

/-- Input B of the interleaving example of the specification. -/
def exampleB : Input :=
  Input.pcap 262144 1 [exampleRecord 2 [20], exampleRecord 3 [21], exampleRecord 10 [22]]

/-- An input with a corrupt record and an empty payload among valid records. -/
def exampleCorrupt : Input :=
  Input.pcap 65535 1 [exampleRecord 4 [30], Record.decodeError, exampleRecord 6 [31],
    exampleRecord 7 []]

/-- Two admitted inputs whose link-layer types differ, the first being `LinkTypeNull`
(BSD loopback, value 0) and the second Ethernet (value 1). -/
def exampleNullThenEthernet : List Input :=
  [Input.pcap 65535 0 [exampleRecord 1 [1]], Input.pcap 65535 1 [exampleRecord 2 [2]]]

/-- Two sorted inputs with a timestamp in common: A has timestamps 1, 2 and B has 2. -/
def exampleTies : List Input :=
  [Input.pcap 65535 1 [exampleRecord 1 [1], exampleRecord 2 [2]],
   Input.pcap 65535 1 [exampleRecord 2 [3]]]

/-! ## States at the head of the merge loop, and the calls on input files -/

/-- The states of `main` each time the condition `minTimeHeap.Len() > 0` of the merge loop
is evaluated, in order: the same loop as `mergeLoop`, recording the state at the head of
each iteration (the last one is the state in which the loop ends). -/
def mergeLoopHeads : Nat → State → List State
  | 0, _ => []
  | fuel + 1, st =>
    st ::
      match heap.Pop st.minTimeHeap with
      | none => []
      | some (packet, h) =>
        match lookaheadLoop (fuel + 1) packet (earliestHeapTime h)
            (write { st with minTimeHeap := h } packet) with
        | none => []
        | some st2 => mergeLoopHeads fuel st2

/-- The states at the head of the merge loop in the run of `main`; none when the run is
aborted during admission. -/
def loopHeads (inFiles : List Input) : List State :=
  match admitLoop 0 inFiles (initialState inFiles) with
  | Except.error _ => []
  | Except.ok st =>
    mergeLoopHeads (mergeFuel inFiles)
      { st with log := st.log ++ [Event.fileHeader st.snaplen st.linkType] }

/-- The input files closed, in the order of the `Close` calls. -/
def closes (log : List Event) : List Nat :=
  log.filterMap fun e =>
    match e with
    | Event.close i => some i
    | _ => none

/-- Whether the path at position `i` leads to an admitted input. -/
def admittedAt (inFiles : List Input) (i : Nat) : Bool :=
  (inFiles.map Input.admitted).getD i false

/-- At the head of the merge loop: an admitted input has been closed once and has no packet
in the heap, or has not been closed and has one packet in the heap; a path that is not
admitted has neither. -/
def CloseOuter (inFiles : List Input) (st : State) (i : Nat) : Prop :=
  (admittedAt inFiles i = true ∧
    (((closes st.log).count i = 1 ∧ fromReader i st.minTimeHeap = []) ∨
      ((closes st.log).count i = 0 ∧ ∃ p, fromReader i st.minTimeHeap = [p]))) ∨
  (admittedAt inFiles i = false ∧ (closes st.log).count i = 0 ∧
    fromReader i st.minTimeHeap = [])

/-- Inside the inner loop, the input being read is admitted, not closed, and has no packet
in the heap. -/
def CloseInner (inFiles : List Input) (st : State) (s : Nat) : Prop :=
  admittedAt inFiles s = true ∧ (closes st.log).count s = 0 ∧ fromReader s st.minTimeHeap = []

/-- The invariant of the merge loop at the head of an iteration; `st0` is the state at the
end of the admission loop. -/
structure MergeInv (inFiles : List Input) (st0 st : State) : Prop where
  outer : OuterInv (sourcePackets inFiles) (fun _ => True) st
  close : ∀ i, CloseOuter inFiles st i
  snaplen : st.snaplen = st0.snaplen
  linkType : st.linkType = st0.linkType
  log : ∃ ext, st.log = st0.log ++ Event.fileHeader st0.snaplen st0.linkType :: ext ∧
    headers ext = []

/-- The invariant of the inner loop reading input `s` with the heap `h`. -/
structure LookInv (inFiles : List Input) (st0 : State) (s : Nat) (h : PacketHeap)
    (st : State) : Prop where
  inner : InnerInv (sourcePackets inFiles) (fun _ => True) s st
  heap : st.minTimeHeap = h
  closeSelf : CloseInner inFiles st s
  close : ∀ i, i ≠ s → CloseOuter inFiles st i
  snaplen : st.snaplen = st0.snaplen
  linkType : st.linkType = st0.linkType
  log : ∃ ext, st.log = st0.log ++ Event.fileHeader st0.snaplen st0.linkType :: ext ∧
    headers ext = []

/-- The `Close` calls during the admission loop before the path at position `k`. -/
structure AdmClose (inFiles : List Input) (k : Nat) (st : State) : Prop where
  adm : AdmInv inFiles k st
  seen : ∀ i, i < k → CloseOuter inFiles st i
  unseen : ∀ i, k ≤ i → (closes st.log).count i = 0

/-- The reconciliation of the snaplen and of the link type over the admitted inputs, as the
admission loop does it, from the values `acc`: the final values, or `none` for the panic. -/
def reconcileAll : Nat × Nat → List Input → Option (Nat × Nat)
  | acc, [] => some acc
  | acc, input :: rest =>
    match input.header with
    | none => reconcileAll acc rest
    | some (snaplen, linkType) =>
      match reconcileLinkType acc.2 linkType with
      | none => none
      | some lt => reconcileAll (max acc.1 snaplen, lt) rest

/-- The pending-packet invariant for input `i` in the state `st`: at most one packet of `i`
in the heap; one is there exactly when `i` has not been closed at end-of-input; and it is
the earliest valid record of `i` not yet written, all earlier ones being written. -/
structure Pending (inFiles : List Input) (st : State) (i : Nat) : Prop where
  atMostOne : (fromReader i st.minTimeHeap).length ≤ 1
  iffOpen : fromReader i st.minTimeHeap ≠ [] ↔ Event.close i ∉ st.log
  earliest : ∀ p ∈ fromReader i st.minTimeHeap,
    fromReader i (written st.log) ++ p :: unread st i = sourcePackets inFiles i
  retired : fromReader i st.minTimeHeap = [] →
    unread st i = [] ∧ fromReader i (written st.log) = sourcePackets inFiles i

/-- A file that opens but has no capture header, followed by input A. -/
def exampleHeaderError : List Input :=
  [Input.headerError, exampleA]

/-- A packet whose timestamp is not after the zero value of `earliestHeapTime`. -/
def notAfterZero (q : Packet) : Bool :=
  decide (q.Timestamp ≤ 0)

/-- One admitted input with two valid records, with timestamps 1 and 2. -/
def exampleSingle : List Input :=
  [Input.pcap 65535 1 [exampleRecord 1 [1], exampleRecord 2 [2]]]

/-- A state inside the merge loop with an empty heap, the only source still having records
with timestamps 0, -1, 2, 3 to read. -/
def exampleEmptyHeap : State :=
  { snaplen := 65535
    linkType := 1
    minTimeHeap := []
    readers := [[exampleRecord 0 [1], exampleRecord (-1) [2], exampleRecord 2 [3],
      exampleRecord 3 [4]]]
    log := [] }

/-- An admitted input with no valid record: a decode error and an empty payload. -/
def exampleNoValid (snaplen linkType : Nat) : Input :=
  Input.pcap snaplen linkType [Record.decodeError, exampleRecord 5 []]

/-! ## Readers that may never report end-of-input

In the definitions above a reader reports `io.EOF` once its records are read.  The
definitions below embed the same code for readers of which some, once their records are
read, keep returning an error other than `io.EOF`: `readNext` then retries without bound,
so its loop, and every loop that calls it, carries a bound on the number of iterations. -/

/-- The loop of `readNext` over the unread records of a reader that, once they are read,
reports `io.EOF` (`persists = false`) or keeps returning an error other than `io.EOF`
(`persists = true`).  The first argument bounds the number of calls of
`reader.ReadPacketData()`; `none` when the loop is still running after that many calls. -/
def readRecordsWith : Nat → Bool → Nat → List Record → Option (Option Packet × List Record)
  | 0, _, _, _ => none
  | fuel + 1, persists, reader, [] =>
    if persists then readRecordsWith fuel persists reader []
    else some (none, [])
  | fuel + 1, persists, reader, Record.decodeError :: rest =>
    readRecordsWith fuel persists reader rest
  | fuel + 1, persists, reader, Record.data captureInfo data :: rest =>
    if data.length = 0 then readRecordsWith fuel persists reader rest
    else
      some
        (some
          { Timestamp := captureInfo.Timestamp
            CaptureInfo := captureInfo
            Data := data
            Reader := reader },
         rest)

/-- The function `readNext` for such readers: `persists` tells, by position, which readers
keep returning an error; `none` when the loop of `readNext` has not returned. -/
def readNextWith (fuel : Nat) (persists : List Bool) (reader : Nat) (st : State) :
    Option (Option Packet × State) :=
  match readRecordsWith fuel (persists.getD reader false) reader
      (st.readers.getD reader []) with
  | none => none
  | some (none, rest) =>
    some (none, { st with readers := st.readers.set reader rest
                          log := st.log ++ [Event.close reader] })
  | some (some p, rest) =>
    some (some p, { st with readers := st.readers.set reader rest })

/-- The body of the admission loop of `main` for such readers; `none` when `readNext` has
not returned. -/
def admitInputWith (fuel : Nat) (persists : List Bool) (st : State) (idx : Nat) :
    Input → Option (Except State State)
  | Input.openError => some (Except.ok st)
  | Input.headerError => some (Except.ok st)
  | Input.pcap readerSnaplen readerLinkType _ =>
    let st1 := { st with snaplen := max st.snaplen readerSnaplen }
    match reconcileLinkType st1.linkType readerLinkType with
    | none => some (Except.error st1)
    | some linkType =>
      match readNextWith fuel persists idx { st1 with linkType := linkType } with
      | none => none
      | some (some nextPacket, st2) =>
        some (Except.ok { st2 with minTimeHeap := heap.Push st2.minTimeHeap nextPacket })
      | some (none, st2) => some (Except.ok st2)

/-- The admission loop of `main` for such readers. -/
def admitLoopWith (fuel : Nat) (persists : List Bool) :
    Nat → List Input → State → Option (Except State State)
  | _, [], st => some (Except.ok st)
  | idx, input :: rest, st =>
    match admitInputWith fuel persists st idx input with
    | none => none
    | some (Except.error st1) => some (Except.error st1)
    | some (Except.ok st1) => admitLoopWith fuel persists (idx + 1) rest st1

/-- The inner `for` of the merge loop for such readers; `readFuel` bounds each call of
`readNext`, the third argument bounds the iterations of this loop. -/
def lookaheadLoopWith (readFuel : Nat) (persists : List Bool) :
    Nat → Packet → Int → State → Option State
  | 0, _, _, _ => none
  | fuel + 1, packet, earliestHeapTime, st =>
    match readNextWith readFuel persists packet.Reader st with
    | none => none
    | some (none, st1) => some st1
    | some (some nextPacket, st1) =>
      if nextPacket.Timestamp ≤ earliestHeapTime then
        lookaheadLoopWith readFuel persists fuel packet earliestHeapTime (write st1 nextPacket)
      else
        some { st1 with minTimeHeap := heap.Push st1.minTimeHeap nextPacket }

/-- The merge loop of `main` for such readers. -/
def mergeLoopWith (readFuel : Nat) (persists : List Bool) : Nat → State → Option State
  | 0, _ => none
  | fuel + 1, st =>
    match heap.Pop st.minTimeHeap with
    | none => some st
    | some (packet, h) =>
      let st1 := write { st with minTimeHeap := h } packet
      match lookaheadLoopWith readFuel persists (fuel + 1) packet (earliestHeapTime h) st1 with
      | none => none
      | some st2 => mergeLoopWith readFuel persists fuel st2

/-- The function `main` for such readers, every loop being cut after `fuel` iterations:
`Outcome.outOfFuel` when the run has not ended within that bound. -/
def mainWith (fuel : Nat) (persists : List Bool) (inFiles : List Input) : Outcome :=
  match admitLoopWith fuel persists 0 inFiles (initialState inFiles) with
  | none => Outcome.outOfFuel
  | some (Except.error st) => Outcome.panicked st
  | some (Except.ok st) =>
    let st1 := { st with log := st.log ++ [Event.fileHeader st.snaplen st.linkType] }
    match mergeLoopWith fuel persists fuel st1 with
    | none => Outcome.outOfFuel
    | some st2 => Outcome.finished st2

/-- Whether the run has ended, by the panic or by a normal return. -/
def Outcome.ended : Outcome → Bool
  | Outcome.outOfFuel => false
  | _ => true

/-- One admitted input with one valid record, whose reader then keeps returning an error. -/
def examplePersistentError : List Input :=
  [Input.pcap 65535 1 [exampleRecord 1 [1]]]

/-- The one packet of `examplePersistentError`, as its reader delivers it. -/
def examplePersistentPacket : Packet :=
  { Timestamp := 1,
    CaptureInfo := { Timestamp := 1, CaptureLength := 1, Length := 1, InterfaceIndex := 0 },
    Data := [1],
    Reader := 0 }

/-! ## The heap of `container/heap` -/

theorem Less_iff (h : PacketHeap) (i j : Nat) :
    PacketHeap.Less h i j = true ↔ tsAt h i < tsAt h j := by
  simp [PacketHeap.Less, tsAt]

theorem Swap_length (h : PacketHeap) (i j : Nat) : (PacketHeap.Swap h i j).length = h.length := by
  unfold PacketHeap.Swap
  split <;> simp

theorem Swap_eq (h : PacketHeap) (i j : Nat) (hi : i < h.length) (hj : j < h.length) :
    PacketHeap.Swap h i j = (h.set i (h.getD j default)).set j (h.getD i default) := by
  unfold PacketHeap.Swap
  rw [List.getElem?_eq_getElem hi, List.getElem?_eq_getElem hj,
    List.getD_eq_getElem _ _ hi, List.getD_eq_getElem _ _ hj]

theorem getD_set_eq (l : List Packet) (i k : Nat) (a : Packet) (hi : i < l.length) :
    (l.set i a).getD k default = if k = i then a else l.getD k default := by
  simp only [List.getD_eq_getElem?_getD, List.getElem?_set]
  by_cases hk : k = i
  · subst hk; simp [hi]
  · have : ¬ i = k := fun e => hk e.symm
    simp [hk, this]

theorem Swap_getD (h : PacketHeap) (i j k : Nat) (hi : i < h.length) (hj : j < h.length) :
    (PacketHeap.Swap h i j).getD k default =
      if k = j then h.getD i default else if k = i then h.getD j default else h.getD k default := by
  rw [Swap_eq h i j hi hj]
  rw [getD_set_eq _ _ _ _ (by simpa using hj), getD_set_eq _ _ _ _ hi]

theorem Swap_tsAt (h : PacketHeap) (i j k : Nat) (hi : i < h.length) (hj : j < h.length) :
    tsAt (PacketHeap.Swap h i j) k =
      if k = j then tsAt h i else if k = i then tsAt h j else tsAt h k := by
  unfold tsAt
  rw [Swap_getD h i j k hi hj]
  split_ifs <;> rfl

theorem getD_mem (l : List Packet) (i : Nat) (hi : i < l.length) : l.getD i default ∈ l := by
  rw [List.getD_eq_getElem _ _ hi]
  exact List.getElem_mem hi

theorem Swap_perm (h : PacketHeap) (i j : Nat) (hi : i < h.length) (hj : j < h.length) :
    (PacketHeap.Swap h i j).Perm h := by
  rw [List.perm_iff_count]
  intro a
  rw [Swap_eq h i j hi hj]
  have hj2 : j < (h.set i (h.getD j default)).length := by simpa using hj
  rw [List.count_set _ _ _ _ hj2, List.count_set _ _ _ _ hi]
  have e1 : (h.set i (h.getD j default))[j] = h.getD j default := by
    have := getD_set_eq h i j (h.getD j default) hi
    rw [List.getD_eq_getElem _ _ hj2] at this
    rw [this]; split_ifs <;> rfl
  have e2 : h[i] = h.getD i default := (List.getD_eq_getElem _ _ hi).symm
  rw [e1, e2]
  have m1 : h.getD i default ∈ h := getD_mem h i hi
  have c1 : (h.getD i default == a) = true → 1 ≤ h.count a := by
    intro e
    have : h.getD i default = a := by simpa using e
    rw [← this]; exact List.count_pos_iff.mpr m1
  by_cases hx : (h.getD i default == a) = true <;> by_cases hy : (h.getD j default == a) = true
  · have := c1 hx; simp only [hx, hy, if_true]; omega
  · have := c1 hx; simp only [hx, hy, if_true]; simp; omega
  · simp only [hx, hy, if_true]; simp
  · simp only [hx, hy]; simp

theorem up_spec : ∀ (fuel : Nat) (h : PacketHeap) (j : Nat), j ≤ fuel → j < h.length →
    (∀ k, 0 < k → k < h.length → k ≠ j → tsAt h ((k - 1) / 2) ≤ tsAt h k) →
    (0 < j → ∀ k, 0 < k → k < h.length → (k - 1) / 2 = j → tsAt h ((j - 1) / 2) ≤ tsAt h k) →
    IsHeap (heap.up fuel h j) ∧ (heap.up fuel h j).Perm h := by
  intro fuel
  induction fuel with
  | zero =>
    intro h j hf hj ha _
    have : j = 0 := by omega
    subst this
    refine ⟨?_, List.Perm.refl _⟩
    intro k hk hkn
    exact ha k hk hkn (by omega)
  | succ fuel ih =>
    intro h j hf hj ha hb
    unfold heap.up
    simp only
    by_cases hc : (j - 1) / 2 = j ∨ (!PacketHeap.Less h j ((j - 1) / 2)) = true
    · rw [if_pos hc]
      refine ⟨?_, List.Perm.refl _⟩
      intro k hk hkn
      by_cases hkj : k = j
      · subst hkj
        rcases hc with hc | hc
        · omega
        · have : ¬ tsAt h k < tsAt h ((k - 1) / 2) := by
            rw [← Less_iff]; simpa using hc
          omega
      · exact ha k hk hkn hkj
    · rw [if_neg hc]
      have hc1 : (j - 1) / 2 ≠ j := fun e => hc (Or.inl e)
      have hc2 : tsAt h j < tsAt h ((j - 1) / 2) := by
        rw [← Less_iff]
        by_contra hn
        exact hc (Or.inr (by simpa using hn))
      have hj0 : 0 < j := by omega
      have hi : (j - 1) / 2 < h.length := by omega
      have hlen := Swap_length h ((j - 1) / 2) j
      have key := ih (PacketHeap.Swap h ((j - 1) / 2) j) ((j - 1) / 2) (by omega) (by omega) ?_ ?_
      · exact ⟨key.1, key.2.trans (Swap_perm h _ _ hi hj)⟩
      · intro k hk hkn hki
        rw [hlen] at hkn
        rw [Swap_tsAt h _ _ _ hi hj, Swap_tsAt h _ _ _ hi hj]
        by_cases hkj : k = j
        · subst hkj
          simp only [if_true, if_neg hc1]
          omega
        · simp only [if_neg hkj, if_neg hki]
          by_cases hp : (k - 1) / 2 = j
          · have := hb hj0 k hk hkn hp
            simp only [hp, if_true]
            exact this
          · simp only [if_neg hp]
            have h1 := ha k hk hkn hkj
            by_cases hp2 : (k - 1) / 2 = (j - 1) / 2
            · simp only [hp2, if_true]
              rw [hp2] at h1
              omega
            · simp only [if_neg hp2]
              exact h1
      · intro hi0 k hk hkn hp
        rw [hlen] at hkn
        rw [Swap_tsAt h _ _ _ hi hj, Swap_tsAt h _ _ _ hi hj]
        have hpi : ((j - 1) / 2 - 1) / 2 ≠ j := by omega
        have hpi2 : ((j - 1) / 2 - 1) / 2 ≠ (j - 1) / 2 := by omega
        simp only [if_neg hpi, if_neg hpi2]
        have h0 := ha ((j - 1) / 2) hi0 hi hc1
        by_cases hkj : k = j
        · subst hkj
          simp only [if_true]
          exact h0
        · have hki : k ≠ (k - 1) / 2 := by omega
          rw [← hp]
          simp only [if_neg hkj, if_neg hki]
          have h1 := ha k hk hkn hkj
          rw [hp] at h1 ⊢
          omega

theorem IsHeapUpTo_root (h : PacketHeap) (n : Nat) (hh : IsHeapUpTo h n) :
    ∀ k, k < n → tsAt h 0 ≤ tsAt h k := by
  intro k
  induction k using Nat.strong_induction_on with
  | _ k ih =>
    intro hk
    by_cases h0 : k = 0
    · subst h0; exact le_refl _
    · have h1 := hh k (by omega) hk
      have h2 := ih ((k - 1) / 2) (by omega) (by omega)
      omega

theorem down_spec : ∀ (fuel : Nat) (h : PacketHeap) (i n : Nat), n - i ≤ fuel → n ≤ h.length →
    (∀ k, 0 < k → k < n → (k - 1) / 2 ≠ i → tsAt h ((k - 1) / 2) ≤ tsAt h k) →
    (0 < i → ∀ k, 0 < k → k < n → (k - 1) / 2 = i → tsAt h ((i - 1) / 2) ≤ tsAt h k) →
    IsHeapUpTo (heap.down fuel h i n) n ∧ (heap.down fuel h i n).Perm h ∧
      ∀ k, n ≤ k → (heap.down fuel h i n).getD k default = h.getD k default := by
  intro fuel
  induction fuel with
  | zero =>
    intro h i n hf hn ha _
    refine ⟨?_, List.Perm.refl _, fun _ _ => rfl⟩
    intro k hk hkn
    exact ha k hk hkn (by omega)
  | succ fuel ih =>
    intro h i n hf hn ha hb
    unfold heap.down
    simp only
    by_cases hc : 2 * i + 1 ≥ n
    · rw [if_pos hc]
      refine ⟨?_, List.Perm.refl _, fun _ _ => rfl⟩
      intro k hk hkn
      exact ha k hk hkn (by omega)
    · rw [if_neg hc]
      -- the smaller child
      obtain ⟨j, hjdef, hjc, hjmin⟩ : ∃ j,
          (if 2 * i + 1 + 1 < n ∧ PacketHeap.Less h (2 * i + 1 + 1) (2 * i + 1) = true
            then 2 * i + 1 + 1 else 2 * i + 1) = j ∧
          (j = 2 * i + 1 ∨ j = 2 * i + 2) ∧ j < n ∧
          ∀ k, 0 < k → k < n → (k - 1) / 2 = i → tsAt h j ≤ tsAt h k := by
        refine ⟨_, rfl, ?_⟩
        by_cases hr : 2 * i + 1 + 1 < n ∧ PacketHeap.Less h (2 * i + 1 + 1) (2 * i + 1) = true
        · rw [if_pos hr]
          refine ⟨Or.inr rfl, hr.1, ?_⟩
          intro k hk hkn hp
          have hlt := (Less_iff _ _ _).mp hr.2
          have : k = 2 * i + 1 ∨ k = 2 * i + 1 + 1 := by omega
          rcases this with e | e
          · subst e; omega
          · subst e; exact le_refl _
        · rw [if_neg hr]
          refine ⟨Or.inl rfl, by omega, ?_⟩
          intro k hk hkn hp
          have : k = 2 * i + 1 ∨ k = 2 * i + 1 + 1 := by omega
          rcases this with e | e
          · subst e; exact le_refl _
          · subst e
            have : ¬ tsAt h (2 * i + 1 + 1) < tsAt h (2 * i + 1) := by
              rw [← Less_iff]
              intro hl
              exact hr ⟨hkn, hl⟩
            omega
      rw [hjdef]
      have hji : (j - 1) / 2 = i := by omega
      by_cases hl : (!PacketHeap.Less h j i) = true
      · rw [if_pos hl]
        refine ⟨?_, List.Perm.refl _, fun _ _ => rfl⟩
        intro k hk hkn
        by_cases hp : (k - 1) / 2 = i
        · have h1 := hjmin.2 k hk hkn hp
          have : ¬ tsAt h j < tsAt h i := by
            rw [← Less_iff]; simpa using hl
          rw [hp]; omega
        · exact ha k hk hkn hp
      · rw [if_neg hl]
        have hlt : tsAt h j < tsAt h i := by
          rw [← Less_iff]
          by_contra hn
          exact hl (by simpa using hn)
        have hjn := hjmin.1
        have hil : i < h.length := by omega
        have hjl : j < h.length := by omega
        have hlen := Swap_length h i j
        have hij : i ≠ j := by omega
        have key := ih (PacketHeap.Swap h i j) j n (by omega) (by omega) ?_ ?_
        · refine ⟨key.1, key.2.1.trans (Swap_perm h _ _ hil hjl), ?_⟩
          intro k hk
          rw [key.2.2 k hk, Swap_getD h i j k hil hjl]
          have h1 : k ≠ j := by omega
          have h2 : k ≠ i := by omega
          simp only [if_neg h1, if_neg h2]
        · intro k hk hkn hp
          rw [Swap_tsAt h _ _ _ hil hjl, Swap_tsAt h _ _ _ hil hjl]
          simp only [if_neg hp]
          by_cases hkj : k = j
          · subst hkj
            simp only [if_true, hji]
            omega
          · simp only [if_neg hkj]
            by_cases hki : k = i
            · subst hki
              have hpk : (k - 1) / 2 ≠ k := by omega
              simp only [if_true, if_neg hpk]
              exact hb hk j (by omega) hjn hji
            · simp only [if_neg hki]
              by_cases hp2 : (k - 1) / 2 = i
              · simp only [hp2, if_true]
                exact hjmin.2 k hk hkn hp2
              · simp only [if_neg hp2]
                exact ha k hk hkn hp2
        · intro hj0 k hk hkn hp
          rw [Swap_tsAt h _ _ _ hil hjl, Swap_tsAt h _ _ _ hil hjl]
          have h1 : k ≠ j := by omega
          have h2 : k ≠ i := by omega
          have h3 : (j - 1) / 2 ≠ j := by omega
          simp only [if_neg h1, if_neg h2, if_neg h3, hji, if_true, if_neg hij]
          have := ha k hk hkn (by omega)
          rw [hp] at this
          exact this

theorem IsHeap_nil : IsHeap [] := by
  intro k _ hk
  simp at hk

theorem tsAt_append_left (h : PacketHeap) (x : Packet) (k : Nat) (hk : k < h.length) :
    tsAt (h ++ [x]) k = tsAt h k := by
  unfold tsAt
  rw [List.getD_append _ _ _ _ hk]

theorem heap_Push_spec (h : PacketHeap) (x : Packet) (hh : IsHeap h) :
    IsHeap (heap.Push h x) ∧ (heap.Push h x).Perm (x :: h) := by
  unfold heap.Push PacketHeap.Push
  simp only [List.length_append, List.length_singleton, Nat.add_sub_cancel]
  have key := up_spec h.length (h ++ [x]) h.length (le_refl _) (by simp) ?_ ?_
  · exact ⟨key.1, key.2.trans (List.perm_append_singleton x h)⟩
  · intro k hk hkn hkj
    have hkl : k < h.length := by
      simp at hkn; omega
    rw [tsAt_append_left h x k hkl, tsAt_append_left h x _ (by omega)]
    exact hh k hk hkl
  · intro hj k hk hkn hp
    simp at hkn
    omega

theorem IsHeap_head_le (p : Packet) (h : PacketHeap) (hh : IsHeap (p :: h)) :
    ∀ q ∈ p :: h, p.Timestamp ≤ q.Timestamp := by
  intro q hq
  obtain ⟨k, hk, rfl⟩ := List.getElem_of_mem hq
  have := IsHeapUpTo_root _ _ hh k hk
  unfold tsAt at this
  rw [List.getD_eq_getElem _ _ hk] at this
  simpa using this

theorem heap_Pop_nil : heap.Pop [] = none := rfl

theorem heap_Pop_spec (h : PacketHeap) (hh : IsHeap h) (hne : h ≠ []) :
    ∃ p h', heap.Pop h = some (p, h') ∧ h.Perm (p :: h') ∧ IsHeap h' ∧
      (∀ q ∈ h', p.Timestamp ≤ q.Timestamp) ∧ h.head? = some p := by
  have hlen : 0 < h.length := List.length_pos.mpr hne
  unfold heap.Pop
  rw [if_neg (by omega)]
  simp only
  have h0 : 0 < h.length := hlen
  have hn : h.length - 1 < h.length := by omega
  have hsl := Swap_length h 0 (h.length - 1)
  have key := down_spec (h.length - 1) (PacketHeap.Swap h 0 (h.length - 1)) 0 (h.length - 1)
    (by omega) (by omega) ?_ ?_
  · obtain ⟨k1, k2, k3⟩ := key
    generalize heap.down (h.length - 1) (PacketHeap.Swap h 0 (h.length - 1)) 0 (h.length - 1) = h2
      at k1 k2 k3
    have hl2 : h2.length = h.length := by rw [k2.length_eq, hsl]
    have hne2 : h2 ≠ [] := by
      intro e; rw [e] at hl2; simp at hl2; omega
    have hlast : h2.getLast? = some (h2.getLast hne2) := List.getLast?_eq_getLast _ hne2
    unfold PacketHeap.Pop
    rw [hlast]
    refine ⟨_, _, rfl, ?_, ?_, ?_, ?_⟩
    · have e : h2 = h2.dropLast ++ [h2.getLast hne2] := (List.dropLast_append_getLast hne2).symm
      have p1 : h2.Perm (h2.getLast hne2 :: h2.dropLast) := by
        conv_lhs => rw [e]
        exact List.perm_append_singleton _ _
      exact ((k2.trans (Swap_perm h _ _ h0 hn)).symm).trans p1
    · intro k hk hkn
      have hkn' : k < h.length - 1 := by simpa [hl2] using hkn
      have e : ∀ m, m < h.length - 1 → tsAt h2.dropLast m = tsAt h2 m := by
        intro m hm
        unfold tsAt
        have hm1 : m < h2.dropLast.length := by simp [hl2]; exact hm
        have hm2 : m < h2.length := by omega
        rw [List.getD_eq_getElem _ _ hm1, List.getD_eq_getElem _ _ hm2]
        simp [List.getElem_dropLast]
      rw [e k hkn', e _ (by omega)]
      exact k1 k hk hkn'
    · have elast : h2.getLast hne2 = h.getD 0 default := by
        rw [List.getLast_eq_getElem]
        have := k3 (h.length - 1) (le_refl _)
        rw [List.getD_eq_getElem _ _ (by omega)] at this
        simp only [hl2]
        rw [this, Swap_getD h 0 (h.length - 1) _ h0 hn]
        simp
      have hperm : h.Perm (h2.getLast hne2 :: h2.dropLast) := by
        have e : h2 = h2.dropLast ++ [h2.getLast hne2] := (List.dropLast_append_getLast hne2).symm
        have p1 : h2.Perm (h2.getLast hne2 :: h2.dropLast) := by
          conv_lhs => rw [e]
          exact List.perm_append_singleton _ _
        exact ((k2.trans (Swap_perm h _ _ h0 hn)).symm).trans p1
      intro q hq
      have hqh : q ∈ h := hperm.symm.subset (List.mem_cons_of_mem _ hq)
      obtain ⟨k, hk, rfl⟩ := List.getElem_of_mem hqh
      have := IsHeapUpTo_root _ _ hh k hk
      unfold tsAt at this
      rw [List.getD_eq_getElem _ _ hk] at this
      rw [elast]
      exact this
    · rw [List.getLast_eq_getElem]
      have := k3 (h.length - 1) (le_refl _)
      rw [List.getD_eq_getElem _ _ (by omega)] at this
      simp only [hl2]
      rw [this, Swap_getD h 0 (h.length - 1) _ h0 hn]
      simp only [if_true]
      cases h with
      | nil => exact absurd rfl hne
      | cons a t => rfl
  · intro k hk hkn hp
    rw [Swap_tsAt h _ _ _ h0 hn, Swap_tsAt h _ _ _ h0 hn]
    have h1 : k ≠ h.length - 1 := by omega
    have h2 : k ≠ 0 := by omega
    have h3 : (k - 1) / 2 ≠ h.length - 1 := by omega
    simp only [if_neg h1, if_neg h2, if_neg h3, if_neg hp]
    exact hh k hk (by omega)
  · intro hi
    omega

/-! ## Reading records -/

theorem readRecords_spec (s : Nat) : ∀ recs : List Record,
    (∀ rest, readRecords s recs = (none, rest) → validPackets s recs = [] ∧ rest = []) ∧
    (∀ q rest, readRecords s recs = (some q, rest) →
      validPackets s recs = q :: validPackets s rest ∧ rest.length < recs.length ∧ q.Reader = s)
  | [] => by
    constructor
    · intro rest h
      simp [readRecords] at h
      exact ⟨rfl, h⟩
    · intro q rest h
      simp [readRecords] at h
  | Record.decodeError :: t => by
    have ih := readRecords_spec s t
    constructor
    · intro rest h
      rw [readRecords] at h
      have := ih.1 rest h
      simpa [validPackets, Record.toPacket] using this
    · intro q rest h
      rw [readRecords] at h
      obtain ⟨a, b, c⟩ := ih.2 q rest h
      refine ⟨?_, ?_, c⟩
      · simpa [validPackets, Record.toPacket] using a
      · simp; omega
  | Record.data ci d :: t => by
    have ih := readRecords_spec s t
    by_cases hd : d.length = 0
    · constructor
      · intro rest h
        rw [readRecords, if_pos hd] at h
        have := ih.1 rest h
        simpa [validPackets, Record.toPacket, hd] using this
      · intro q rest h
        rw [readRecords, if_pos hd] at h
        obtain ⟨a, b, c⟩ := ih.2 q rest h
        refine ⟨?_, ?_, c⟩
        · simpa [validPackets, Record.toPacket, hd] using a
        · simp; omega
    · constructor
      · intro rest h
        rw [readRecords, if_neg hd] at h
        simp at h
      · intro q rest h
        rw [readRecords, if_neg hd] at h
        simp only [Prod.mk.injEq, Option.some.injEq] at h
        obtain ⟨rfl, rfl⟩ := h
        refine ⟨?_, by simp, rfl⟩
        simp [validPackets, Record.toPacket, hd]

theorem sum_length_set (l : List (List Record)) (i : Nat) (r : List Record) (hi : i < l.length) :
    ((l.set i r).map List.length).sum + (l.getD i []).length = (l.map List.length).sum + r.length := by
  induction l generalizing i with
  | nil => simp at hi
  | cons a t ih =>
    cases i with
    | zero => simp; omega
    | succ i =>
      have := ih i (by simpa using hi)
      simp at this ⊢
      omega

theorem getD_set_records (l : List (List Record)) (i k : Nat) (r : List Record) :
    (l.set i r).getD k [] = if k = i ∧ i < l.length then r else l.getD k [] := by
  simp only [List.getD_eq_getElem?_getD, List.getElem?_set]
  by_cases hk : i = k
  · subst hk
    by_cases hi : i < l.length
    · simp [hi]
    · simp [hi]
      rw [List.getElem?_eq_none (by omega)]
      rfl
  · have : ¬ k = i := fun e => hk e.symm
    simp [hk, this]

theorem written_append (l1 l2 : List Event) : written (l1 ++ l2) = written l1 ++ written l2 := by
  simp [written]

theorem readNext_none (s : Nat) (st st1 : State) (h : readNext s st = (none, st1)) :
    st1.minTimeHeap = st.minTimeHeap ∧ st1.snaplen = st.snaplen ∧ st1.linkType = st.linkType ∧
    st1.log = st.log ++ [Event.close s] ∧
    (∀ i, i ≠ s → st1.readers.getD i [] = st.readers.getD i []) ∧
    st1.readers.getD s [] = [] ∧ unread st s = [] ∧
    (st1.readers.map List.length).sum ≤ (st.readers.map List.length).sum ∧
    st1.readers.length = st.readers.length := by
  unfold readNext at h
  rcases hr : readRecords s (st.readers.getD s []) with ⟨r, rest⟩
  rw [hr] at h
  cases r with
  | some q => simp at h
  | none =>
    simp only [Prod.mk.injEq, true_and] at h
    subst h
    obtain ⟨hv, hrest⟩ := (readRecords_spec s _).1 rest hr
    subst hrest
    refine ⟨rfl, rfl, rfl, rfl, ?_, ?_, hv, ?_, by simp⟩
    · intro i hi
      simp only [getD_set_records]
      rw [if_neg (fun e => hi e.1)]
    · simp only [getD_set_records]
      split_ifs with hc
      · rfl
      · simp only [not_and, forall_const] at hc
        simp only [List.getD_eq_getElem?_getD]
        rw [List.getElem?_eq_none (by omega)]
        rfl
    · by_cases hs : s < st.readers.length
      · have := sum_length_set st.readers s [] hs
        simp at this ⊢
        omega
      · rw [List.set_eq_of_length_le (by omega)]

theorem readNext_some (s : Nat) (st st1 : State) (q : Packet) (h : readNext s st = (some q, st1)) :
    st1.minTimeHeap = st.minTimeHeap ∧ st1.snaplen = st.snaplen ∧ st1.linkType = st.linkType ∧
    st1.log = st.log ∧
    (∀ i, i ≠ s → st1.readers.getD i [] = st.readers.getD i []) ∧
    unread st s = q :: unread st1 s ∧ q.Reader = s ∧
    (st1.readers.map List.length).sum < (st.readers.map List.length).sum ∧
    st1.readers.length = st.readers.length ∧
    (st1.readers.getD s []).length < (st.readers.getD s []).length := by
  unfold readNext at h
  rcases hr : readRecords s (st.readers.getD s []) with ⟨r, rest⟩
  rw [hr] at h
  cases r with
  | none => simp at h
  | some q' =>
    simp only [Prod.mk.injEq, Option.some.injEq] at h
    obtain ⟨rfl, rfl⟩ := h
    obtain ⟨hv, hlen, hq⟩ := (readRecords_spec s _).2 q' rest hr
    have hs : s < st.readers.length := by
      by_contra hn
      simp only [List.getD_eq_getElem?_getD] at hlen
      rw [List.getElem?_eq_none (by omega)] at hlen
      simp at hlen
    have hget : (st.readers.set s rest).getD s [] = rest := by
      rw [getD_set_records]; simp [hs]
    refine ⟨rfl, rfl, rfl, rfl, ?_, ?_, hq, ?_, by simp, by rw [hget]; exact hlen⟩
    · intro i hi
      simp only [getD_set_records]
      rw [if_neg (fun e => hi e.1)]
    · unfold unread
      simp only [hget]
      exact hv
    · have := sum_length_set st.readers s rest hs
      simp only
      omega

/-! ## Steps of the loops -/

theorem fromReader_append (i : Nat) (l1 l2 : List Packet) :
    fromReader i (l1 ++ l2) = fromReader i l1 ++ fromReader i l2 := by
  simp [fromReader]

theorem fromReader_single_self (p : Packet) : fromReader p.Reader [p] = [p] := by
  simp [fromReader]

theorem fromReader_single_ne (i : Nat) (p : Packet) (h : p.Reader ≠ i) : fromReader i [p] = [] := by
  simp [fromReader, h]

theorem fromReader_cons_self (p : Packet) (l : List Packet) :
    fromReader p.Reader (p :: l) = p :: fromReader p.Reader l := by
  simp [fromReader]

theorem fromReader_cons_ne (i : Nat) (p : Packet) (l : List Packet) (h : p.Reader ≠ i) :
    fromReader i (p :: l) = fromReader i l := by
  simp [fromReader, h]

theorem fromReader_perm (i : Nat) {l1 l2 : List Packet} (h : l1.Perm l2) :
    (fromReader i l1).Perm (fromReader i l2) :=
  h.filter _

theorem mem_of_fromReader_eq (i : Nat) (l : List Packet) (p : Packet) (h : fromReader i l = [p]) :
    p ∈ l := by
  have : p ∈ fromReader i l := by rw [h]; simp
  exact (List.mem_filter.mp this).1

theorem written_write (st : State) (q : Packet) :
    written (write st q).log = written st.log ++ [q] := by
  simp [write, written, Event.toPacket]

theorem written_close (l : List Event) (s : Nat) : written (l ++ [Event.close s]) = written l := by
  simp [written, Event.toPacket]

theorem written_header (l : List Event) (a b : Nat) :
    written (l ++ [Event.fileHeader a b]) = written l := by
  simp [written, Event.toPacket]

theorem SourceOuter_congr (srcs : Nat → List Packet) (st st1 : State) (i : Nat)
    (hh : fromReader i st1.minTimeHeap = fromReader i st.minTimeHeap)
    (hr : st1.readers.getD i [] = st.readers.getD i [])
    (hw : fromReader i (written st1.log) = fromReader i (written st.log))
    (h : SourceOuter srcs st i) : SourceOuter srcs st1 i := by
  unfold SourceOuter unread at *
  rw [hh, hr, hw]
  exact h

theorem SourceOuter_perm (srcs : Nat → List Packet) (st st1 : State) (i : Nat)
    (hh : (fromReader i st1.minTimeHeap).Perm (fromReader i st.minTimeHeap))
    (hr : st1.readers.getD i [] = st.readers.getD i [])
    (hw : fromReader i (written st1.log) = fromReader i (written st.log))
    (h : SourceOuter srcs st i) : SourceOuter srcs st1 i := by
  refine SourceOuter_congr srcs st st1 i ?_ hr hw h
  rcases h with ⟨h1, _⟩ | ⟨p, h1, _⟩
  · rw [h1] at hh ⊢
    exact List.perm_nil.mp hh
  · rw [h1] at hh ⊢
    exact List.perm_singleton.mp hh

theorem sorted_tail_le (l a r : List Packet) (p : Packet) (hs : l.Pairwise tsLE)
    (e : a ++ p :: r = l) : ∀ x ∈ r, tsLE p x := by
  subst e
  have := (List.pairwise_append.mp hs).2.1
  exact (List.pairwise_cons.mp this).1

theorem unread_eq (st st1 : State) (i : Nat) (h : st1.readers.getD i [] = st.readers.getD i []) :
    unread st1 i = unread st i := by
  unfold unread; rw [h]

theorem unread_nil_of (st : State) (i : Nat) (h : st.readers.getD i [] = []) : unread st i = [] := by
  unfold unread; rw [h]; rfl

theorem step_eof (srcs : Nat → List Packet) (A B : Nat → Prop) (s : Nat) (st st1 : State)
    (hAB : ∀ i, B i → i ≠ s → A i)
    (hI : InnerInv srcs A s st) (hr : readNext s st = (none, st1)) : OuterInv srcs B st1 := by
  obtain ⟨hheap, _, _, hlog, hoth, hself, hun, _, _⟩ := readNext_none s st st1 hr
  obtain ⟨i1, i2, i3, i4⟩ := hI
  have hw : written st1.log = written st.log := by rw [hlog, written_close]
  refine ⟨by rw [hheap]; exact i1, ?_, ?_⟩
  · intro i hB
    by_cases hi : i = s
    · subst hi
      left
      refine ⟨by rw [hheap]; exact i2.1, hself, ?_⟩
      have := i2.2
      rw [hun, List.append_nil] at this
      rw [hw]; exact this
    · exact SourceOuter_congr srcs st st1 i (by rw [hheap]) (hoth i hi) (by rw [hw])
        (i3 i (hAB i hB hi) hi)
  · intro hs
    obtain ⟨o1, o2, o3⟩ := i4 hs
    refine ⟨by rw [hw]; exact o1, ?_, ?_⟩
    · rw [hw, hheap]; exact o2
    · rw [hw]
      intro w hw' i q hq
      by_cases hi : i = s
      · subst hi
        rw [unread_nil_of st1 i hself] at hq
        simp at hq
      · rw [unread_eq st st1 i (hoth i hi)] at hq
        exact o3 w hw' i q hq

theorem step_push (srcs : Nat → List Packet) (A B : Nat → Prop) (s : Nat) (st st1 : State)
    (q : Packet) (hAB : ∀ i, B i → i ≠ s → A i)
    (hI : InnerInv srcs A s st) (hr : readNext s st = (some q, st1)) :
    OuterInv srcs B { st1 with minTimeHeap := heap.Push st1.minTimeHeap q } := by
  obtain ⟨hheap, _, _, hlog, hoth, hun, hq, _, _, _⟩ := readNext_some s st st1 q hr
  obtain ⟨i1, i2, i3, i4⟩ := hI
  obtain ⟨p1, p2⟩ := heap_Push_spec st1.minTimeHeap q (by rw [hheap]; exact i1)
  rw [hheap] at p2
  subst hq
  refine ⟨p1, ?_, ?_⟩
  · intro i hB
    by_cases hi : i = q.Reader
    · subst hi
      right
      refine ⟨q, ?_, ?_⟩
      · have := fromReader_perm q.Reader p2
        rw [fromReader_cons_self, i2.1] at this
        simpa [hheap] using List.perm_singleton.mp this
      · simp only [hlog]
        show fromReader q.Reader (written st.log) ++ q :: unread st1 q.Reader = _
        rw [← hun]; exact i2.2
    · have hne : q.Reader ≠ i := fun e => hi e.symm
      refine SourceOuter_perm srcs st _ i ?_ (hoth i hi) (by simp only [hlog])
        (i3 i (hAB i hB hi) hi)
      have := fromReader_perm i p2
      rw [fromReader_cons_ne i q _ hne] at this
      simpa [hheap] using this
  · intro hs
    obtain ⟨o1, o2, o3⟩ := i4 hs
    have hqmem : q ∈ unread st q.Reader := by rw [hun]; simp
    refine ⟨by simp only [hlog]; exact o1, ?_, ?_⟩
    · simp only [hlog, hheap]
      intro w hw x hx
      have := p2.subset hx
      rcases List.mem_cons.mp this with e | e
      · subst e; exact o3 w hw _ _ hqmem
      · exact o2 w hw x e
    · simp only [hlog]
      intro w hw i x hx
      by_cases hi : i = q.Reader
      · subst hi
        have hx' : x ∈ unread st1 q.Reader := hx
        exact o3 w hw q.Reader x (by rw [hun]; exact List.mem_cons_of_mem _ hx')
      · have hx' : x ∈ unread st1 i := hx
        rw [unread_eq st st1 i (hoth i hi)] at hx'
        exact o3 w hw i x hx'

theorem earliest_le (h : PacketHeap) (hh : IsHeap h) (q : Packet)
    (hq : q.Timestamp ≤ earliestHeapTime h) : ∀ x ∈ h, tsLE q x := by
  cases h with
  | nil => intro x hx; simp at hx
  | cons p t =>
    intro x hx
    have := IsHeap_head_le p t hh x hx
    unfold earliestHeapTime at hq
    unfold tsLE
    simp only at hq
    omega

theorem pending_le (srcs : Nat → List Packet) (st : State) (i : Nat) (q : Packet)
    (hs : ∀ i, (srcs i).Pairwise tsLE) (ho : SourceOuter srcs st i)
    (hq : ∀ x ∈ st.minTimeHeap, tsLE q x) : ∀ x ∈ unread st i, tsLE q x := by
  intro x hx
  rcases ho with ⟨_, h2, _⟩ | ⟨p, h1, h2⟩
  · rw [unread_nil_of st i h2] at hx
    simp at hx
  · have hp := hq p (mem_of_fromReader_eq i _ p h1)
    have := sorted_tail_le _ _ _ p (hs i) h2 x hx
    unfold tsLE at *
    omega

theorem step_write (srcs : Nat → List Packet) (s : Nat) (st st1 : State) (q : Packet)
    (hI : InnerInv srcs (fun _ => True) s st) (hr : readNext s st = (some q, st1))
    (hle : q.Timestamp ≤ earliestHeapTime st.minTimeHeap) :
    InnerInv srcs (fun _ => True) s (write st1 q) := by
  obtain ⟨hheap, _, _, hlog, hoth, hun, hq, _, _, _⟩ := readNext_some s st st1 q hr
  obtain ⟨i1, i2, i3, i4⟩ := hI
  subst hq
  have hwr : written (write st1 q).log = written st.log ++ [q] := by
    rw [written_write, hlog]
  have hhp : (write st1 q).minTimeHeap = st.minTimeHeap := hheap
  have hrd : (write st1 q).readers = st1.readers := rfl
  have hunw : ∀ i, unread (write st1 q) i = unread st1 i := fun _ => rfl
  refine ⟨by rw [hhp]; exact i1, ⟨by rw [hhp]; exact i2.1, ?_⟩, ?_, ?_⟩
  · rw [hwr, fromReader_append, fromReader_single_self, hunw, List.append_assoc]
    simp only [List.singleton_append]
    rw [← hun]; exact i2.2
  · intro i _ hi
    have hne : q.Reader ≠ i := fun e => hi e.symm
    refine SourceOuter_congr srcs st _ i (by rw [hhp]) (by rw [hrd]; exact hoth i hi) ?_
      (i3 i trivial hi)
    rw [hwr, fromReader_append, fromReader_single_ne i q hne, List.append_nil]
  · intro hs
    obtain ⟨o1, o2, o3⟩ := i4 hs
    have hqmem : q ∈ unread st q.Reader := by rw [hun]; simp
    have hqheap := earliest_le st.minTimeHeap i1 q hle
    have hqun : ∀ i, ∀ x ∈ unread st1 i, tsLE q x := by
      intro i x hx
      by_cases hi : i = q.Reader
      · subst hi
        have e : (fromReader q.Reader (written st.log)) ++ q :: unread st1 q.Reader = srcs q.Reader := by
          rw [← hun]; exact i2.2
        exact sorted_tail_le _ _ _ q (hs _) e x hx
      · rw [unread_eq st st1 i (hoth i hi)] at hx
        exact pending_le srcs st i q hs (i3 i trivial hi) hqheap x hx
    refine ⟨?_, ?_, ?_⟩
    · rw [hwr, List.pairwise_append]
      refine ⟨o1, by simp, ?_⟩
      intro w hw x hx
      simp only [List.mem_singleton] at hx
      subst hx
      exact o3 w hw _ _ hqmem
    · rw [hwr, hhp]
      intro w hw x hx
      rcases List.mem_append.mp hw with e | e
      · exact o2 w e x hx
      · simp only [List.mem_singleton] at e
        subst e
        exact hqheap x hx
    · rw [hwr]
      intro w hw i x hx
      rw [hunw] at hx
      rcases List.mem_append.mp hw with e | e
      · by_cases hi : i = q.Reader
        · subst hi
          exact o3 w e q.Reader x (by rw [hun]; exact List.mem_cons_of_mem _ hx)
        · rw [unread_eq st st1 i (hoth i hi)] at hx
          exact o3 w e i x hx
      · simp only [List.mem_singleton] at e
        subst e
        exact hqun i x hx

theorem step_pop (srcs : Nat → List Packet) (st : State) (p : Packet) (h : PacketHeap)
    (hO : OuterInv srcs (fun _ => True) st) (hp : heap.Pop st.minTimeHeap = some (p, h)) :
    InnerInv srcs (fun _ => True) p.Reader (write { st with minTimeHeap := h } p) ∧
      h.length + 1 = st.minTimeHeap.length := by
  obtain ⟨o1, o2, o3⟩ := hO
  have hne : st.minTimeHeap ≠ [] := by
    intro e; rw [e, heap_Pop_nil] at hp; simp at hp
  obtain ⟨p', h', e1, hperm, hheap, hmin, _⟩ := heap_Pop_spec st.minTimeHeap o1 hne
  rw [hp] at e1
  simp only [Option.some.injEq, Prod.mk.injEq] at e1
  obtain ⟨rfl, rfl⟩ := e1
  have hlen : h.length + 1 = st.minTimeHeap.length := by
    have := hperm.length_eq; simp at this; omega
  refine ⟨?_, hlen⟩
  have hwr : written (write { st with minTimeHeap := h } p).log = written st.log ++ [p] :=
    written_write _ p
  have hunw : ∀ i, unread (write { st with minTimeHeap := h } p) i = unread st i := fun _ => rfl
  have hhp : (write { st with minTimeHeap := h } p).minTimeHeap = h := rfl
  have hrd : (write { st with minTimeHeap := h } p).readers = st.readers := rfl
  have hpmem : p ∈ st.minTimeHeap := hperm.symm.subset (List.mem_cons_self _ _)
  have hsub : ∀ x ∈ h, x ∈ st.minTimeHeap := fun x hx =>
    hperm.symm.subset (List.mem_cons_of_mem _ hx)
  have hself : fromReader p.Reader h = [] ∧
      fromReader p.Reader (written st.log) ++ p :: unread st p.Reader = srcs p.Reader := by
    have hpp := fromReader_perm p.Reader hperm
    rw [fromReader_cons_self] at hpp
    rcases o2 p.Reader trivial with ⟨a, _, _⟩ | ⟨p', a, b⟩
    · rw [a] at hpp
      exact absurd (List.perm_nil.mp hpp.symm) (by simp)
    · rw [a] at hpp
      have := hpp.length_eq
      simp at this
      have hnil : fromReader p.Reader h = [] := this
      rw [hnil] at hpp
      have := List.perm_singleton.mp hpp.symm
      simp only [List.cons.injEq, and_true] at this
      subst this
      exact ⟨hnil, b⟩
  refine ⟨by rw [hhp]; exact hheap, ⟨by rw [hhp]; exact hself.1, ?_⟩, ?_, ?_⟩
  · rw [hwr, fromReader_append, fromReader_single_self, hunw, List.append_assoc]
    simpa using hself.2
  · intro i _ hi
    have hne' : p.Reader ≠ i := fun e => hi e.symm
    refine SourceOuter_perm srcs st _ i ?_ (by rw [hrd]) ?_ (o2 i trivial)
    · rw [hhp]
      have := fromReader_perm i hperm
      rw [fromReader_cons_ne i p _ hne'] at this
      exact this.symm
    · rw [hwr, fromReader_append, fromReader_single_ne i p hne', List.append_nil]
  · intro hs
    obtain ⟨s1, s2, s3⟩ := o3 hs
    have hpall : ∀ x ∈ st.minTimeHeap, tsLE p x := by
      intro x hx
      rcases List.mem_cons.mp (hperm.subset hx) with e | e
      · subst e; exact le_refl _
      · exact hmin x e
    refine ⟨?_, ?_, ?_⟩
    · rw [hwr, List.pairwise_append]
      refine ⟨s1, by simp, ?_⟩
      intro w hw x hx
      simp only [List.mem_singleton] at hx
      subst hx
      exact s2 w hw _ hpmem
    · rw [hwr, hhp]
      intro w hw x hx
      rcases List.mem_append.mp hw with e | e
      · exact s2 w e x (hsub x hx)
      · simp only [List.mem_singleton] at e
        subst e
        exact hmin x hx
    · rw [hwr]
      intro w hw i x hx
      rw [hunw] at hx
      rcases List.mem_append.mp hw with e | e
      · exact s3 w e i x hx
      · simp only [List.mem_singleton] at e
        subst e
        exact pending_le srcs st i w hs (o2 i trivial) hpall x hx

/-! ## The loops -/

theorem headers_write (st : State) (q : Packet) : headers (write st q).log = headers st.log := by
  simp [write, headers]

theorem headers_close (l : List Event) (s : Nat) : headers (l ++ [Event.close s]) = headers l := by
  simp [headers]

theorem getD_length_le_sum (l : List (List Record)) (i : Nat) :
    (l.getD i []).length ≤ (l.map List.length).sum := by
  induction l generalizing i with
  | nil => simp
  | cons a t ih =>
    cases i with
    | zero => simp
    | succ i =>
      have := ih i
      simp at this ⊢
      omega

theorem heap_Push_length (h : PacketHeap) (x : Packet) (hh : IsHeap h) :
    (heap.Push h x).length = h.length + 1 := by
  have := (heap_Push_spec h x hh).2.length_eq
  simpa using this

theorem heap_Pop_none (h : PacketHeap) (hh : IsHeap h) (hp : heap.Pop h = none) : h = [] := by
  by_contra hne
  obtain ⟨p, h', e, _⟩ := heap_Pop_spec h hh hne
  rw [hp] at e
  simp at e

theorem Frame.rfl' (st : State) : Frame st st := ⟨rfl, rfl, rfl, rfl⟩

theorem Frame.trans {a b c : State} (h1 : Frame a b) (h2 : Frame b c) : Frame a c :=
  ⟨h2.snaplen.trans h1.snaplen, h2.linkType.trans h1.linkType, h2.headers.trans h1.headers,
    h2.readers.trans h1.readers⟩

theorem lookaheadLoop_spec (srcs : Nat → List Packet) (packet : Packet) (h : PacketHeap) :
    ∀ (fuel : Nat) (st : State), InnerInv srcs (fun _ => True) packet.Reader st →
      st.minTimeHeap = h → (st.readers.getD packet.Reader []).length < fuel →
      ∃ st1, lookaheadLoop fuel packet (earliestHeapTime h) st = some st1 ∧
        OuterInv srcs (fun _ => True) st1 ∧ remaining st1 ≤ remaining st ∧ Frame st st1 := by
  intro fuel
  induction fuel with
  | zero => intro st _ _ hf; omega
  | succ fuel ih =>
    intro st hI hh hf
    unfold lookaheadLoop
    rcases hr : readNext packet.Reader st with ⟨r, st1⟩
    cases r with
    | none =>
      simp only
      obtain ⟨a1, a2, a3, a4, _, _, _, a8, a9⟩ := readNext_none _ st st1 hr
      refine ⟨st1, rfl, step_eof srcs _ _ _ st st1 (fun _ _ _ => trivial) hI hr, ?_,
        ⟨a2, a3, by rw [a4, headers_close], a9⟩⟩
      unfold remaining
      rw [a1]; omega
    | some q =>
      simp only
      obtain ⟨a1, a2, a3, a4, _, _, _, a8, a9, a10⟩ := readNext_some _ st st1 q hr
      by_cases hle : q.Timestamp ≤ earliestHeapTime h
      · rw [if_pos hle]
        have hI' := step_write srcs _ st st1 q hI hr (by rw [hh]; exact hle)
        obtain ⟨st2, e, b1, b2, b3⟩ := ih (write st1 q) hI' (by rw [← hh]; exact a1)
          (by show (st1.readers.getD packet.Reader []).length < fuel; omega)
        refine ⟨st2, e, b1, ?_, ?_⟩
        · have : remaining (write st1 q) ≤ remaining st := by
            unfold remaining
            show (st1.readers.map List.length).sum + st1.minTimeHeap.length ≤ _
            rw [a1]; omega
          omega
        · have f1 : Frame st (write st1 q) := ⟨a2, a3, by rw [headers_write, a4], a9⟩
          exact Frame.trans f1 b3
      · rw [if_neg hle]
        refine ⟨_, rfl, step_push srcs _ _ _ st st1 q (fun _ _ _ => trivial) hI hr, ?_,
          ⟨a2, a3, by simp only [a4], a9⟩⟩
        unfold remaining
        simp only
        rw [heap_Push_length _ _ (by rw [a1]; exact hI.1), a1]
        omega

theorem mergeLoop_spec (srcs : Nat → List Packet) :
    ∀ (fuel : Nat) (st : State), OuterInv srcs (fun _ => True) st → remaining st < fuel →
      ∃ st1, mergeLoop fuel st = some st1 ∧ OuterInv srcs (fun _ => True) st1 ∧
        st1.minTimeHeap = [] ∧ Frame st st1 := by
  intro fuel
  induction fuel with
  | zero => intro st _ hf; omega
  | succ fuel ih =>
    intro st hO hf
    unfold mergeLoop
    cases hp : heap.Pop st.minTimeHeap with
    | none =>
      exact ⟨st, rfl, hO, heap_Pop_none _ hO.1 hp, Frame.rfl' st⟩
    | some ph =>
      obtain ⟨p, h⟩ := ph
      simp only
      obtain ⟨hI, hlen⟩ := step_pop srcs st p h hO hp
      have hrem : remaining (write { st with minTimeHeap := h } p) + 1 = remaining st := by
        unfold remaining
        show (st.readers.map List.length).sum + h.length + 1 = _
        omega
      have hfuel : ((write { st with minTimeHeap := h } p).readers.getD p.Reader []).length
          < fuel + 1 := by
        have := getD_length_le_sum st.readers p.Reader
        show (st.readers.getD p.Reader []).length < fuel + 1
        unfold remaining at hf
        omega
      obtain ⟨st2, e, b1, b2, b3⟩ := lookaheadLoop_spec srcs p h (fuel + 1) _ hI rfl hfuel
      rw [e]
      simp only
      obtain ⟨st3, e3, c1, c2, c3⟩ := ih st2 b1 (by omega)
      refine ⟨st3, e3, c1, c2, Frame.trans (Frame.trans ?_ b3) c3⟩
      exact ⟨rfl, rfl, headers_write _ p, rfl⟩

theorem simpleLoop_spec (srcs : Nat → List Packet) :
    ∀ (fuel : Nat) (st : State), OuterInv srcs (fun _ => True) st → remaining st < fuel →
      ∃ st1, simpleLoop fuel st = some st1 ∧ OuterInv srcs (fun _ => True) st1 ∧
        st1.minTimeHeap = [] ∧ Frame st st1 := by
  intro fuel
  induction fuel with
  | zero => intro st _ hf; omega
  | succ fuel ih =>
    intro st hO hf
    unfold simpleLoop
    cases hp : heap.Pop st.minTimeHeap with
    | none =>
      exact ⟨st, rfl, hO, heap_Pop_none _ hO.1 hp, Frame.rfl' st⟩
    | some ph =>
      obtain ⟨p, h⟩ := ph
      simp only
      obtain ⟨hI, hlen⟩ := step_pop srcs st p h hO hp
      have hrem : remaining (write { st with minTimeHeap := h } p) + 1 = remaining st := by
        unfold remaining
        show (st.readers.map List.length).sum + h.length + 1 = _
        omega
      have hf0 : Frame st (write { st with minTimeHeap := h } p) :=
        ⟨rfl, rfl, headers_write _ p, rfl⟩
      rcases hr : readNext p.Reader (write { st with minTimeHeap := h } p) with ⟨r, st1⟩
      cases r with
      | none =>
        simp only
        obtain ⟨a1, a2, a3, a4, _, _, _, a8, a9⟩ := readNext_none _ _ st1 hr
        have hO1 := step_eof srcs _ (fun _ => True) _ _ st1 (fun _ _ _ => trivial) hI hr
        have hr1 : remaining st1 ≤ remaining (write { st with minTimeHeap := h } p) := by
          unfold remaining
          rw [a1]; omega
        obtain ⟨st3, e3, c1, c2, c3⟩ := ih st1 hO1 (by omega)
        exact ⟨st3, e3, c1, c2,
          Frame.trans (Frame.trans hf0 ⟨a2, a3, by rw [a4, headers_close], a9⟩) c3⟩
      | some q =>
        simp only
        obtain ⟨a1, a2, a3, a4, _, _, _, a8, a9, a10⟩ := readNext_some _ _ st1 q hr
        have hO1 := step_push srcs _ (fun _ => True) _ _ st1 q (fun _ _ _ => trivial) hI hr
        have hr1 : remaining { st1 with minTimeHeap := heap.Push st1.minTimeHeap q } ≤
            remaining (write { st with minTimeHeap := h } p) := by
          unfold remaining
          simp only
          rw [heap_Push_length _ _ (by rw [a1]; exact hI.1), a1]
          omega
        obtain ⟨st3, e3, c1, c2, c3⟩ := ih _ hO1 (by omega)
        have f1 : Frame (write { st with minTimeHeap := h } p)
            { st1 with minTimeHeap := heap.Push st1.minTimeHeap q } :=
          ⟨a2, a3, by simp only [a4], a9⟩
        exact ⟨st3, e3, c1, c2, Frame.trans (Frame.trans hf0 f1) c3⟩

/-! ## Admission -/

theorem fromReader_eq_nil_of_lt (k : Nat) (l : List Packet) (h : ∀ p ∈ l, p.Reader < k) (i : Nat)
    (hi : k ≤ i) : fromReader i l = [] := by
  unfold fromReader
  rw [List.filter_eq_nil_iff]
  intro p hp
  have := h p hp
  simp only [decide_eq_true_eq]
  omega

theorem AdmInv_init (inFiles : List Input) : AdmInv inFiles 0 (initialState inFiles) := by
  refine ⟨⟨IsHeap_nil, ?_, ?_⟩, rfl, rfl, ?_, ?_, ?_, ?_, ?_⟩
  · intro i hi; omega
  · intro _
    refine ⟨List.Pairwise.nil, ?_, ?_⟩
    · intro w hw; simp [initialState, written] at hw
    · intro w hw; simp [initialState, written] at hw
  · intro p hp
    simp [initialState, heap.Init, heap.initLoop] at hp
  · intro i _; rfl
  · simp [initialState]
  · simp [initialState, List.map_map, Function.comp_def]
  · simp [initialState, heap.Init, heap.initLoop]

theorem AdmInv_skip (inFiles : List Input) (k : Nat) (st : State) (h : AdmInv inFiles k st)
    (hrec : (inFiles.map Input.records).getD k [] = []) : AdmInv inFiles (k + 1) st := by
  obtain ⟨⟨i1, i2, i3⟩, a2, a3, a4, a5, a6, a7, a8⟩ := h
  refine ⟨⟨i1, ?_, i3⟩, a2, a3, ?_, ?_, a6, a7, by omega⟩
  · intro i hi
    by_cases hik : i = k
    · subst hik
      left
      refine ⟨fromReader_eq_nil_of_lt i _ a4 i (le_refl _), ?_, ?_⟩
      · rw [a5 i (le_refl _), hrec]
      · rw [a2]
        unfold sourcePackets
        rw [hrec]
        rfl
    · exact i2 i (by omega)
  · intro p hp
    have := a4 p hp
    omega
  · intro i hi
    exact a5 i (by omega)

theorem AdmInv_read (inFiles : List Input) (k : Nat) (st st0 : State) (r : Option Packet)
    (st1 : State) (hread : readNext k st0 = (r, st1)) (h : AdmInv inFiles k st)
    (hh : st0.minTimeHeap = st.minTimeHeap) (hr : st0.readers = st.readers)
    (hl : st0.log = st.log) :
    AdmInv inFiles (k + 1)
      (match r with
       | some q => { st1 with minTimeHeap := heap.Push st1.minTimeHeap q }
       | none => st1) := by
  obtain ⟨⟨i1, i2, i3⟩, a2, a3, a4, a5, a6, a7, a8⟩ := h
  have hI : InnerInv (sourcePackets inFiles) (fun i => i < k) k st0 := by
    refine ⟨by rw [hh]; exact i1, ⟨?_, ?_⟩, ?_, ?_⟩
    · rw [hh]; exact fromReader_eq_nil_of_lt k _ a4 k (le_refl _)
    · rw [hl, a2]
      unfold unread sourcePackets
      rw [hr, a5 k (le_refl _)]
      rfl
    · intro i hi _
      exact SourceOuter_congr _ st st0 i (by rw [hh]) (by rw [hr]) (by rw [hl]) (i2 i hi)
    · intro hs
      refine ⟨by rw [hl, a2]; exact List.Pairwise.nil, ?_, ?_⟩
      · intro w hw; rw [hl, a2] at hw; simp at hw
      · intro w hw; rw [hl, a2] at hw; simp at hw
  have hAB : ∀ i, i < k + 1 → i ≠ k → i < k := fun i h1 h2 => by omega
  cases r with
  | none =>
    simp only
    obtain ⟨b1, _, _, b4, b5, _, _, b8, b9⟩ := readNext_none k st0 st1 hread
    refine ⟨step_eof _ _ _ k st0 st1 hAB hI hread, ?_, ?_, ?_, ?_, ?_, ?_, ?_⟩
    · rw [b4, written_close, hl, a2]
    · rw [b4, headers_close, hl, a3]
    · intro p hp
      rw [b1, hh] at hp
      have := a4 p hp
      omega
    · intro i hi
      rw [b5 i (by omega), hr]
      exact a5 i (by omega)
    · rw [b9, hr, a6]
    · rw [hr] at b8; omega
    · rw [b1, hh]; omega
  | some q =>
    simp only
    obtain ⟨b1, _, _, b4, b5, _, b7, b8, b9, _⟩ := readNext_some k st0 st1 q hread
    obtain ⟨p1, p2⟩ := heap_Push_spec st1.minTimeHeap q (by rw [b1, hh]; exact i1)
    refine ⟨step_push _ _ _ k st0 st1 q hAB hI hread, ?_, ?_, ?_, ?_, ?_, ?_, ?_⟩
    · show written st1.log = []
      rw [b4, hl, a2]
    · show headers st1.log = []
      rw [b4, hl, a3]
    · intro p hp
      rcases List.mem_cons.mp (p2.subset hp) with e | e
      · subst e; omega
      · rw [b1, hh] at e
        have := a4 p e
        omega
    · intro i hi
      show st1.readers.getD i [] = _
      rw [b5 i (by omega), hr]
      exact a5 i (by omega)
    · show st1.readers.length = _
      rw [b9, hr, a6]
    · show (st1.readers.map List.length).sum ≤ _
      rw [hr] at b8; omega
    · show (heap.Push st1.minTimeHeap q).length ≤ k + 1
      rw [p2.length_eq, List.length_cons, b1, hh]
      omega

theorem admit_inv (inFiles : List Input) (k : Nat) (st st1 : State) (input : Input)
    (h : AdmInv inFiles k st) (hin : inFiles[k]? = some input)
    (ha : admitInput st k input = Except.ok st1) : AdmInv inFiles (k + 1) st1 := by
  have hrec : (inFiles.map Input.records).getD k [] = input.records := by
    simp [List.getD_eq_getElem?_getD, hin]
  cases input with
  | openError =>
    simp only [admitInput, Except.ok.injEq] at ha
    subst ha
    exact AdmInv_skip inFiles k st h hrec
  | headerError =>
    simp only [admitInput, Except.ok.injEq] at ha
    subst ha
    exact AdmInv_skip inFiles k st h hrec
  | pcap s l recs =>
    unfold admitInput at ha
    simp only at ha
    cases hl : reconcileLinkType st.linkType l with
    | none => rw [hl] at ha; simp at ha
    | some lt =>
      rw [hl] at ha
      simp only at ha
      split at ha
      · rename_i q st2 hread
        simp only [Except.ok.injEq] at ha
        subst ha
        exact AdmInv_read inFiles k st _ (some q) st2 hread h rfl rfl rfl
      · rename_i st2 hread
        simp only [Except.ok.injEq] at ha
        subst ha
        exact AdmInv_read inFiles k st _ none st2 hread h rfl rfl rfl

theorem admitLoop_inv (inFiles : List Input) : ∀ (rest : List Input) (k : Nat) (st st1 : State),
    AdmInv inFiles k st → k ≤ inFiles.length → inFiles.drop k = rest →
    admitLoop k rest st = Except.ok st1 → AdmInv inFiles inFiles.length st1 := by
  intro rest
  induction rest with
  | nil =>
    intro k st st1 h hk hd ha
    simp only [admitLoop, Except.ok.injEq] at ha
    subst ha
    have hk2 : k = inFiles.length := by
      have := congrArg List.length hd
      simp at this
      omega
    subst hk2
    exact h
  | cons input rest ih =>
    intro k st st1 h hk hd ha
    unfold admitLoop at ha
    cases hstep : admitInput st k input with
    | error e => rw [hstep] at ha; simp at ha
    | ok st2 =>
      rw [hstep] at ha
      simp only at ha
      have hin : inFiles[k]? = some input := by
        have := congrArg (fun l => l[0]?) hd
        simpa using this
      have hd2 : inFiles.drop (k + 1) = rest := by
        have := congrArg List.tail hd
        simpa using this
      have hk1 : k + 1 ≤ inFiles.length := by
        have := (List.getElem?_eq_some_iff.mp hin).1
        omega
      exact ih (k + 1) st2 st1 (admit_inv inFiles k st st2 input h hin hstep) hk1 hd2 ha

theorem OuterInv_of_AdmInv (inFiles : List Input) (st : State)
    (h : AdmInv inFiles inFiles.length st) :
    OuterInv (sourcePackets inFiles) (fun _ => True) st := by
  obtain ⟨⟨i1, i2, i3⟩, a2, a3, a4, a5, a6, a7, a8⟩ := h
  refine ⟨i1, ?_, i3⟩
  intro i _
  by_cases hi : i < inFiles.length
  · exact i2 i hi
  · left
    have hnone : st.readers.getD i [] = [] := by
      simp only [List.getD_eq_getElem?_getD]
      rw [List.getElem?_eq_none (by omega)]
      rfl
    refine ⟨fromReader_eq_nil_of_lt _ _ a4 i (by omega), hnone, ?_⟩
    rw [a2]
    unfold sourcePackets
    simp only [List.getD_eq_getElem?_getD]
    rw [List.getElem?_eq_none (by simp; omega)]
    rfl

theorem Finished_of_loop (inFiles : List Input) (st0 st1 st : State)
    (hadm : AdmInv inFiles inFiles.length st0)
    (hst1 : st1 = { st0 with log := st0.log ++ [Event.fileHeader st0.snaplen st0.linkType] })
    (hO : OuterInv (sourcePackets inFiles) (fun _ => True) st) (hh : st.minTimeHeap = [])
    (hf : Frame st1 st) : Finished inFiles st0 st := by
  have src : ∀ i, st.readers.getD i [] = [] ∧
      fromReader i (written st.log) = sourcePackets inFiles i := by
    intro i
    rcases hO.2.1 i trivial with ⟨_, b, c⟩ | ⟨p, a, _⟩
    · exact ⟨b, c⟩
    · rw [hh] at a
      simp [fromReader] at a
  refine ⟨hh, fun i => (src i).1, ?_, fun i => (src i).2, fun hs => (hO.2.2 hs).1, ?_⟩
  · rw [hf.readers, hst1]
    exact hadm.readers_length
  · rw [hf.headers, hst1]
    simp only [headers, List.filterMap_append]
    have := hadm.log_headers
    simp only [headers] at this
    rw [this]
    rfl

theorem start_inv (inFiles : List Input) (st0 : State)
    (hadm : AdmInv inFiles inFiles.length st0) :
    OuterInv (sourcePackets inFiles) (fun _ => True)
        { st0 with log := st0.log ++ [Event.fileHeader st0.snaplen st0.linkType] } ∧
      remaining { st0 with log := st0.log ++ [Event.fileHeader st0.snaplen st0.linkType] }
        < mergeFuel inFiles := by
  have hO := OuterInv_of_AdmInv inFiles st0 hadm
  constructor
  · refine ⟨hO.1, ?_, ?_⟩
    · intro i _
      exact SourceOuter_congr _ st0 _ i rfl rfl (by simp only [written_header]) (hO.2.1 i trivial)
    · intro hs
      obtain ⟨o1, o2, o3⟩ := hO.2.2 hs
      refine ⟨?_, ?_, ?_⟩
      · simp only [written_header]; exact o1
      · simp only [written_header]; exact o2
      · simp only [written_header]; exact o3
  · unfold remaining mergeFuel
    have := hadm.records_le
    have := hadm.heap_le
    simp only
    omega

theorem main_ok (inFiles : List Input) (st0 : State)
    (h : admitLoop 0 inFiles (initialState inFiles) = Except.ok st0) :
    ∃ st, main inFiles = Outcome.finished st ∧ Finished inFiles st0 st := by
  have hadm := admitLoop_inv inFiles inFiles 0 _ st0 (AdmInv_init inFiles) (Nat.zero_le _) rfl h
  obtain ⟨hO, hrem⟩ := start_inv inFiles st0 hadm
  obtain ⟨st, e, b1, b2, b3⟩ := mergeLoop_spec (sourcePackets inFiles) _ _ hO hrem
  refine ⟨st, ?_, Finished_of_loop inFiles st0 _ st hadm rfl b1 b2 b3⟩
  unfold main
  rw [h]
  simp only
  rw [e]

theorem mainSimple_ok (inFiles : List Input) (st0 : State)
    (h : admitLoop 0 inFiles (initialState inFiles) = Except.ok st0) :
    ∃ st, mainSimple inFiles = Outcome.finished st ∧ Finished inFiles st0 st := by
  have hadm := admitLoop_inv inFiles inFiles 0 _ st0 (AdmInv_init inFiles) (Nat.zero_le _) rfl h
  obtain ⟨hO, hrem⟩ := start_inv inFiles st0 hadm
  obtain ⟨st, e, b1, b2, b3⟩ := simpleLoop_spec (sourcePackets inFiles) _ _ hO hrem
  refine ⟨st, ?_, Finished_of_loop inFiles st0 _ st hadm rfl b1 b2 b3⟩
  unfold mainSimple
  rw [h]
  simp only
  rw [e]

theorem main_error (inFiles : List Input) (st0 : State)
    (h : admitLoop 0 inFiles (initialState inFiles) = Except.error st0) :
    main inFiles = Outcome.panicked st0 ∧ mainSimple inFiles = Outcome.panicked st0 := by
  unfold main mainSimple
  rw [h]
  exact ⟨rfl, rfl⟩

/-! ## From sources to the output -/

theorem perm_flatMap_fromReader : ∀ (n : Nat) (l : List Packet), (∀ p ∈ l, p.Reader < n) →
    l.Perm ((List.range n).flatMap fun i => fromReader i l) := by
  intro n
  induction n with
  | zero =>
    intro l h
    cases l with
    | nil => simp
    | cons p t => exact absurd (h p (List.mem_cons_self _ _)) (by omega)
  | succ n ih =>
    intro l h
    rw [List.range_succ, List.flatMap_append, List.flatMap_singleton]
    have hsplit := (List.filter_append_perm (fun p => decide (p.Reader = n)) l).symm
    have hrest : ∀ p ∈ l.filter (fun p => !decide (p.Reader = n)), p.Reader < n := by
      intro p hp
      obtain ⟨h1, h2⟩ := List.mem_filter.mp hp
      have := h p h1
      simp only [Bool.not_eq_true', decide_eq_false_iff_not] at h2
      omega
    have h2 := ih _ hrest
    have h3 : ((List.range n).flatMap fun i =>
        fromReader i (l.filter (fun p => !decide (p.Reader = n)))) =
        (List.range n).flatMap fun i => fromReader i l := by
      apply List.flatMap_congr
      intro i hi
      have hin : i < n := List.mem_range.mp hi
      unfold fromReader
      rw [List.filter_filter]
      apply List.filter_congr
      intro p _
      by_cases hp : p.Reader = i
      · have : p.Reader ≠ n := by omega
        simp [hp, this]
        omega
      · simp [hp]
    rw [h3] at h2
    refine hsplit.trans ?_
    refine List.perm_append_comm.trans ?_
    exact List.Perm.append h2 (List.Perm.refl _)

theorem range_flatMap_getD {α β : Type} (d : α) (g : α → List β) : ∀ (l : List α),
    ((List.range l.length).flatMap fun i => g (l.getD i d)) = l.flatMap g := by
  intro l
  induction l with
  | nil => rfl
  | cons a t ih =>
    rw [List.length_cons, List.range_succ_eq_map, List.flatMap_cons, List.flatMap_map,
      List.flatMap_cons]
    simp only [List.getD_cons_zero]
    congr 1

theorem toPacket_timestamp (i j : Nat) (r : Record) :
    (Record.toPacket i r).map Packet.Timestamp = (Record.toPacket j r).map Packet.Timestamp := by
  cases r with
  | decodeError => rfl
  | data ci d =>
    simp only [Record.toPacket]
    split_ifs <;> rfl

theorem validPackets_timestamps (i : Nat) (records : List Record) :
    (validPackets i records).map Packet.Timestamp = validTimestamps records := by
  unfold validTimestamps validPackets
  rw [List.map_filterMap, List.map_filterMap]
  congr 1
  funext r
  exact toPacket_timestamp i 0 r

theorem toPacket_isSome (i : Nat) (r : Record) : (Record.toPacket i r).isSome = r.valid := by
  cases r with
  | decodeError => rfl
  | data ci d =>
    simp only [Record.toPacket, Record.valid]
    by_cases hd : d.length = 0
    · simp [hd]
    · simp [hd]

theorem validPackets_length_add (i : Nat) (records : List Record) :
    (validPackets i records).length + skipped records = records.length := by
  unfold skipped validPackets
  induction records with
  | nil => rfl
  | cons r t ih =>
    have hs := toPacket_isSome i r
    cases hp : Record.toPacket i r with
    | none =>
      rw [hp] at hs
      have hv : r.valid = false := by simpa using hs.symm
      rw [List.filterMap_cons_none hp, List.filter_cons_of_pos (by simp [hv])]
      simp only [List.length_cons]
      omega
    | some p =>
      rw [hp] at hs
      have hv : r.valid = true := by simpa using hs.symm
      rw [List.filterMap_cons_some hp, List.filter_cons_of_neg (by simp [hv])]
      simp only [List.length_cons]
      omega

theorem validPackets_length (i : Nat) (records : List Record) :
    (validPackets i records).length = records.length - skipped records := by
  have := validPackets_length_add i records
  omega

theorem range_map_getD {α β : Type} (d : α) (g : α → β) : ∀ (l : List α),
    ((List.range l.length).map fun i => g (l.getD i d)) = l.map g := by
  intro l
  induction l with
  | nil => rfl
  | cons a t ih =>
    rw [List.length_cons, List.range_succ_eq_map, List.map_cons, List.map_map, List.map_cons]
    simp only [List.getD_cons_zero]
    congr 1

theorem validPackets_toRecord (i : Nat) (records : List Record) :
    (validPackets i records).map Packet.toRecord = records.filter Record.valid := by
  unfold validPackets
  induction records with
  | nil => rfl
  | cons r t ih =>
    cases r with
    | decodeError =>
      simpa [Record.toPacket, Record.valid] using ih
    | data ci d =>
      by_cases hd : d.length = 0
      · simpa [Record.toPacket, Record.valid, hd] using ih
      · simp only [List.filterMap_cons, Record.toPacket, hd, if_false, List.map_cons,
          List.filter_cons, Record.valid]
        simp [hd, Packet.toRecord]
        exact ih

theorem sourcePackets_sorted (inFiles : List Input) (hs : ∀ input ∈ inFiles, input.Sorted) :
    ∀ i, (sourcePackets inFiles i).Pairwise tsLE := by
  intro i
  have key : ∀ records : List Record, (validTimestamps records).Sorted (· ≤ ·) →
      (validPackets i records).Pairwise tsLE := by
    intro records h
    rw [← validPackets_timestamps i records] at h
    unfold List.Sorted at h
    rw [List.pairwise_map] at h
    exact h
  unfold sourcePackets
  by_cases hi : i < inFiles.length
  · have e : (inFiles.map Input.records).getD i [] = (inFiles[i]).records := by
      simp [List.getD_eq_getElem?_getD, hi]
    rw [e]
    exact key _ (hs _ (List.getElem_mem hi))
  · have e : (inFiles.map Input.records).getD i [] = [] := by
      simp only [List.getD_eq_getElem?_getD]
      rw [List.getElem?_eq_none (by simp; omega)]
      rfl
    rw [e]
    exact List.Pairwise.nil

theorem Finished.reader_lt {inFiles : List Input} {st0 st : State} (h : Finished inFiles st0 st) :
    ∀ p ∈ written st.log, p.Reader < inFiles.length := by
  intro p hp
  by_contra hn
  have hmem : p ∈ fromReader p.Reader (written st.log) := by
    unfold fromReader
    exact List.mem_filter.mpr ⟨hp, by simp⟩
  rw [h.bySource p.Reader] at hmem
  unfold sourcePackets at hmem
  simp only [List.getD_eq_getElem?_getD] at hmem
  rw [List.getElem?_eq_none (by simp; omega)] at hmem
  simp [validPackets] at hmem

theorem Finished.perm {inFiles : List Input} {st0 st : State} (h : Finished inFiles st0 st) :
    (written st.log).Perm ((List.range inFiles.length).flatMap (sourcePackets inFiles)) := by
  have := perm_flatMap_fromReader inFiles.length (written st.log) h.reader_lt
  refine this.trans (List.Perm.of_eq ?_)
  apply List.flatMap_congr
  intro i _
  exact h.bySource i

theorem Finished.timestamps_perm {inFiles : List Input} {st0 st : State}
    (h : Finished inFiles st0 st) :
    ((written st.log).map Packet.Timestamp).Perm
      (inFiles.flatMap fun input => validTimestamps input.records) := by
  have h1 := (h.perm).map Packet.Timestamp
  refine h1.trans (List.Perm.of_eq ?_)
  rw [List.map_flatMap]
  have h2 : ((List.range inFiles.length).flatMap fun i =>
      (sourcePackets inFiles i).map Packet.Timestamp) =
      (List.range (inFiles.map Input.records).length).flatMap fun i =>
        validTimestamps ((inFiles.map Input.records).getD i []) := by
    rw [List.length_map]
    apply List.flatMap_congr
    intro i _
    exact validPackets_timestamps i _
  rw [h2, range_flatMap_getD [] validTimestamps (inFiles.map Input.records), List.flatMap_map]

theorem Finished.length {inFiles : List Input} {st0 st : State} (h : Finished inFiles st0 st) :
    (written st.log).length =
      (inFiles.map fun input => input.records.length - skipped input.records).sum := by
  rw [(h.perm).length_eq, List.length_flatMap]
  have h2 : (List.range inFiles.length).map (List.length ∘ sourcePackets inFiles) =
      (List.range (inFiles.map Input.records).length).map fun i =>
        ((inFiles.map Input.records).getD i []).length -
          skipped ((inFiles.map Input.records).getD i []) := by
    rw [List.length_map]
    apply List.map_congr_left
    intro i _
    exact validPackets_length i _
  have e := range_map_getD [] (fun r : List Record => r.length - skipped r)
    (inFiles.map Input.records)
  rw [List.map_map] at e
  rw [h2]
  exact congrArg List.sum e

theorem max_spec (x y : Nat) : max x y = Nat.max x y := by
  unfold max
  split_ifs with h
  · exact (Nat.max_eq_left (by omega)).symm
  · exact (Nat.max_eq_right (by omega)).symm

theorem admit_ok_pcap (st st1 : State) (k s l : Nat) (r : List Record)
    (h : admitInput st k (Input.pcap s l r) = Except.ok st1) :
    st1.snaplen = max st.snaplen s ∧ reconcileLinkType st.linkType l = some st1.linkType := by
  unfold admitInput at h
  simp only at h
  cases hl : reconcileLinkType st.linkType l with
  | none => rw [hl] at h; simp at h
  | some lt =>
    rw [hl] at h
    simp only at h
    split at h
    · rename_i q st2 hread
      simp only [Except.ok.injEq] at h
      subst h
      obtain ⟨_, a2, a3, _⟩ := readNext_some _ _ _ _ hread
      exact ⟨a2, by rw [show _ = lt from a3]⟩
    · rename_i st2 hread
      simp only [Except.ok.injEq] at h
      subst h
      obtain ⟨_, a2, a3, _⟩ := readNext_none _ _ _ hread
      exact ⟨a2, by rw [show _ = lt from a3]⟩

theorem admit_ok_skip (st st1 : State) (k : Nat) (input : Input) (hi : input.admitted = false)
    (h : admitInput st k input = Except.ok st1) : st1 = st := by
  cases input with
  | openError => simp only [admitInput, Except.ok.injEq] at h; exact h.symm
  | headerError => simp only [admitInput, Except.ok.injEq] at h; exact h.symm
  | pcap s l r => simp [Input.admitted] at hi

theorem admit_error (st st1 : State) (k : Nat) (input : Input)
    (h : admitInput st k input = Except.error st1) :
    ∃ s l r, input = Input.pcap s l r ∧ reconcileLinkType st.linkType l = none ∧
      st1.log = st.log ∧ st1.minTimeHeap = st.minTimeHeap := by
  cases input with
  | openError => simp [admitInput] at h
  | headerError => simp [admitInput] at h
  | pcap s l r =>
    refine ⟨s, l, r, rfl, ?_⟩
    unfold admitInput at h
    simp only at h
    cases hl : reconcileLinkType st.linkType l with
    | none =>
      rw [hl] at h
      simp only [Except.error.injEq] at h
      subst h
      exact ⟨rfl, rfl, rfl⟩
    | some lt =>
      rw [hl] at h
      simp only at h
      split at h <;> simp at h

theorem admitLoop_snaplen : ∀ (rest : List Input) (k : Nat) (st st1 : State),
    admitLoop k rest st = Except.ok st1 →
    st.snaplen ≤ st1.snaplen ∧ (∀ s ∈ snaplens rest, s ≤ st1.snaplen) ∧
      (st1.snaplen = st.snaplen ∨ st1.snaplen ∈ snaplens rest) := by
  intro rest
  induction rest with
  | nil =>
    intro k st st1 h
    simp only [admitLoop, Except.ok.injEq] at h
    subst h
    exact ⟨le_refl _, by simp [snaplens], Or.inl rfl⟩
  | cons input rest ih =>
    intro k st st1 h
    unfold admitLoop at h
    cases hstep : admitInput st k input with
    | error e => rw [hstep] at h; simp at h
    | ok st2 =>
      rw [hstep] at h
      simp only at h
      obtain ⟨b1, b2, b3⟩ := ih (k + 1) st2 st1 h
      cases input with
      | openError =>
        have := admit_ok_skip st st2 k Input.openError rfl hstep
        subst this
        exact ⟨b1, by simpa [snaplens] using b2, by simpa [snaplens] using b3⟩
      | headerError =>
        have := admit_ok_skip st st2 k Input.headerError rfl hstep
        subst this
        exact ⟨b1, by simpa [snaplens] using b2, by simpa [snaplens] using b3⟩
      | pcap s l r =>
        obtain ⟨c1, _⟩ := admit_ok_pcap st st2 k s l r hstep
        rw [max_spec] at c1
        have hs1 : st.snaplen ≤ st2.snaplen := by rw [c1]; exact Nat.le_max_left _ _
        have hs2 : s ≤ st2.snaplen := by rw [c1]; exact Nat.le_max_right _ _
        have hs3 : st2.snaplen = st.snaplen ∨ st2.snaplen = s := by
          rw [c1]
          rcases Nat.le_total st.snaplen s with e | e
          · right; exact Nat.max_eq_right e
          · left; exact Nat.max_eq_left e
        have hsn : snaplens (Input.pcap s l r :: rest) = s :: snaplens rest := by
          simp [snaplens]
        rw [hsn]
        refine ⟨by omega, ?_, ?_⟩
        · intro x hx
          rcases List.mem_cons.mp hx with e | e
          · subst e; omega
          · exact b2 x e
        · rcases b3 with e | e
          · rcases hs3 with e2 | e2
            · left; omega
            · right; rw [e, e2]; exact List.mem_cons_self _ _
          · right; exact List.mem_cons_of_mem _ e

theorem main_cases (inFiles : List Input) :
    (∃ st0, admitLoop 0 inFiles (initialState inFiles) = Except.error st0 ∧
      main inFiles = Outcome.panicked st0 ∧ mainSimple inFiles = Outcome.panicked st0) ∨
    (∃ st0, admitLoop 0 inFiles (initialState inFiles) = Except.ok st0 ∧
      (∃ st, main inFiles = Outcome.finished st ∧ Finished inFiles st0 st) ∧
      (∃ st, mainSimple inFiles = Outcome.finished st ∧ Finished inFiles st0 st)) := by
  cases h : admitLoop 0 inFiles (initialState inFiles) with
  | error st0 => exact Or.inl ⟨st0, rfl, main_error inFiles st0 h⟩
  | ok st0 => exact Or.inr ⟨st0, rfl, main_ok inFiles st0 h, mainSimple_ok inFiles st0 h⟩

theorem admitLoop_error_log : ∀ (rest : List Input) (k : Nat) (st st1 : State),
    admitLoop k rest st = Except.error st1 → written st.log = [] → headers st.log = [] →
    written st1.log = [] ∧ headers st1.log = [] := by
  intro rest
  induction rest with
  | nil => intro k st st1 h; simp [admitLoop] at h
  | cons input rest ih =>
    intro k st st1 h hw hh
    unfold admitLoop at h
    cases hstep : admitInput st k input with
    | error e =>
      rw [hstep] at h
      simp only [Except.error.injEq] at h
      subst h
      obtain ⟨_, _, _, _, _, hl, _⟩ := admit_error st e k input hstep
      rw [hl]
      exact ⟨hw, hh⟩
    | ok st2 =>
      rw [hstep] at h
      simp only at h
      cases input with
      | openError =>
        have := admit_ok_skip st st2 k Input.openError rfl hstep
        subst this
        exact ih (k + 1) _ st1 h hw hh
      | headerError =>
        have := admit_ok_skip st st2 k Input.headerError rfl hstep
        subst this
        exact ih (k + 1) _ st1 h hw hh
      | pcap s l r =>
        refine ih (k + 1) st2 st1 h ?_ ?_
        · unfold admitInput at hstep
          simp only at hstep
          cases hl : reconcileLinkType st.linkType l with
          | none => rw [hl] at hstep; simp at hstep
          | some lt =>
            rw [hl] at hstep
            simp only at hstep
            split at hstep
            · rename_i q st3 hread
              simp only [Except.ok.injEq] at hstep
              subst hstep
              obtain ⟨_, _, _, a4, _⟩ := readNext_some _ _ _ _ hread
              show written st3.log = []
              rw [a4]; exact hw
            · rename_i st3 hread
              simp only [Except.ok.injEq] at hstep
              subst hstep
              obtain ⟨_, _, _, a4, _⟩ := readNext_none _ _ _ hread
              rw [a4, written_close]; exact hw
        · unfold admitInput at hstep
          simp only at hstep
          cases hl : reconcileLinkType st.linkType l with
          | none => rw [hl] at hstep; simp at hstep
          | some lt =>
            rw [hl] at hstep
            simp only at hstep
            split at hstep
            · rename_i q st3 hread
              simp only [Except.ok.injEq] at hstep
              subst hstep
              obtain ⟨_, _, _, a4, _⟩ := readNext_some _ _ _ _ hread
              show headers st3.log = []
              rw [a4]; exact hh
            · rename_i st3 hread
              simp only [Except.ok.injEq] at hstep
              subst hstep
              obtain ⟨_, _, _, a4, _⟩ := readNext_none _ _ _ hread
              rw [a4, headers_close]; exact hh

/-! ## The link-type check -/

theorem linkTypes_cons_pcap (s l : Nat) (r : List Record) (rest : List Input) :
    linkTypes (Input.pcap s l r :: rest) = l :: linkTypes rest := by
  simp [linkTypes]

theorem linkTypes_cons_skip (input : Input) (rest : List Input) (h : input.admitted = false) :
    linkTypes (input :: rest) = linkTypes rest := by
  cases input with
  | openError => simp [linkTypes]
  | headerError => simp [linkTypes]
  | pcap s l r => simp [Input.admitted] at h

theorem admitLoop_linkType_set : ∀ (rest : List Input) (k : Nat) (st st1 : State),
    admitLoop k rest st = Except.ok st1 → st.linkType ≠ LinkTypeNull →
    (∀ l ∈ linkTypes rest, l = st.linkType) ∧ st1.linkType = st.linkType := by
  intro rest
  induction rest with
  | nil =>
    intro k st st1 h _
    simp only [admitLoop, Except.ok.injEq] at h
    subst h
    exact ⟨by simp [linkTypes], rfl⟩
  | cons input rest ih =>
    intro k st st1 h hne
    unfold admitLoop at h
    cases hstep : admitInput st k input with
    | error e => rw [hstep] at h; simp at h
    | ok st2 =>
      rw [hstep] at h
      simp only at h
      cases input with
      | openError =>
        have := admit_ok_skip st st2 k Input.openError rfl hstep
        subst this
        rw [linkTypes_cons_skip Input.openError rest rfl]
        exact ih (k + 1) _ st1 h hne
      | headerError =>
        have := admit_ok_skip st st2 k Input.headerError rfl hstep
        subst this
        rw [linkTypes_cons_skip Input.headerError rest rfl]
        exact ih (k + 1) _ st1 h hne
      | pcap s l r =>
        obtain ⟨_, c2⟩ := admit_ok_pcap st st2 k s l r hstep
        unfold reconcileLinkType at c2
        rw [if_neg hne] at c2
        split_ifs at c2 with hl
        simp only [Option.some.injEq] at c2
        have hl' : st.linkType = l := by
          by_contra hn
          exact hl hn
        obtain ⟨b1, b2⟩ := ih (k + 1) st2 st1 h (by rw [← c2]; exact hne)
        rw [linkTypes_cons_pcap]
        refine ⟨?_, by rw [b2, ← c2]⟩
        intro x hx
        rcases List.mem_cons.mp hx with e | e
        · rw [e, hl']
        · rw [b1 x e, ← c2]

theorem admitLoop_linkType_unset : ∀ (rest : List Input) (k : Nat) (st st1 : State),
    admitLoop k rest st = Except.ok st1 → st.linkType = LinkTypeNull →
    (∀ l ∈ linkTypes rest, l ≠ LinkTypeNull) →
    ∀ a ∈ linkTypes rest, ∀ b ∈ linkTypes rest, a = b := by
  intro rest
  induction rest with
  | nil =>
    intro k st st1 _ _ _ a ha
    simp [linkTypes] at ha
  | cons input rest ih =>
    intro k st st1 h hnull hall
    unfold admitLoop at h
    cases hstep : admitInput st k input with
    | error e => rw [hstep] at h; simp at h
    | ok st2 =>
      rw [hstep] at h
      simp only at h
      cases input with
      | openError =>
        have := admit_ok_skip st st2 k Input.openError rfl hstep
        subst this
        rw [linkTypes_cons_skip Input.openError rest rfl] at hall ⊢
        exact ih (k + 1) _ st1 h hnull hall
      | headerError =>
        have := admit_ok_skip st st2 k Input.headerError rfl hstep
        subst this
        rw [linkTypes_cons_skip Input.headerError rest rfl] at hall ⊢
        exact ih (k + 1) _ st1 h hnull hall
      | pcap s l r =>
        obtain ⟨_, c2⟩ := admit_ok_pcap st st2 k s l r hstep
        unfold reconcileLinkType at c2
        rw [if_pos hnull] at c2
        simp only [Option.some.injEq] at c2
        rw [linkTypes_cons_pcap] at hall ⊢
        have hl : l ≠ LinkTypeNull := hall l (List.mem_cons_self _ _)
        obtain ⟨b1, _⟩ := admitLoop_linkType_set rest (k + 1) st2 st1 h (by rw [← c2]; exact hl)
        have hrest : ∀ x ∈ linkTypes rest, x = l := by
          intro x hx
          rw [b1 x hx, ← c2]
        intro a ha b hb
        have ea : a = l := by
          rcases List.mem_cons.mp ha with e | e
          · exact e
          · exact hrest a e
        have eb : b = l := by
          rcases List.mem_cons.mp hb with e | e
          · exact e
          · exact hrest b e
        rw [ea, eb]

/-- When no admitted input has link type `LinkTypeNull`, two admitted inputs with different
link types make the run panic during admission, before anything is written. -/
theorem link_type_conflict_detected_when_nonnull (inFiles : List Input)
    (hnn : ∀ l ∈ linkTypes inFiles, l ≠ LinkTypeNull)
    (a b : Nat) (ha : a ∈ linkTypes inFiles) (hb : b ∈ linkTypes inFiles) (hab : a ≠ b) :
    (main inFiles).aborted = true ∧ (main inFiles).packets = [] ∧
      headers (main inFiles).log = [] := by
  rcases main_cases inFiles with ⟨st0, hadm, e, _⟩ | ⟨st0, hadm, _, _⟩
  · rw [e]
    obtain ⟨h1, h2⟩ := admitLoop_error_log inFiles 0 _ st0 hadm rfl rfl
    exact ⟨rfl, h1, h2⟩
  · exact absurd (admitLoop_linkType_unset inFiles 0 _ st0 hadm rfl hnn a ha b hb) hab

/-! ## The claims -/

theorem lookaheadLoop_mono (packet : Packet) (e : Int) : ∀ (fuel : Nat) (st st1 : State),
    lookaheadLoop fuel packet e st = some st1 →
    ∀ extra, lookaheadLoop (fuel + extra) packet e st = some st1 := by
  intro fuel
  induction fuel with
  | zero => intro st st1 h; simp [lookaheadLoop] at h
  | succ fuel ih =>
    intro st st1 h extra
    rw [show fuel + 1 + extra = (fuel + extra) + 1 by omega]
    unfold lookaheadLoop at h ⊢
    rcases hr : readNext packet.Reader st with ⟨r, st2⟩
    rw [hr] at h
    cases r with
    | none => exact h
    | some q =>
      simp only at h ⊢
      split_ifs at h ⊢ with hle
      · exact ih _ _ h extra
      · exact h

theorem mergeLoop_mono : ∀ (fuel : Nat) (st st1 : State),
    mergeLoop fuel st = some st1 → ∀ extra, mergeLoop (fuel + extra) st = some st1 := by
  intro fuel
  induction fuel with
  | zero => intro st st1 h; simp [mergeLoop] at h
  | succ fuel ih =>
    intro st st1 h extra
    rw [show fuel + 1 + extra = (fuel + extra) + 1 by omega]
    unfold mergeLoop at h ⊢
    cases hp : heap.Pop st.minTimeHeap with
    | none => rw [hp] at h; exact h
    | some ph =>
      obtain ⟨p, hh⟩ := ph
      rw [hp] at h
      simp only at h ⊢
      cases hl : lookaheadLoop (fuel + 1) p (earliestHeapTime hh)
          (write { st with minTimeHeap := hh } p) with
      | none => rw [hl] at h; simp at h
      | some st2 =>
        rw [hl] at h
        simp only at h
        have := lookaheadLoop_mono p _ _ _ _ hl extra
        rw [show fuel + 1 + extra = fuel + extra + 1 by omega] at this
        rw [this]
        exact ih _ _ h extra

theorem finished_facts (inFiles : List Input) (h : (main inFiles).aborted = false) :
    ∃ st0 st, admitLoop 0 inFiles (initialState inFiles) = Except.ok st0 ∧
      main inFiles = Outcome.finished st ∧ Finished inFiles st0 st := by
  rcases main_cases inFiles with ⟨st0, _, e, _⟩ | ⟨st0, e0, ⟨st, e, hf⟩, _⟩
  · rw [e] at h; simp [Outcome.aborted] at h
  · exact ⟨st0, st, e0, e, hf⟩

/-- C1 (global ordering).  When the valid records of every input are in non-decreasing
timestamp order, the run of `main` ends (it does not exhaust the fuel of the model) and the
timestamps of the packets it has written, in the order written, are non-decreasing. -/
theorem global_ordering (inFiles : List Input) (hs : ∀ input ∈ inFiles, input.Sorted) :
    main inFiles ≠ Outcome.outOfFuel ∧ (main inFiles).timestamps.Sorted (· ≤ ·) := by
  rcases main_cases inFiles with ⟨st0, hadm, e, _⟩ | ⟨st0, e0, ⟨st, e, hf⟩, _⟩
  · rw [e]
    refine ⟨by simp, ?_⟩
    have := (admitLoop_error_log inFiles 0 _ st0 hadm rfl rfl).1
    simp [Outcome.timestamps, Outcome.packets, Outcome.log, this]
  · rw [e]
    refine ⟨by simp, ?_⟩
    have := hf.ordered (sourcePackets_sorted inFiles hs)
    unfold Outcome.timestamps Outcome.packets Outcome.log List.Sorted
    rw [List.pairwise_map]
    exact this

theorem global_ordering_witness :
    (∀ input ∈ [exampleB, exampleCorrupt, exampleA], input.Sorted) ∧
      main [exampleB, exampleCorrupt, exampleA] ≠ Outcome.outOfFuel ∧
      (main [exampleB, exampleCorrupt, exampleA]).timestamps.Sorted (· ≤ ·) :=
  ⟨by decide, global_ordering [exampleB, exampleCorrupt, exampleA] (by decide)⟩

/-- C2 (conservation).  On every run that is not aborted by the link-type check, sorted
inputs or not, `main` returns, and the number of packets written is the sum over the inputs
of the number of records minus the number of records skipped (an input that is not admitted
has no records); when no record is skipped it is the total number of records. -/
theorem conservation (inFiles : List Input) (h : (main inFiles).aborted = false) :
    (main inFiles).completed = true ∧
    (main inFiles).packets.length =
      (inFiles.map fun input => input.records.length - skipped input.records).sum ∧
    ((∀ input ∈ inFiles, skipped input.records = 0) →
      (main inFiles).packets.length = (inFiles.map fun input => input.records.length).sum) := by
  obtain ⟨st0, st, _, e, hf⟩ := finished_facts inFiles h
  rw [e]
  have hlen := hf.length
  refine ⟨rfl, hlen, ?_⟩
  intro hz
  show (written st.log).length = _
  rw [hlen]
  congr 1
  apply List.map_congr_left
  intro input hin
  rw [hz input hin]
  rfl

theorem conservation_witness :
    (main [exampleCorrupt, Input.openError, exampleA]).aborted = false ∧
    (main [exampleCorrupt, Input.openError, exampleA]).completed = true ∧
    (main [exampleCorrupt, Input.openError, exampleA]).packets.length =
      ([exampleCorrupt, Input.openError, exampleA].map fun input =>
        input.records.length - skipped input.records).sum ∧
    ((∀ input ∈ [exampleCorrupt, Input.openError, exampleA], skipped input.records = 0) →
      (main [exampleCorrupt, Input.openError, exampleA]).packets.length =
        ([exampleCorrupt, Input.openError, exampleA].map fun input =>
          input.records.length).sum) :=
  ⟨by decide, conservation [exampleCorrupt, Input.openError, exampleA] (by decide)⟩

/-- C3 (link-type conflict), evaluation at the failing input: the first input has link type
`LinkTypeNull` and the second a different one, yet the run does not abort; it writes a
header with the second link type and then the packets of both inputs. -/
theorem link_type_conflict_undetected :
    (linkTypes exampleNullThenEthernet = [0, 1]) ∧
    (main exampleNullThenEthernet).aborted = false ∧
    headers (main exampleNullThenEthernet).log = [(65535, 1)] ∧
    (main exampleNullThenEthernet).packets.map Packet.Reader = [0, 1] := by
  decide

/-- C4 (single-input identity).  The run on one admitted input, sorted or not, returns; the
packets written are the valid records of that input in file order, with their capture info
and payload, and the one header written carries the snaplen and link type of the input. -/
theorem single_input_identity (snaplen linkType : Nat) (records : List Record) :
    ∃ st, main [Input.pcap snaplen linkType records] = Outcome.finished st ∧
      written st.log = validPackets 0 records ∧
      (written st.log).map Packet.toRecord = records.filter Record.valid ∧
      headers st.log = [(snaplen, linkType)] := by
  rcases main_cases [Input.pcap snaplen linkType records] with
    ⟨st0, hadm, _, _⟩ | ⟨st0, hadm, ⟨st, e, hf⟩, _⟩
  · exfalso
    simp only [admitLoop] at hadm
    cases hstep : admitInput (initialState [Input.pcap snaplen linkType records]) 0
        (Input.pcap snaplen linkType records) with
    | ok st1 => rw [hstep] at hadm; simp at hadm
    | error st1 =>
      obtain ⟨s, l, r, hin, hrec, _⟩ := admit_error _ _ _ _ hstep
      simp only [Input.pcap.injEq] at hin
      obtain ⟨_, rfl, _⟩ := hin
      simp [reconcileLinkType, initialState] at hrec
  · have hw : written st.log = validPackets 0 records := by
      have h0 := hf.bySource 0
      have hall : ∀ p ∈ written st.log, p.Reader = 0 := by
        intro p hp
        have := hf.reader_lt p hp
        simp at this
        exact this
      have hfil : fromReader 0 (written st.log) = written st.log := by
        unfold fromReader
        rw [List.filter_eq_self]
        intro p hp
        simp [hall p hp]
      rw [hfil] at h0
      rw [h0]
      rfl
    refine ⟨st, e, hw, ?_, ?_⟩
    · rw [hw, validPackets_toRecord]
    · rw [hf.headers]
      simp only [admitLoop] at hadm
      cases hstep : admitInput (initialState [Input.pcap snaplen linkType records]) 0
          (Input.pcap snaplen linkType records) with
      | error st1 => rw [hstep] at hadm; simp at hadm
      | ok st1 =>
        rw [hstep] at hadm
        simp only [Except.ok.injEq] at hadm
        subst hadm
        obtain ⟨c1, c2⟩ := admit_ok_pcap _ _ _ _ _ _ hstep
        simp only [reconcileLinkType, initialState, if_true, Option.some.injEq] at c2
        rw [c1, ← c2]
        simp [initialState, max]

/-- C5 (snaplen union).  On every run that is not aborted, exactly one header is written and
its snaplen is the maximum of the snaplen values of the admitted inputs: no admitted input
has a larger one, and it is the snaplen of an admitted input, or 0 when none is admitted.
The function `max` returns the larger of its two arguments, and stays in the range of
`uint32`. -/
theorem snaplen_union (inFiles : List Input) (h : (main inFiles).aborted = false) :
    (∃ m l, headers (main inFiles).log = [(m, l)] ∧
      (∀ s ∈ snaplens inFiles, s ≤ m) ∧
      (m ∈ snaplens inFiles ∨ (snaplens inFiles = [] ∧ m = 0))) ∧
    (∀ x y, x ≤ max x y ∧ y ≤ max x y ∧ (max x y = x ∨ max x y = y)) ∧
    (∀ x y, x < 2 ^ 32 → y < 2 ^ 32 → max x y < 2 ^ 32) := by
  obtain ⟨st0, st, hadm, e, hf⟩ := finished_facts inFiles h
  obtain ⟨_, b2, b3⟩ := admitLoop_snaplen inFiles 0 _ st0 hadm
  refine ⟨⟨st0.snaplen, st0.linkType, ?_, b2, ?_⟩, ?_, ?_⟩
  · rw [e]; exact hf.headers
  · rcases b3 with e1 | e1
    · by_cases hnil : snaplens inFiles = []
      · right; exact ⟨hnil, e1⟩
      · left
        obtain ⟨s, hs⟩ := List.exists_mem_of_ne_nil _ hnil
        have hle := b2 s hs
        have h0 : st0.snaplen = 0 := e1
        have hs0 : s = 0 := by omega
        rw [h0, ← hs0]; exact hs
    · left; exact e1
  · intro x y
    unfold max
    split_ifs with hxy
    · exact ⟨le_refl _, by omega, Or.inl rfl⟩
    · exact ⟨by omega, le_refl _, Or.inr rfl⟩
  · intro x y hx hy
    unfold max
    split_ifs <;> assumption

theorem snaplen_union_witness :
    (main [exampleA, Input.headerError, exampleB, exampleCorrupt]).aborted = false ∧
    ((∃ m l, headers (main [exampleA, Input.headerError, exampleB, exampleCorrupt]).log
          = [(m, l)] ∧
      (∀ s ∈ snaplens [exampleA, Input.headerError, exampleB, exampleCorrupt], s ≤ m) ∧
      (m ∈ snaplens [exampleA, Input.headerError, exampleB, exampleCorrupt] ∨
        (snaplens [exampleA, Input.headerError, exampleB, exampleCorrupt] = [] ∧ m = 0))) ∧
    (∀ x y, x ≤ max x y ∧ y ≤ max x y ∧ (max x y = x ∨ max x y = y)) ∧
    (∀ x y, x < 2 ^ 32 → y < 2 ^ 32 → max x y < 2 ^ 32)) :=
  ⟨by decide, snaplen_union [exampleA, Input.headerError, exampleB, exampleCorrupt] (by decide)⟩

/-- Termination when every reader reports `io.EOF` after its records.  For every list of
such inputs the run of `main` ends: it is aborted by the link-type check or returns.  When
it returns the heap is empty, every input is at end-of-input and has no valid record left
unread, and the merge loop gives the same final state with any larger bound on its number
of iterations. -/
theorem termination (inFiles : List Input) :
    main inFiles ≠ Outcome.outOfFuel ∧
    (∀ st, main inFiles = Outcome.finished st →
      st.minTimeHeap = [] ∧ (∀ r ∈ st.readers, r = []) ∧
      st.readers.length = inFiles.length ∧ (∀ i, unread st i = [])) ∧
    (∀ st0, admitLoop 0 inFiles (initialState inFiles) = Except.ok st0 →
      ∀ extra, mergeLoop (mergeFuel inFiles + extra)
          { st0 with log := st0.log ++ [Event.fileHeader st0.snaplen st0.linkType] } =
        mergeLoop (mergeFuel inFiles)
          { st0 with log := st0.log ++ [Event.fileHeader st0.snaplen st0.linkType] } ∧
        (mergeLoop (mergeFuel inFiles)
          { st0 with log := st0.log ++ [Event.fileHeader st0.snaplen st0.linkType] }).isSome) := by
  rcases main_cases inFiles with ⟨st0, hadm, e, _⟩ | ⟨st0, hadm, ⟨st, e, hf⟩, _⟩
  · rw [e, hadm]
    refine ⟨by simp, ?_, ?_⟩
    · intro st h; simp at h
    · intro st1 h; simp at h
  · rw [e, hadm]
    refine ⟨by simp, ?_, ?_⟩
    · intro st1 h
      simp only [Outcome.finished.injEq] at h
      subst h
      refine ⟨hf.heap, ?_, hf.readers, fun i => unread_nil_of st i (hf.eof i)⟩
      intro r hr
      obtain ⟨k, hk, rfl⟩ := List.getElem_of_mem hr
      have := hf.eof k
      rw [List.getD_eq_getElem _ _ hk] at this
      exact this
    · intro st1 h extra
      simp only [Except.ok.injEq] at h
      subst h
      have hm : mergeLoop (mergeFuel inFiles)
          { st0 with log := st0.log ++ [Event.fileHeader st0.snaplen st0.linkType] } = some st := by
        unfold main at e
        rw [hadm] at e
        simp only at e
        split at e
        · simp at e
        · rename_i st2 heq
          simp only [Outcome.finished.injEq] at e
          rw [heq, e]
      rw [hm, mergeLoop_mono _ _ _ hm extra]
      exact ⟨rfl, rfl⟩

theorem tsAt_map (f : Nat → Nat) (h : PacketHeap) (i : Nat) :
    tsAt (h.map (Packet.rename f)) i = tsAt h i := by
  unfold tsAt
  simp only [List.getD_eq_getElem?_getD, List.getElem?_map]
  cases h[i]? <;> rfl

theorem Less_map (f : Nat → Nat) (h : PacketHeap) (i j : Nat) :
    PacketHeap.Less (h.map (Packet.rename f)) i j = PacketHeap.Less h i j := by
  have h1 := tsAt_map f h i
  have h2 := tsAt_map f h j
  unfold tsAt at h1 h2
  unfold PacketHeap.Less
  rw [h1, h2]

theorem Swap_map (f : Nat → Nat) (h : PacketHeap) (i j : Nat) :
    PacketHeap.Swap (h.map (Packet.rename f)) i j = (PacketHeap.Swap h i j).map (Packet.rename f) := by
  unfold PacketHeap.Swap
  simp only [List.getElem?_map]
  cases h[i]? with
  | none => rfl
  | some a =>
    cases h[j]? with
    | none => rfl
    | some b => simp [List.map_set]

theorem up_map (f : Nat → Nat) : ∀ (fuel : Nat) (h : PacketHeap) (j : Nat),
    heap.up fuel (h.map (Packet.rename f)) j = (heap.up fuel h j).map (Packet.rename f) := by
  intro fuel
  induction fuel with
  | zero => intro h j; rfl
  | succ fuel ih =>
    intro h j
    unfold heap.up
    simp only [Less_map, Swap_map, ih]
    split_ifs <;> rfl

theorem down_map (f : Nat → Nat) : ∀ (fuel : Nat) (h : PacketHeap) (i n : Nat),
    heap.down fuel (h.map (Packet.rename f)) i n =
      (heap.down fuel h i n).map (Packet.rename f) := by
  intro fuel
  induction fuel with
  | zero => intro h i n; rfl
  | succ fuel ih =>
    intro h i n
    unfold heap.down
    simp only [Less_map, Swap_map, ih]
    split_ifs <;> rfl

theorem heap_Push_map (f : Nat → Nat) (h : PacketHeap) (x : Packet) :
    heap.Push (h.map (Packet.rename f)) (x.rename f) =
      (heap.Push h x).map (Packet.rename f) := by
  unfold heap.Push PacketHeap.Push
  simp only
  rw [← up_map]
  simp

theorem heap_Pop_map (f : Nat → Nat) (h : PacketHeap) :
    heap.Pop (h.map (Packet.rename f)) =
      (heap.Pop h).map fun ph => (ph.1.rename f, ph.2.map (Packet.rename f)) := by
  unfold heap.Pop
  simp only [List.length_map]
  split_ifs with h0
  · rfl
  · rw [Swap_map, down_map]
    unfold PacketHeap.Pop
    rw [List.getLast?_map]
    cases (heap.down (h.length - 1) (PacketHeap.Swap h 0 (h.length - 1)) 0
      (h.length - 1)).getLast? with
    | none => rfl
    | some x => simp

theorem earliestHeapTime_map (f : Nat → Nat) (h : PacketHeap) :
    earliestHeapTime (h.map (Packet.rename f)) = earliestHeapTime h := by
  cases h <;> rfl

theorem readNext_unread (s : Nat) (st st1 : State) (r : Option Packet)
    (h : readNext s st = (r, st1)) : ∀ i, i ≠ s → unread st1 i = unread st i := by
  intro i hi
  cases r with
  | none => exact unread_eq st st1 i ((readNext_none s st st1 h).2.2.2.2.1 i hi)
  | some q => exact unread_eq st st1 i ((readNext_some s st st1 q h).2.2.2.2.1 i hi)

theorem readNext_sim (f : Nat → Nat) (hf : Function.Injective f) (s : Nat) (st1 st2 : State)
    (hs : Sim f st1 st2) :
    (readNext (f s) st1).1 = (readNext s st2).1.map (Packet.rename f) ∧
      Sim f (readNext (f s) st1).2 (readNext s st2).2 := by
  rcases h1 : readNext (f s) st1 with ⟨r1, a⟩
  rcases h2 : readNext s st2 with ⟨r2, b⟩
  have hrd := hs.readers s
  have hoth : ∀ j, j ≠ s → unread a (f j) = (unread b j).map (Packet.rename f) := by
    intro j hj
    rw [readNext_unread _ _ _ _ h1 (f j) (fun e => hj (hf e)), readNext_unread _ _ _ _ h2 j hj]
    exact hs.readers j
  cases r1 with
  | none =>
    obtain ⟨a1, a2, a3, a4, _, a6, a7, _, _⟩ := readNext_none _ _ _ h1
    cases r2 with
    | none =>
      obtain ⟨b1, b2, b3, b4, _, b6, b7, _, _⟩ := readNext_none _ _ _ h2
      refine ⟨rfl, ⟨by rw [a2, b2, hs.snaplen], by rw [a3, b3, hs.linkType],
        by rw [a1, b1, hs.heap], ?_, ?_⟩⟩
      · show a.log = b.log.map (Event.rename f)
        rw [a4, b4, hs.log]
        simp [Event.rename]
      · intro j
        by_cases hj : j = s
        · subst hj
          show unread a (f j) = (unread b j).map (Packet.rename f)
          rw [unread_nil_of a _ a6, unread_nil_of b _ b6]
          rfl
        · exact hoth j hj
    | some q2 =>
      obtain ⟨_, _, _, _, _, b6, _⟩ := readNext_some _ _ _ _ h2
      rw [a7, b6] at hrd
      simp at hrd
  | some q1 =>
    obtain ⟨a1, a2, a3, a4, _, a6, _, _, _, _⟩ := readNext_some _ _ _ _ h1
    cases r2 with
    | none =>
      obtain ⟨_, _, _, _, _, _, b7, _, _⟩ := readNext_none _ _ _ h2
      rw [a6, b7] at hrd
      simp at hrd
    | some q2 =>
      obtain ⟨b1, b2, b3, b4, _, b6, _, _, _, _⟩ := readNext_some _ _ _ _ h2
      rw [a6, b6] at hrd
      simp only [List.map_cons, List.cons.injEq] at hrd
      refine ⟨by simp [hrd.1], ⟨by rw [a2, b2, hs.snaplen], by rw [a3, b3, hs.linkType],
        by rw [a1, b1, hs.heap], ?_, ?_⟩⟩
      · show a.log = b.log.map (Event.rename f)
        rw [a4, b4, hs.log]
      · intro j
        by_cases hj : j = s
        · subst hj
          exact hrd.2
        · exact hoth j hj

theorem write_sim (f : Nat → Nat) (st1 st2 : State) (p : Packet) (hs : Sim f st1 st2) :
    Sim f (write st1 (p.rename f)) (write st2 p) :=
  ⟨hs.snaplen, hs.linkType, hs.heap, by simp [write, hs.log, Event.rename], hs.readers⟩

theorem push_sim (f : Nat → Nat) (st1 st2 : State) (p : Packet) (hs : Sim f st1 st2) :
    Sim f { st1 with minTimeHeap := heap.Push st1.minTimeHeap (p.rename f) }
      { st2 with minTimeHeap := heap.Push st2.minTimeHeap p } :=
  ⟨hs.snaplen, hs.linkType, by simp only [hs.heap, heap_Push_map], hs.log, hs.readers⟩

theorem lookaheadLoop_sim (f : Nat → Nat) (hf : Function.Injective f) (packet : Packet)
    (e : Int) : ∀ (fuel : Nat) (st1 st2 : State), Sim f st1 st2 →
    OptSim f (lookaheadLoop fuel (packet.rename f) e st1) (lookaheadLoop fuel packet e st2) := by
  intro fuel
  induction fuel with
  | zero => intro st1 st2 _; exact trivial
  | succ fuel ih =>
    intro st1 st2 hs
    unfold lookaheadLoop
    obtain ⟨h1, h2⟩ := readNext_sim f hf packet.Reader st1 st2 hs
    rcases ha : readNext (f packet.Reader) st1 with ⟨r1, a⟩
    rcases hb : readNext packet.Reader st2 with ⟨r2, b⟩
    rw [ha, hb] at h1 h2
    simp only at h1 h2
    show OptSim f (match readNext (f packet.Reader) st1 with
      | (none, st1) => some st1
      | (some nextPacket, st1) =>
        if nextPacket.Timestamp ≤ e then lookaheadLoop fuel (packet.rename f) e (write st1 nextPacket)
        else some { st1 with minTimeHeap := heap.Push st1.minTimeHeap nextPacket }) _
    rw [ha]
    cases r2 with
    | none =>
      simp only [Option.map_none'] at h1
      subst h1
      exact h2
    | some q =>
      simp only [Option.map_some'] at h1
      subst h1
      simp only
      have hts : (q.rename f).Timestamp = q.Timestamp := rfl
      rw [hts]
      split_ifs with hle
      · exact ih _ _ (write_sim f a b q h2)
      · exact push_sim f a b q h2

theorem mergeLoop_sim (f : Nat → Nat) (hf : Function.Injective f) :
    ∀ (fuel : Nat) (st1 st2 : State), Sim f st1 st2 →
    OptSim f (mergeLoop fuel st1) (mergeLoop fuel st2) := by
  intro fuel
  induction fuel with
  | zero => intro st1 st2 _; exact trivial
  | succ fuel ih =>
    intro st1 st2 hs
    unfold mergeLoop
    rw [hs.heap, heap_Pop_map]
    cases hp : heap.Pop st2.minTimeHeap with
    | none => exact hs
    | some ph =>
      obtain ⟨p, h⟩ := ph
      simp only [Option.map_some', earliestHeapTime_map]
      have hs1 : Sim f (write { st1 with minTimeHeap := h.map (Packet.rename f) } (p.rename f))
          (write { st2 with minTimeHeap := h } p) :=
        write_sim f _ _ p ⟨hs.snaplen, hs.linkType, rfl, hs.log, hs.readers⟩
      have key := lookaheadLoop_sim f hf p (earliestHeapTime h) (fuel + 1) _ _ hs1
      cases h1 : lookaheadLoop (fuel + 1) (p.rename f) (earliestHeapTime h)
          (write { st1 with minTimeHeap := h.map (Packet.rename f) } (p.rename f)) with
      | none =>
        cases h2 : lookaheadLoop (fuel + 1) p (earliestHeapTime h)
            (write { st2 with minTimeHeap := h } p) with
        | none => exact trivial
        | some b => rw [h1, h2] at key; exact key.elim
      | some a =>
        cases h2 : lookaheadLoop (fuel + 1) p (earliestHeapTime h)
            (write { st2 with minTimeHeap := h } p) with
        | none => rw [h1, h2] at key; exact key.elim
        | some b =>
          rw [h1, h2] at key
          exact ih a b key

theorem skipIndex_injective (r : Nat) : Function.Injective (skipIndex r) := by
  intro a b h
  unfold skipIndex at h
  split_ifs at h <;> omega

theorem admitInput_sim (f : Nat → Nat) (hf : Function.Injective f) (k : Nat) (st1 st2 : State)
    (input1 input2 : Input) (hh : input1.header = input2.header) (hs : Sim f st1 st2) :
    ExSim f (admitInput st1 (f k) input1) (admitInput st2 k input2) := by
  have pcapCase : ∀ s l r1 r2, ExSim f (admitInput st1 (f k) (Input.pcap s l r1))
      (admitInput st2 k (Input.pcap s l r2)) := by
    intro s l r1 r2
    unfold admitInput
    simp only
    rw [hs.linkType, hs.snaplen]
    cases hl : reconcileLinkType st2.linkType l with
    | none =>
      exact ⟨rfl, rfl, hs.heap, hs.log, hs.readers⟩
    | some lt =>
      simp only
      have hs0 : Sim f { st1 with snaplen := max st2.snaplen s, linkType := lt }
          { st2 with snaplen := max st2.snaplen s, linkType := lt } :=
        ⟨rfl, rfl, hs.heap, hs.log, hs.readers⟩
      obtain ⟨h1, h2⟩ := readNext_sim f hf k _ _ hs0
      rcases ha : readNext (f k) { st1 with snaplen := max st2.snaplen s, linkType := lt }
        with ⟨ra, a⟩
      rcases hb : readNext k { st2 with snaplen := max st2.snaplen s, linkType := lt }
        with ⟨rb, b⟩
      rw [ha, hb] at h1 h2
      simp only at h1 h2
      cases rb with
      | none =>
        simp only [Option.map_none'] at h1
        subst h1
        exact h2
      | some q =>
        simp only [Option.map_some'] at h1
        subst h1
        exact push_sim f a b q h2
  cases input1 with
  | openError =>
    cases input2 with
    | openError => exact hs
    | headerError => exact hs
    | pcap s l r => simp [Input.header] at hh
  | headerError =>
    cases input2 with
    | openError => exact hs
    | headerError => exact hs
    | pcap s l r => simp [Input.header] at hh
  | pcap s l r =>
    cases input2 with
    | openError => simp [Input.header] at hh
    | headerError => simp [Input.header] at hh
    | pcap s2 l2 r2 =>
      simp only [Input.header, Option.some.injEq, Prod.mk.injEq] at hh
      obtain ⟨rfl, rfl⟩ := hh
      exact pcapCase s l r r2

theorem admitLoop_sim (f : Nat → Nat) (hf : Function.Injective f) :
    ∀ (rest1 rest2 : List Input), List.Forall₂ (fun a b => a.header = b.header) rest1 rest2 →
    ∀ (k1 k2 : Nat) (st1 st2 : State), (∀ m, m < rest2.length → f (k2 + m) = k1 + m) →
    Sim f st1 st2 → ExSim f (admitLoop k1 rest1 st1) (admitLoop k2 rest2 st2) := by
  intro rest1 rest2 hrel
  induction hrel with
  | nil => intro k1 k2 st1 st2 _ hs; exact hs
  | @cons a b l1 l2 hab _ ih =>
    intro k1 k2 st1 st2 hk hs
    unfold admitLoop
    have hk0 : f k2 = k1 := by
      have := hk 0 (by simp)
      simpa using this
    have key := admitInput_sim f hf k2 st1 st2 a b hab hs
    rw [hk0] at key
    cases h1 : admitInput st1 k1 a with
    | error e1 =>
      cases h2 : admitInput st2 k2 b with
      | error e2 => rw [h1, h2] at key; exact key
      | ok s2 => rw [h1, h2] at key; exact key.elim
    | ok s1 =>
      cases h2 : admitInput st2 k2 b with
      | error e2 => rw [h1, h2] at key; exact key.elim
      | ok s2 =>
        rw [h1, h2] at key
        refine ih (k1 + 1) (k2 + 1) s1 s2 ?_ key
        intro m hm
        have := hk (m + 1) (by simp; omega)
        rw [show k2 + 1 + m = k2 + (m + 1) by omega, this]
        omega

theorem admitLoop_append : ∀ (l1 l2 : List Input) (k : Nat) (st : State),
    admitLoop k (l1 ++ l2) st =
      match admitLoop k l1 st with
      | Except.error e => Except.error e
      | Except.ok st1 => admitLoop (k + l1.length) l2 st1 := by
  intro l1
  induction l1 with
  | nil => intro l2 k st; rfl
  | cons a t ih =>
    intro l2 k st
    simp only [List.cons_append, List.length_cons]
    conv_lhs => rw [admitLoop]
    conv_rhs => rw [admitLoop]
    cases admitInput st k a with
    | error e => rfl
    | ok st1 =>
      simp only
      rw [ih l2 (k + 1) st1, show k + 1 + t.length = k + (t.length + 1) by omega]

theorem forall₂_header_refl (l : List Input) :
    List.Forall₂ (fun a b : Input => a.header = b.header) l l := by
  induction l with
  | nil => exact List.Forall₂.nil
  | cons a t ih => exact List.Forall₂.cons rfl ih

theorem validPackets_rename (f : Nat → Nat) (j : Nat) (records : List Record) :
    validPackets (f j) records = (validPackets j records).map (Packet.rename f) := by
  unfold validPackets
  rw [List.map_filterMap]
  congr 1
  funext r
  cases r with
  | decodeError => rfl
  | data ci d =>
    simp only [Record.toPacket]
    split_ifs <;> rfl

theorem getD_insert {α : Type} (pre post : List α) (x d : α) (j : Nat) :
    (pre ++ x :: post).getD (skipIndex pre.length j) d = (pre ++ post).getD j d := by
  unfold skipIndex
  simp only [List.getD_eq_getElem?_getD]
  split_ifs with h
  · rw [List.getElem?_append_left h, List.getElem?_append_left h]
  · rw [List.getElem?_append_right (by omega), List.getElem?_append_right (by omega)]
    rw [show j + 1 - pre.length = (j - pre.length) + 1 by omega, List.getElem?_cons_succ]

theorem initial_sim (pre post : List Input) (bad : Input) :
    Sim (skipIndex pre.length) (initialState (pre ++ bad :: post)) (initialState (pre ++ post)) := by
  refine ⟨rfl, rfl, rfl, rfl, ?_⟩
  intro j
  unfold unread initialState
  simp only [List.map_append, List.map_cons]
  have := getD_insert (pre.map Input.records) (post.map Input.records) bad.records [] j
  rw [List.length_map] at this
  rw [this]
  exact validPackets_rename _ j _

theorem admission_sim (pre post : List Input) (bad : Input) (hbad : bad.admitted = false) :
    ExSim (skipIndex pre.length) (admitLoop 0 (pre ++ bad :: post) (initialState (pre ++ bad :: post)))
      (admitLoop 0 (pre ++ post) (initialState (pre ++ post))) := by
  have hf := skipIndex_injective pre.length
  rw [admitLoop_append, admitLoop_append]
  have h1 := admitLoop_sim _ hf pre pre (forall₂_header_refl pre) 0 0 _ _
    (by intro m hm; simp [skipIndex, hm]) (initial_sim pre post bad)
  cases ha : admitLoop 0 pre (initialState (pre ++ bad :: post)) with
  | error e1 =>
    cases hb : admitLoop 0 pre (initialState (pre ++ post)) with
    | error e2 => rw [ha, hb] at h1; exact h1
    | ok s2 => rw [ha, hb] at h1; exact h1.elim
  | ok s1 =>
    cases hb : admitLoop 0 pre (initialState (pre ++ post)) with
    | error e2 => rw [ha, hb] at h1; exact h1.elim
    | ok s2 =>
      rw [ha, hb] at h1
      simp only
      have hstep : admitLoop (0 + pre.length) (bad :: post) s1 =
          admitLoop (0 + pre.length + 1) post s1 := by
        cases bad with
        | openError => rfl
        | headerError => rfl
        | pcap s l r => simp [Input.admitted] at hbad
      rw [hstep]
      refine admitLoop_sim _ hf post post (forall₂_header_refl post) _ _ s1 s2 ?_ h1
      intro m _
      simp [skipIndex]
      omega

theorem main_loop_some (inFiles : List Input) (st0 : State)
    (h : admitLoop 0 inFiles (initialState inFiles) = Except.ok st0) :
    ∃ st, mergeLoop (mergeFuel inFiles)
        { st0 with log := st0.log ++ [Event.fileHeader st0.snaplen st0.linkType] } = some st ∧
      main inFiles = Outcome.finished st := by
  obtain ⟨st, e, _⟩ := main_ok inFiles st0 h
  refine ⟨st, ?_, e⟩
  unfold main at e
  rw [h] at e
  simp only at e
  split at e
  · simp at e
  · rename_i st2 heq
    simp only [Outcome.finished.injEq] at e
    rw [heq, e]

theorem main_sim (f : Nat → Nat) (hf : Function.Injective f) (l1 l2 : List Input)
    (hfuel : mergeFuel l2 ≤ mergeFuel l1)
    (hadm : ExSim f (admitLoop 0 l1 (initialState l1)) (admitLoop 0 l2 (initialState l2))) :
    OutSim f (main l1) (main l2) := by
  cases ha : admitLoop 0 l1 (initialState l1) with
  | error e1 =>
    cases hb : admitLoop 0 l2 (initialState l2) with
    | error e2 =>
      rw [ha, hb] at hadm
      rw [(main_error l1 e1 ha).1, (main_error l2 e2 hb).1]
      exact hadm
    | ok s2 => rw [ha, hb] at hadm; exact hadm.elim
  | ok s1 =>
    cases hb : admitLoop 0 l2 (initialState l2) with
    | error e2 => rw [ha, hb] at hadm; exact hadm.elim
    | ok s2 =>
      rw [ha, hb] at hadm
      have hs : Sim f s1 s2 := hadm
      obtain ⟨b, hb1, hb2⟩ := main_loop_some l2 s2 hb
      obtain ⟨a, ha1, ha2⟩ := main_loop_some l1 s1 ha
      have hsh : Sim f { s1 with log := s1.log ++ [Event.fileHeader s1.snaplen s1.linkType] }
          { s2 with log := s2.log ++ [Event.fileHeader s2.snaplen s2.linkType] } :=
        ⟨hs.snaplen, hs.linkType, hs.heap,
          by simp [hs.log, Event.rename, hs.snaplen, hs.linkType], hs.readers⟩
      have key := mergeLoop_sim f hf (mergeFuel l2) _ _ hsh
      rw [hb1] at key
      cases hc : mergeLoop (mergeFuel l2)
          { s1 with log := s1.log ++ [Event.fileHeader s1.snaplen s1.linkType] } with
      | none => rw [hc] at key; exact key.elim
      | some a' =>
        rw [hc] at key
        have hm := mergeLoop_mono _ _ _ hc (mergeFuel l1 - mergeFuel l2)
        rw [show mergeFuel l2 + (mergeFuel l1 - mergeFuel l2) = mergeFuel l1 by omega, ha1] at hm
        simp only [Option.some.injEq] at hm
        subst hm
        rw [ha2, hb2]
        exact key

theorem headers_rename (f : Nat → Nat) (log : List Event) :
    headers (log.map (Event.rename f)) = headers log := by
  unfold headers
  rw [List.filterMap_map]
  congr 1
  funext e
  cases e <;> rfl

theorem written_rename (f : Nat → Nat) (log : List Event) :
    written (log.map (Event.rename f)) = (written log).map (Packet.rename f) := by
  unfold written
  rw [List.filterMap_map, List.map_filterMap]
  congr 1
  funext e
  cases e <;> rfl

theorem toRecord_rename (f : Nat → Nat) (l : List Packet) :
    (l.map (Packet.rename f)).map Packet.toRecord = l.map Packet.toRecord := by
  rw [List.map_map]
  rfl

theorem OutSim.observable {f : Nat → Nat} {a b : Outcome} (h : OutSim f a b) :
    a.aborted = b.aborted ∧ a.completed = b.completed ∧ headers a.log = headers b.log ∧
      a.packets.map Packet.toRecord = b.packets.map Packet.toRecord ∧
      a.packets = b.packets.map (Packet.rename f) := by
  cases a with
  | outOfFuel => cases b <;> exact h.elim
  | panicked x =>
    cases b with
    | panicked y =>
      have hs : Sim f x y := h
      refine ⟨rfl, rfl, ?_, ?_, ?_⟩
      · show headers x.log = headers y.log
        rw [hs.log, headers_rename]
      · show (written x.log).map Packet.toRecord = (written y.log).map Packet.toRecord
        rw [hs.log, written_rename, toRecord_rename]
      · show written x.log = (written y.log).map (Packet.rename f)
        rw [hs.log, written_rename]
    | finished y => exact h.elim
    | outOfFuel => exact h.elim
  | finished x =>
    cases b with
    | finished y =>
      have hs : Sim f x y := h
      refine ⟨rfl, rfl, ?_, ?_, ?_⟩
      · show headers x.log = headers y.log
        rw [hs.log, headers_rename]
      · show (written x.log).map Packet.toRecord = (written y.log).map Packet.toRecord
        rw [hs.log, written_rename, toRecord_rename]
      · show written x.log = (written y.log).map (Packet.rename f)
        rw [hs.log, written_rename]
    | panicked y => exact h.elim
    | outOfFuel => exact h.elim

/-- C7 (bad-input isolation).  An input that cannot be opened, or whose container header
cannot be decoded, contributes nothing and does not by itself abort the run: the run on the
list with that input and the run on the list without it end the same way (both aborted by
the link-type check, or both returned), write the same header, and write the same sequence
of packet records; no packet written comes from that input. -/
theorem bad_input_isolation (pre post : List Input) (bad : Input)
    (hbad : bad.admitted = false) :
    (main (pre ++ bad :: post)).aborted = (main (pre ++ post)).aborted ∧
    (main (pre ++ bad :: post)).completed = (main (pre ++ post)).completed ∧
    headers (main (pre ++ bad :: post)).log = headers (main (pre ++ post)).log ∧
    (main (pre ++ bad :: post)).packets.map Packet.toRecord =
      (main (pre ++ post)).packets.map Packet.toRecord ∧
    fromReader pre.length (main (pre ++ bad :: post)).packets = [] := by
  have hfuel : mergeFuel (pre ++ post) ≤ mergeFuel (pre ++ bad :: post) := by
    unfold mergeFuel
    simp only [List.map_append, List.map_cons, List.sum_append, List.sum_cons,
      List.length_append, List.length_cons]
    omega
  have h := (main_sim _ (skipIndex_injective pre.length) _ _ hfuel
    (admission_sim pre post bad hbad)).observable
  refine ⟨h.1, h.2.1, h.2.2.1, h.2.2.2.1, ?_⟩
  rw [h.2.2.2.2]
  unfold fromReader
  rw [List.filter_eq_nil_iff]
  intro p hp
  obtain ⟨q, _, rfl⟩ := List.mem_map.mp hp
  simp only [Packet.rename, skipIndex, decide_eq_true_eq]
  split_ifs <;> omega

theorem bad_input_isolation_witness :
    Input.headerError.admitted = false ∧
    (main ([exampleA] ++ Input.headerError :: [exampleCorrupt, exampleB])).aborted =
      (main ([exampleA] ++ [exampleCorrupt, exampleB])).aborted ∧
    (main ([exampleA] ++ Input.headerError :: [exampleCorrupt, exampleB])).completed =
      (main ([exampleA] ++ [exampleCorrupt, exampleB])).completed ∧
    headers (main ([exampleA] ++ Input.headerError :: [exampleCorrupt, exampleB])).log =
      headers (main ([exampleA] ++ [exampleCorrupt, exampleB])).log ∧
    (main ([exampleA] ++ Input.headerError :: [exampleCorrupt, exampleB])).packets.map
        Packet.toRecord =
      (main ([exampleA] ++ [exampleCorrupt, exampleB])).packets.map Packet.toRecord ∧
    fromReader [exampleA].length
      (main ([exampleA] ++ Input.headerError :: [exampleCorrupt, exampleB])).packets = [] :=
  ⟨rfl, bad_input_isolation [exampleA] [exampleCorrupt, exampleB] Input.headerError rfl⟩

theorem validPackets_filter (j : Nat) (records : List Record) :
    validPackets j (records.filter Record.valid) = validPackets j records := by
  unfold validPackets
  induction records with
  | nil => rfl
  | cons r t ih =>
    have hs := toPacket_isSome j r
    cases hp : Record.toPacket j r with
    | none =>
      rw [hp] at hs
      have hv : r.valid = false := by simpa using hs.symm
      rw [List.filter_cons_of_neg (by simp [hv]), List.filterMap_cons_none hp]
      exact ih
    | some p =>
      rw [hp] at hs
      have hv : r.valid = true := by simpa using hs.symm
      rw [List.filter_cons_of_pos hv, List.filterMap_cons_some hp, List.filterMap_cons_some hp, ih]

theorem dropSkipped_records (input : Input) :
    input.dropSkipped.records = input.records.filter Record.valid := by
  cases input <;> rfl

theorem rename_id (l : List Packet) : l.map (Packet.rename id) = l := by
  have : Packet.rename id = id := by
    funext p
    rfl
  rw [this, List.map_id]

theorem forall₂_header_dropSkipped (inFiles : List Input) :
    List.Forall₂ (fun a b : Input => a.header = b.header) inFiles
      (inFiles.map Input.dropSkipped) := by
  induction inFiles with
  | nil => exact List.Forall₂.nil
  | cons a t ih =>
    refine List.Forall₂.cons ?_ ih
    cases a <;> rfl

theorem dropSkipped_sim (inFiles : List Input) :
    OutSim id (main inFiles) (main (inFiles.map Input.dropSkipped)) := by
  have hfuel : mergeFuel (inFiles.map Input.dropSkipped) ≤ mergeFuel inFiles := by
    unfold mergeFuel
    simp only [List.length_map, List.map_map]
    have : (inFiles.map ((fun input => input.records.length) ∘ Input.dropSkipped)).sum ≤
        (inFiles.map fun input => input.records.length).sum := by
      apply List.sum_le_sum
      intro input _
      simp only [Function.comp, dropSkipped_records]
      exact List.length_filter_le _ _
    omega
  have hrel := forall₂_header_dropSkipped inFiles
  have hinit : Sim id (initialState inFiles) (initialState (inFiles.map Input.dropSkipped)) := by
    refine ⟨rfl, rfl, rfl, rfl, ?_⟩
    intro j
    rw [rename_id]
    unfold unread initialState
    simp only [id, List.map_map]
    have e : (inFiles.map (Input.records ∘ Input.dropSkipped)).getD j [] =
        ((inFiles.map Input.records).getD j []).filter Record.valid := by
      simp only [List.getD_eq_getElem?_getD, List.getElem?_map]
      cases inFiles[j]? with
      | none => rfl
      | some input => simp [dropSkipped_records]
    rw [e, validPackets_filter]
  exact main_sim id Function.injective_id _ _ hfuel
    (admitLoop_sim id Function.injective_id _ _ hrel 0 0 _ _ (fun _ _ => rfl) hinit)

/-- C6 (skip resilience).  On every run that is not aborted, `main` returns, and for every
input `i` the packets of the output that were read from input `i`, in output order, are the
records of input `i` with the decode errors and the empty payloads removed, in file order:
a skipped record does not retire its source.  Moreover the whole sequence of packets written
is the one that the run writes when the skipped records are absent from the files, so a
skipped record changes nothing of what any input contributes. -/
theorem skip_resilience (inFiles : List Input) (h : (main inFiles).aborted = false)
    (i : Nat) (input : Input) (hi : inFiles[i]? = some input) :
    (main inFiles).completed = true ∧
    fromReader i (main inFiles).packets = validPackets i input.records ∧
    (fromReader i (main inFiles).packets).map Packet.toRecord =
      input.records.filter Record.valid ∧
    (main inFiles).packets = (main (inFiles.map Input.dropSkipped)).packets := by
  obtain ⟨st0, st, _, e, hf⟩ := finished_facts inFiles h
  have hsim := (dropSkipped_sim inFiles).observable.2.2.2.2
  rw [rename_id] at hsim
  refine ⟨?_, ?_, ?_, hsim⟩
  · rw [e]; rfl
  · rw [e]
    show fromReader i (written st.log) = _
    rw [hf.bySource i]
    unfold sourcePackets
    simp [List.getD_eq_getElem?_getD, hi]
  · rw [e]
    show (fromReader i (written st.log)).map Packet.toRecord = _
    rw [hf.bySource i]
    unfold sourcePackets
    simp only [List.getD_eq_getElem?_getD, List.getElem?_map, hi, Option.map_some',
      Option.getD_some]
    exact validPackets_toRecord i _

theorem skip_resilience_witness :
    (main [exampleA, exampleCorrupt, exampleB]).aborted = false ∧
    [exampleA, exampleCorrupt, exampleB][1]? = some exampleCorrupt ∧
    (main [exampleA, exampleCorrupt, exampleB]).completed = true ∧
    fromReader 1 (main [exampleA, exampleCorrupt, exampleB]).packets =
      validPackets 1 exampleCorrupt.records ∧
    (fromReader 1 (main [exampleA, exampleCorrupt, exampleB]).packets).map Packet.toRecord =
      exampleCorrupt.records.filter Record.valid ∧
    (main [exampleA, exampleCorrupt, exampleB]).packets =
      (main ([exampleA, exampleCorrupt, exampleB].map Input.dropSkipped)).packets :=
  ⟨by decide, rfl,
    skip_resilience [exampleA, exampleCorrupt, exampleB] (by decide) 1 exampleCorrupt rfl⟩

theorem eq_of_same_projections : ∀ (o1 o2 : List Packet),
    o1.map Packet.Timestamp = o2.map Packet.Timestamp →
    (∀ i, fromReader i o1 = fromReader i o2) →
    (∀ p ∈ o1, ∀ q ∈ o1, p.Timestamp = q.Timestamp → p.Reader = q.Reader) → o1 = o2 := by
  intro o1
  induction o1 with
  | nil =>
    intro o2 hts _ _
    cases o2 with
    | nil => rfl
    | cons q t => simp at hts
  | cons p t1 ih =>
    intro o2 hts hproj hties
    cases o2 with
    | nil => simp at hts
    | cons q t2 =>
      simp only [List.map_cons, List.cons.injEq] at hts
      have hq : q ∈ p :: t1 := by
        have h1 : q ∈ fromReader q.Reader (q :: t2) := by
          rw [fromReader_cons_self]; exact List.mem_cons_self _ _
        rw [← hproj q.Reader] at h1
        exact (List.mem_filter.mp h1).1
      have hr : p.Reader = q.Reader := hties p (List.mem_cons_self _ _) q hq hts.1
      have h0 := hproj p.Reader
      rw [fromReader_cons_self] at h0
      have h0' : fromReader p.Reader (q :: t2) = q :: fromReader p.Reader t2 := by
        rw [hr]; exact fromReader_cons_self q t2
      rw [h0'] at h0
      simp only [List.cons.injEq] at h0
      obtain ⟨hpq, htail⟩ := h0
      subst hpq
      congr 1
      apply ih t2 hts.2
      · intro i
        by_cases hi : p.Reader = i
        · subst hi; exact htail
        · have := hproj i
          rw [fromReader_cons_ne i p _ hi, fromReader_cons_ne i p _ hi] at this
          exact this
      · intro a ha b hb
        exact hties a (List.mem_cons_of_mem _ ha) b (List.mem_cons_of_mem _ hb)

theorem sorted_of_perm_inputs (l1 l2 : List Input) (hp : l1.Perm l2)
    (hs : ∀ input ∈ l1, input.Sorted) : ∀ input ∈ l2, input.Sorted :=
  fun input hin => hs input (hp.symm.subset hin)

theorem Finished.timestamps_sorted {inFiles : List Input} {st0 st : State}
    (h : Finished inFiles st0 st) (hs : ∀ input ∈ inFiles, input.Sorted) :
    ((written st.log).map Packet.Timestamp).Sorted (· ≤ ·) := by
  have := h.ordered (sourcePackets_sorted inFiles hs)
  unfold List.Sorted
  rw [List.pairwise_map]
  exact this

/-- Order independence between runs that are not aborted.  Merging input A with timestamps
1, 5, 9 and input B with timestamps 2, 3, 10 writes packets with timestamps
1, 2, 3, 5, 9, 10, in both orders of the inputs.  When the inputs are sorted and the
link-type check aborts neither the run on a list of inputs nor the run on a permutation of
it, both runs return and write the same sequence of timestamps.  Whether a run is aborted
can itself depend on the order of the inputs, through the link-type check. -/
theorem interleaving_order_independence :
    (main [exampleA, exampleB]).timestamps = [1, 2, 3, 5, 9, 10] ∧
    (main [exampleB, exampleA]).timestamps = [1, 2, 3, 5, 9, 10] ∧
    ∀ l1 l2 : List Input, l1.Perm l2 → (∀ input ∈ l1, input.Sorted) →
      (main l1).aborted = false → (main l2).aborted = false →
      (main l1).completed = true ∧ (main l2).completed = true ∧
        (main l1).timestamps = (main l2).timestamps := by
  refine ⟨by decide, by decide, ?_⟩
  intro l1 l2 hp hs h1 h2
  obtain ⟨a0, a, _, ea, ha⟩ := finished_facts l1 h1
  obtain ⟨b0, b, _, eb, hb⟩ := finished_facts l2 h2
  rw [ea, eb]
  refine ⟨rfl, rfl, ?_⟩
  show (written a.log).map Packet.Timestamp = (written b.log).map Packet.Timestamp
  have hperm : ((written a.log).map Packet.Timestamp).Perm
      ((written b.log).map Packet.Timestamp) :=
    (ha.timestamps_perm.trans (hp.flatMap_right _)).trans hb.timestamps_perm.symm
  exact List.eq_of_perm_of_sorted hperm (ha.timestamps_sorted hs)
    (hb.timestamps_sorted (sorted_of_perm_inputs l1 l2 hp hs))

theorem interleaving_order_independence_witness :
    [exampleA, exampleCorrupt, exampleB].Perm [exampleB, exampleA, exampleCorrupt] ∧
    (∀ input ∈ [exampleA, exampleCorrupt, exampleB], input.Sorted) ∧
    (main [exampleA, exampleCorrupt, exampleB]).aborted = false ∧
    (main [exampleB, exampleA, exampleCorrupt]).aborted = false ∧
    (main [exampleA, exampleCorrupt, exampleB]).completed = true ∧
    (main [exampleB, exampleA, exampleCorrupt]).completed = true ∧
    (main [exampleA, exampleCorrupt, exampleB]).timestamps =
      (main [exampleB, exampleA, exampleCorrupt]).timestamps :=
  ⟨by decide, by decide, by decide, by decide,
    interleaving_order_independence.2.2 [exampleA, exampleCorrupt, exampleB]
      [exampleB, exampleA, exampleCorrupt] (by decide) (by decide) (by decide) (by decide)⟩

/-- C9, counterexample: on two sorted inputs that share a timestamp, the merge loop with the
lookahead and the insert-then-extract strategy write different packet sequences (the two
packets with timestamp 2 are written in opposite orders). -/
theorem lookahead_not_identical :
    (∀ input ∈ exampleTies, input.Sorted) ∧
    (main exampleTies).packets.map Packet.toRecord =
      [exampleRecord 1 [1], exampleRecord 2 [2], exampleRecord 2 [3]] ∧
    (mainSimple exampleTies).packets.map Packet.toRecord =
      [exampleRecord 1 [1], exampleRecord 2 [3], exampleRecord 2 [2]] ∧
    (main exampleTies).packets ≠ (mainSimple exampleTies).packets := by
  decide

/-- C9 as amended (lookahead equivalence).  For sorted inputs, the merge loop with the
lookahead and the strategy that always inserts the packet read and extracts the minimum end
the same way, write the same header and the same sequence of timestamps, and write the same
packets from each input in the same order; the two packet sequences are permutations of
each other, and they are identical when no two valid records of different inputs have the
same timestamp. -/
theorem lookahead_equivalence (inFiles : List Input) (hs : ∀ input ∈ inFiles, input.Sorted) :
    main inFiles ≠ Outcome.outOfFuel ∧ mainSimple inFiles ≠ Outcome.outOfFuel ∧
    (main inFiles).aborted = (mainSimple inFiles).aborted ∧
    headers (main inFiles).log = headers (mainSimple inFiles).log ∧
    (main inFiles).timestamps = (mainSimple inFiles).timestamps ∧
    (∀ i, fromReader i (main inFiles).packets = fromReader i (mainSimple inFiles).packets) ∧
    (main inFiles).packets.Perm (mainSimple inFiles).packets ∧
    (NoCrossTies inFiles → (main inFiles).packets = (mainSimple inFiles).packets) := by
  rcases main_cases inFiles with ⟨st0, _, e1, e2⟩ | ⟨st0, _, ⟨a, ea, ha⟩, ⟨b, eb, hb⟩⟩
  · rw [e1, e2]
    exact ⟨by simp, by simp, rfl, rfl, rfl, fun _ => rfl, List.Perm.refl _, fun _ => rfl⟩
  · rw [ea, eb]
    have hts : (written a.log).map Packet.Timestamp = (written b.log).map Packet.Timestamp :=
      List.eq_of_perm_of_sorted (ha.timestamps_perm.trans hb.timestamps_perm.symm)
        (ha.timestamps_sorted hs) (hb.timestamps_sorted hs)
    have hproj : ∀ i, fromReader i (written a.log) = fromReader i (written b.log) := by
      intro i
      rw [ha.bySource i, hb.bySource i]
    refine ⟨by simp, by simp, rfl, ?_, hts, hproj, ha.perm.trans hb.perm.symm, ?_⟩
    · show headers a.log = headers b.log
      rw [ha.headers, hb.headers]
    · intro hno
      refine eq_of_same_projections _ _ hts hproj ?_
      have hall : ∀ p ∈ allValid inFiles, ∀ q ∈ allValid inFiles,
          p.Timestamp = q.Timestamp → p.Reader = q.Reader := by
        refine List.Pairwise.forall_of_forall ?_ ?_ hno
        · intro x y hxy e
          exact (hxy e.symm).symm
        · intro x _ _
          rfl
      intro p hp q hq
      exact hall p (ha.perm.subset hp) q (ha.perm.subset hq)

theorem lookahead_equivalence_witness :
    (∀ input ∈ [exampleB, exampleCorrupt, exampleA], input.Sorted) ∧
    NoCrossTies [exampleB, exampleCorrupt, exampleA] ∧
    (main [exampleB, exampleCorrupt, exampleA]).timestamps =
      (mainSimple [exampleB, exampleCorrupt, exampleA]).timestamps ∧
    (main [exampleB, exampleCorrupt, exampleA]).packets =
      (mainSimple [exampleB, exampleCorrupt, exampleA]).packets :=
  ⟨by decide, by decide,
    (lookahead_equivalence [exampleB, exampleCorrupt, exampleA] (by decide)).2.2.2.2.1,
    (lookahead_equivalence [exampleB, exampleCorrupt, exampleA] (by decide)).2.2.2.2.2.2.2
      (by decide)⟩

/-! ## Rules for the loops -/

theorem lookaheadLoop_rule (I O : State → Prop) (packet : Packet) (e : Int)
    (hEOF : ∀ st st1, I st → readNext packet.Reader st = (none, st1) → O st1)
    (hWrite : ∀ st st1 q, I st → readNext packet.Reader st = (some q, st1) →
      q.Timestamp ≤ e → I (write st1 q))
    (hPush : ∀ st st1 q, I st → readNext packet.Reader st = (some q, st1) →
      ¬ q.Timestamp ≤ e → O { st1 with minTimeHeap := heap.Push st1.minTimeHeap q }) :
    ∀ (fuel : Nat) (st st2 : State), I st → lookaheadLoop fuel packet e st = some st2 →
      O st2 := by
  intro fuel
  induction fuel with
  | zero => intro st st2 _ h; simp [lookaheadLoop] at h
  | succ fuel ih =>
    intro st st2 hI h
    unfold lookaheadLoop at h
    rcases hr : readNext packet.Reader st with ⟨r, st1⟩
    rw [hr] at h
    cases r with
    | none =>
      simp only [Option.some.injEq] at h
      subst h
      exact hEOF st st1 hI hr
    | some q =>
      simp only at h
      split_ifs at h with hle
      · exact ih _ _ (hWrite st st1 q hI hr hle) h
      · simp only [Option.some.injEq] at h
        subst h
        exact hPush st st1 q hI hr hle

theorem mergeLoopHeads_rule (O : State → Prop)
    (hstep : ∀ (fuel : Nat) (st st2 : State) (p : Packet) (h : PacketHeap), O st →
      heap.Pop st.minTimeHeap = some (p, h) →
      lookaheadLoop fuel p (earliestHeapTime h) (write { st with minTimeHeap := h } p)
        = some st2 → O st2) :
    ∀ (fuel : Nat) (st : State), O st → ∀ x ∈ mergeLoopHeads fuel st, O x := by
  intro fuel
  induction fuel with
  | zero => intro st _ x hx; simp [mergeLoopHeads] at hx
  | succ fuel ih =>
    intro st hO x hx
    unfold mergeLoopHeads at hx
    rcases List.mem_cons.mp hx with e | hx
    · rw [e]; exact hO
    · cases hp : heap.Pop st.minTimeHeap with
      | none => rw [hp] at hx; simp at hx
      | some ph =>
        obtain ⟨p, h⟩ := ph
        rw [hp] at hx
        simp only at hx
        cases hl : lookaheadLoop (fuel + 1) p (earliestHeapTime h)
            (write { st with minTimeHeap := h } p) with
        | none => rw [hl] at hx; simp at hx
        | some st2 =>
          rw [hl] at hx
          simp only at hx
          exact ih st2 (hstep _ st st2 p h hO hp hl) x hx

theorem mergeLoopHeads_last : ∀ (fuel : Nat) (st st1 : State),
    mergeLoop fuel st = some st1 →
      (mergeLoopHeads fuel st).getLast? = some st1 ∧ (mergeLoopHeads fuel st).head? = some st := by
  intro fuel
  induction fuel with
  | zero => intro st st1 h; simp [mergeLoop] at h
  | succ fuel ih =>
    intro st st1 h
    unfold mergeLoop at h
    unfold mergeLoopHeads
    refine ⟨?_, rfl⟩
    cases hp : heap.Pop st.minTimeHeap with
    | none =>
      rw [hp] at h
      simp only [Option.some.injEq] at h
      subst h
      rfl
    | some ph =>
      obtain ⟨p, hh⟩ := ph
      rw [hp] at h
      simp only at h ⊢
      cases hl : lookaheadLoop (fuel + 1) p (earliestHeapTime hh)
          (write { st with minTimeHeap := hh } p) with
      | none => rw [hl] at h; simp at h
      | some st2 =>
        rw [hl] at h
        simp only at h ⊢
        obtain ⟨h1, h2⟩ := ih st2 st1 h
        rw [List.getLast?_cons]
        rw [h1]
        rfl

/-! ## The `Close` calls through the loops -/

theorem closes_append (l1 l2 : List Event) : closes (l1 ++ l2) = closes l1 ++ closes l2 := by
  simp [closes]

theorem closes_write (st : State) (q : Packet) : closes (write st q).log = closes st.log := by
  simp [write, closes]

theorem closes_close (l : List Event) (s : Nat) : closes (l ++ [Event.close s]) = closes l ++ [s] := by
  simp [closes]

theorem closes_header (l : List Event) (a b : Nat) :
    closes (l ++ [Event.fileHeader a b]) = closes l := by
  simp [closes]

theorem CloseOuter_congr (inFiles : List Input) (st st1 : State) (i : Nat)
    (hc : (closes st1.log).count i = (closes st.log).count i)
    (hh : (fromReader i st1.minTimeHeap).Perm (fromReader i st.minTimeHeap))
    (h : CloseOuter inFiles st i) : CloseOuter inFiles st1 i := by
  unfold CloseOuter at *
  rw [hc]
  rcases h with ⟨a, ⟨b, c⟩ | ⟨b, p, c⟩⟩ | ⟨a, b, c⟩
  · rw [c] at hh
    exact Or.inl ⟨a, Or.inl ⟨b, List.perm_nil.mp hh⟩⟩
  · rw [c] at hh
    exact Or.inl ⟨a, Or.inr ⟨b, p, List.perm_singleton.mp hh⟩⟩
  · rw [c] at hh
    exact Or.inr ⟨a, b, List.perm_nil.mp hh⟩

theorem close_pop (inFiles : List Input) (st : State) (p : Packet) (h : PacketHeap)
    (hc : ∀ i, CloseOuter inFiles st i) (hperm : st.minTimeHeap.Perm (p :: h)) :
    CloseInner inFiles (write { st with minTimeHeap := h } p) p.Reader ∧
      ∀ i, i ≠ p.Reader → CloseOuter inFiles (write { st with minTimeHeap := h } p) i := by
  have hlog : closes (write { st with minTimeHeap := h } p).log = closes st.log :=
    closes_write _ p
  constructor
  · have hpp := fromReader_perm p.Reader hperm
    rw [fromReader_cons_self] at hpp
    rcases hc p.Reader with ⟨a, ⟨_, c⟩ | ⟨b, q, c⟩⟩ | ⟨_, _, c⟩
    · rw [c] at hpp
      exact absurd (List.perm_nil.mp hpp.symm) (by simp)
    · rw [c] at hpp
      have hl := hpp.length_eq
      simp at hl
      refine ⟨a, by rw [hlog]; exact b, hl⟩
    · rw [c] at hpp
      exact absurd (List.perm_nil.mp hpp.symm) (by simp)
  · intro i hi
    have hne : p.Reader ≠ i := fun e => hi e.symm
    refine CloseOuter_congr inFiles st _ i (by rw [hlog]) ?_ (hc i)
    have := fromReader_perm i hperm
    rw [fromReader_cons_ne i p _ hne] at this
    exact this.symm

theorem close_eof_self (inFiles : List Input) (s : Nat) (st st1 : State)
    (hs : CloseInner inFiles st s) (hr : readNext s st = (none, st1)) :
    CloseOuter inFiles st1 s := by
  obtain ⟨a1, _, _, a4, _⟩ := readNext_none s st st1 hr
  obtain ⟨b1, b2, b3⟩ := hs
  refine Or.inl ⟨b1, Or.inl ⟨?_, by rw [a1]; exact b3⟩⟩
  rw [a4, closes_close, List.count_append, b2]
  simp

theorem close_eof_other (inFiles : List Input) (s : Nat) (st st1 : State)
    (hr : readNext s st = (none, st1)) (i : Nat) (hi : i ≠ s)
    (ho : CloseOuter inFiles st i) : CloseOuter inFiles st1 i := by
  obtain ⟨a1, _, _, a4, _⟩ := readNext_none s st st1 hr
  refine CloseOuter_congr inFiles st st1 i ?_ (by rw [a1]) ho
  rw [a4, closes_close, List.count_append, List.count_singleton]
  have : ¬ s = i := fun e => hi e.symm
  simp [this]

theorem close_eof (inFiles : List Input) (s : Nat) (st st1 : State)
    (hs : CloseInner inFiles st s) (ho : ∀ i, i ≠ s → CloseOuter inFiles st i)
    (hr : readNext s st = (none, st1)) : ∀ i, CloseOuter inFiles st1 i := by
  intro i
  by_cases hi : i = s
  · subst hi
    exact close_eof_self inFiles i st st1 hs hr
  · exact close_eof_other inFiles s st st1 hr i hi (ho i hi)

theorem close_write (inFiles : List Input) (s : Nat) (st st1 : State) (q : Packet)
    (hs : CloseInner inFiles st s) (ho : ∀ i, i ≠ s → CloseOuter inFiles st i)
    (hr : readNext s st = (some q, st1)) :
    CloseInner inFiles (write st1 q) s ∧ ∀ i, i ≠ s → CloseOuter inFiles (write st1 q) i := by
  obtain ⟨a1, _, _, a4, _⟩ := readNext_some s st st1 q hr
  have hlog : closes (write st1 q).log = closes st.log := by rw [closes_write, a4]
  have hheap : (write st1 q).minTimeHeap = st.minTimeHeap := a1
  obtain ⟨b1, b2, b3⟩ := hs
  refine ⟨⟨b1, by rw [hlog]; exact b2, by rw [hheap]; exact b3⟩, ?_⟩
  intro i hi
  exact CloseOuter_congr inFiles st _ i (by rw [hlog]) (by rw [hheap]) (ho i hi)

theorem close_push_self (inFiles : List Input) (s : Nat) (st st1 : State) (q : Packet)
    (hh : IsHeap st.minTimeHeap) (hs : CloseInner inFiles st s)
    (hr : readNext s st = (some q, st1)) :
    CloseOuter inFiles { st1 with minTimeHeap := heap.Push st1.minTimeHeap q } s := by
  obtain ⟨a1, _, _, a4, _, _, a7, _⟩ := readNext_some s st st1 q hr
  obtain ⟨_, p2⟩ := heap_Push_spec st1.minTimeHeap q (by rw [a1]; exact hh)
  rw [a1] at p2
  obtain ⟨b1, b2, b3⟩ := hs
  refine Or.inl ⟨b1, Or.inr ⟨by simp only [a4]; exact b2, q, ?_⟩⟩
  have := fromReader_perm s p2
  rw [← a7, fromReader_cons_self, a7, b3] at this
  simpa [a1] using List.perm_singleton.mp this

theorem close_push_other (inFiles : List Input) (s : Nat) (st st1 : State) (q : Packet)
    (hh : IsHeap st.minTimeHeap) (hr : readNext s st = (some q, st1)) (i : Nat) (hi : i ≠ s)
    (ho : CloseOuter inFiles st i) :
    CloseOuter inFiles { st1 with minTimeHeap := heap.Push st1.minTimeHeap q } i := by
  obtain ⟨a1, _, _, a4, _, _, a7, _⟩ := readNext_some s st st1 q hr
  obtain ⟨_, p2⟩ := heap_Push_spec st1.minTimeHeap q (by rw [a1]; exact hh)
  rw [a1] at p2
  refine CloseOuter_congr inFiles st _ i (by simp only [a4]) ?_ ho
  have := fromReader_perm i p2
  rw [fromReader_cons_ne i q _ (by rw [a7]; exact fun e => hi e.symm)] at this
  simpa [a1] using this

theorem close_push (inFiles : List Input) (s : Nat) (st st1 : State) (q : Packet)
    (hh : IsHeap st.minTimeHeap)
    (hs : CloseInner inFiles st s) (ho : ∀ i, i ≠ s → CloseOuter inFiles st i)
    (hr : readNext s st = (some q, st1)) :
    ∀ i, CloseOuter inFiles { st1 with minTimeHeap := heap.Push st1.minTimeHeap q } i := by
  intro i
  by_cases hi : i = s
  · subst hi
    exact close_push_self inFiles i st st1 q hh hs hr
  · exact close_push_other inFiles s st st1 q hh hr i hi (ho i hi)

theorem headers_snoc_packet (ext : List Event) (q : Packet) (h : headers ext = []) :
    headers (ext ++ [Event.packet q]) = [] := by
  simp only [headers, List.filterMap_append] at h ⊢
  rw [h]
  rfl

theorem headers_snoc_close (ext : List Event) (s : Nat) (h : headers ext = []) :
    headers (ext ++ [Event.close s]) = [] := by
  simp only [headers, List.filterMap_append] at h ⊢
  rw [h]
  rfl

theorem MergeInv_step (inFiles : List Input) (st0 : State) (fuel : Nat) (st st2 : State)
    (p : Packet) (h : PacketHeap) (hO : MergeInv inFiles st0 st)
    (hp : heap.Pop st.minTimeHeap = some (p, h))
    (hl : lookaheadLoop fuel p (earliestHeapTime h) (write { st with minTimeHeap := h } p)
      = some st2) : MergeInv inFiles st0 st2 := by
  have hne : st.minTimeHeap ≠ [] := by
    intro e; rw [e, heap_Pop_nil] at hp; simp at hp
  obtain ⟨p', h', e1, hperm, _, _, _⟩ := heap_Pop_spec st.minTimeHeap hO.outer.1 hne
  rw [hp] at e1
  simp only [Option.some.injEq, Prod.mk.injEq] at e1
  obtain ⟨rfl, rfl⟩ := e1
  obtain ⟨ext, hlog, hext⟩ := hO.log
  have hstart : LookInv inFiles st0 p.Reader h (write { st with minTimeHeap := h } p) := by
    obtain ⟨c1, c2⟩ := close_pop inFiles st p h hO.close hperm
    refine ⟨(step_pop _ st p h hO.outer hp).1, rfl, c1, c2, hO.snaplen, hO.linkType,
      ⟨ext ++ [Event.packet p], ?_, headers_snoc_packet ext p hext⟩⟩
    show st.log ++ [Event.packet p] = _
    rw [hlog]
    simp
  refine lookaheadLoop_rule (LookInv inFiles st0 p.Reader h) (MergeInv inFiles st0) p
    (earliestHeapTime h) ?_ ?_ ?_ fuel _ st2 hstart hl
  · intro a b hI hr
    obtain ⟨a1, a2, a3, a4, _⟩ := readNext_none _ a b hr
    obtain ⟨ext1, hl1, he1⟩ := hI.log
    refine ⟨step_eof _ _ _ _ a b (fun _ _ _ => trivial) hI.inner hr,
      close_eof inFiles _ a b hI.closeSelf hI.close hr, by rw [a2, hI.snaplen],
      by rw [a3, hI.linkType], ⟨ext1 ++ [Event.close p.Reader], ?_, headers_snoc_close ext1 _ he1⟩⟩
    rw [a4, hl1]
    simp
  · intro a b q hI hr hle
    obtain ⟨a1, a2, a3, a4, _⟩ := readNext_some _ a b q hr
    obtain ⟨ext1, hl1, he1⟩ := hI.log
    obtain ⟨c1, c2⟩ := close_write inFiles _ a b q hI.closeSelf hI.close hr
    refine ⟨step_write _ _ a b q hI.inner hr (by rw [hI.heap]; exact hle), ?_, c1, c2,
      by show b.snaplen = _; rw [a2, hI.snaplen], by show b.linkType = _; rw [a3, hI.linkType],
      ⟨ext1 ++ [Event.packet q], ?_, headers_snoc_packet ext1 q he1⟩⟩
    · show b.minTimeHeap = h
      rw [a1, hI.heap]
    · show b.log ++ [Event.packet q] = _
      rw [a4, hl1]
      simp
  · intro a b q hI hr _
    obtain ⟨a1, a2, a3, a4, _⟩ := readNext_some _ a b q hr
    obtain ⟨ext1, hl1, he1⟩ := hI.log
    refine ⟨step_push _ _ _ _ a b q (fun _ _ _ => trivial) hI.inner hr,
      close_push inFiles _ a b q hI.inner.1 hI.closeSelf hI.close hr,
      by show b.snaplen = _; rw [a2, hI.snaplen], by show b.linkType = _; rw [a3, hI.linkType],
      ⟨ext1, ?_, he1⟩⟩
    show b.log = _
    rw [a4, hl1]

/-! ## The `Close` calls during admission -/

theorem admitLoop_rule (inFiles : List Input) (P : Nat → State → Prop)
    (hstep : ∀ k st st1 input, P k st → inFiles[k]? = some input →
      admitInput st k input = Except.ok st1 → P (k + 1) st1) :
    ∀ (rest : List Input) (k : Nat) (st st1 : State), P k st → k ≤ inFiles.length →
      inFiles.drop k = rest → admitLoop k rest st = Except.ok st1 →
      P inFiles.length st1 := by
  intro rest
  induction rest with
  | nil =>
    intro k st st1 h hk hd ha
    simp only [admitLoop, Except.ok.injEq] at ha
    subst ha
    have hk2 : k = inFiles.length := by
      have := congrArg List.length hd
      simp at this
      omega
    subst hk2
    exact h
  | cons input rest ih =>
    intro k st st1 h hk hd ha
    unfold admitLoop at ha
    cases hstep' : admitInput st k input with
    | error e => rw [hstep'] at ha; simp at ha
    | ok st2 =>
      rw [hstep'] at ha
      simp only at ha
      have hin : inFiles[k]? = some input := by
        have := congrArg (fun l => l[0]?) hd
        simpa using this
      have hd2 : inFiles.drop (k + 1) = rest := by
        have := congrArg List.tail hd
        simpa using this
      have hk1 : k + 1 ≤ inFiles.length := by
        have := (List.getElem?_eq_some_iff.mp hin).1
        omega
      exact ih (k + 1) st2 st1 (hstep k st st2 input h hin hstep') hk1 hd2 ha

theorem admit_ok_pcap_cases (st st1 : State) (k s l : Nat) (r : List Record)
    (h : admitInput st k (Input.pcap s l r) = Except.ok st1) :
    ∃ st', st'.minTimeHeap = st.minTimeHeap ∧ st'.readers = st.readers ∧ st'.log = st.log ∧
      ((∃ st2, readNext k st' = (none, st2) ∧ st1 = st2) ∨
        (∃ q st2, readNext k st' = (some q, st2) ∧
          st1 = { st2 with minTimeHeap := heap.Push st2.minTimeHeap q })) := by
  unfold admitInput at h
  simp only at h
  cases hl : reconcileLinkType st.linkType l with
  | none => rw [hl] at h; simp at h
  | some lt =>
    rw [hl] at h
    simp only at h
    split at h
    · rename_i q st2 hread
      simp only [Except.ok.injEq] at h
      exact ⟨{ st with snaplen := max st.snaplen s, linkType := lt }, rfl, rfl, rfl,
        Or.inr ⟨q, st2, hread, h.symm⟩⟩
    · rename_i st2 hread
      simp only [Except.ok.injEq] at h
      exact ⟨{ st with snaplen := max st.snaplen s, linkType := lt }, rfl, rfl, rfl,
        Or.inl ⟨st2, hread, h.symm⟩⟩

theorem admittedAt_eq (inFiles : List Input) (k : Nat) (input : Input)
    (h : inFiles[k]? = some input) : admittedAt inFiles k = input.admitted := by
  simp [admittedAt, List.getD_eq_getElem?_getD, h]

theorem AdmClose_init (inFiles : List Input) : AdmClose inFiles 0 (initialState inFiles) :=
  ⟨AdmInv_init inFiles, fun i hi => absurd hi (by omega), fun _ _ => rfl⟩

theorem AdmClose_step (inFiles : List Input) (k : Nat) (st st1 : State) (input : Input)
    (h : AdmClose inFiles k st) (hin : inFiles[k]? = some input)
    (ha : admitInput st k input = Except.ok st1) : AdmClose inFiles (k + 1) st1 := by
  have hadm := admit_inv inFiles k st st1 input h.adm hin ha
  have hnil : fromReader k st.minTimeHeap = [] :=
    fromReader_eq_nil_of_lt k _ h.adm.heap_lt k (le_refl _)
  have hat := admittedAt_eq inFiles k input hin
  have skip : input.admitted = false → AdmClose inFiles (k + 1) st1 := by
    intro hna
    have e := admit_ok_skip st st1 k input hna ha
    subst e
    refine ⟨hadm, ?_, fun i hi => h.unseen i (by omega)⟩
    intro i hi
    by_cases hik : i = k
    · subst hik
      exact Or.inr ⟨by rw [hat, hna], h.unseen i (le_refl _), hnil⟩
    · exact h.seen i (by omega)
  cases input with
  | openError => exact skip rfl
  | headerError => exact skip rfl
  | pcap s l r =>
    obtain ⟨st', e1, e2, e3, hcase⟩ := admit_ok_pcap_cases st st1 k s l r ha
    have hself : CloseInner inFiles st' k :=
      ⟨by rw [hat]; rfl, by rw [e3]; exact h.unseen k (le_refl _), by rw [e1]; exact hnil⟩
    have hseen : ∀ i, i < k → CloseOuter inFiles st' i := fun i hi =>
      CloseOuter_congr inFiles st st' i (by rw [e3]) (by rw [e1]) (h.seen i hi)
    have hheap : IsHeap st'.minTimeHeap := by rw [e1]; exact h.adm.inv.1
    rcases hcase with ⟨st2, hr, rfl⟩ | ⟨q, st2, hr, rfl⟩
    · obtain ⟨_, _, _, a4, _⟩ := readNext_none k st' st1 hr
      refine ⟨hadm, ?_, ?_⟩
      · intro i hi
        by_cases hik : i = k
        · subst hik
          exact close_eof_self inFiles i st' st1 hself hr
        · exact close_eof_other inFiles k st' st1 hr i hik (hseen i (by omega))
      · intro i hi
        rw [a4, closes_close, List.count_append, List.count_singleton, e3, h.unseen i (by omega)]
        have : ¬ k = i := by omega
        simp [this]
    · obtain ⟨_, _, _, a4, _⟩ := readNext_some k st' st2 q hr
      refine ⟨hadm, ?_, ?_⟩
      · intro i hi
        by_cases hik : i = k
        · subst hik
          exact close_push_self inFiles i st' st2 q hheap hself hr
        · exact close_push_other inFiles k st' st2 q hheap hr i hik (hseen i (by omega))
      · intro i hi
        show (closes st2.log).count i = 0
        rw [a4, e3]
        exact h.unseen i (by omega)

theorem admitLoop_close (inFiles : List Input) (st0 : State)
    (h : admitLoop 0 inFiles (initialState inFiles) = Except.ok st0) :
    AdmClose inFiles inFiles.length st0 :=
  admitLoop_rule inFiles (AdmClose inFiles) (AdmClose_step inFiles) inFiles 0 _ st0
    (AdmClose_init inFiles) (Nat.zero_le _) rfl h

theorem MergeInv_start (inFiles : List Input) (st0 : State)
    (h : admitLoop 0 inFiles (initialState inFiles) = Except.ok st0) :
    MergeInv inFiles st0
      { st0 with log := st0.log ++ [Event.fileHeader st0.snaplen st0.linkType] } := by
  have hc := admitLoop_close inFiles st0 h
  refine ⟨(start_inv inFiles st0 hc.adm).1, ?_, rfl, rfl, ⟨[], by simp, rfl⟩⟩
  intro i
  have hlog : closes (st0.log ++ [Event.fileHeader st0.snaplen st0.linkType]) = closes st0.log :=
    closes_header _ _ _
  by_cases hi : i < inFiles.length
  · exact CloseOuter_congr inFiles st0 _ i (by simp only [hlog]) (List.Perm.refl _) (hc.seen i hi)
  · refine Or.inr ⟨?_, ?_, ?_⟩
    · simp only [admittedAt, List.getD_eq_getElem?_getD]
      rw [List.getElem?_eq_none (by simp; omega)]
      rfl
    · simp only [hlog]
      exact hc.unseen i (by omega)
    · exact fromReader_eq_nil_of_lt _ _ hc.adm.heap_lt i (by omega)

theorem loopHeads_inv (inFiles : List Input) (st0 : State)
    (h : admitLoop 0 inFiles (initialState inFiles) = Except.ok st0) :
    (∀ x ∈ loopHeads inFiles, MergeInv inFiles st0 x) ∧
    ∃ st, main inFiles = Outcome.finished st ∧ (loopHeads inFiles).getLast? = some st ∧
      (loopHeads inFiles).head? =
        some { st0 with log := st0.log ++ [Event.fileHeader st0.snaplen st0.linkType] } ∧
      MergeInv inFiles st0 st := by
  have hall : ∀ x ∈ loopHeads inFiles, MergeInv inFiles st0 x := by
    unfold loopHeads
    rw [h]
    exact mergeLoopHeads_rule (MergeInv inFiles st0) (MergeInv_step inFiles st0) _ _
      (MergeInv_start inFiles st0 h)
  obtain ⟨st, hm, e⟩ := main_loop_some inFiles st0 h
  obtain ⟨h1, h2⟩ := mergeLoopHeads_last _ _ _ hm
  have hl : (loopHeads inFiles).getLast? = some st := by
    unfold loopHeads
    rw [h]
    exact h1
  have hh : (loopHeads inFiles).head? =
      some { st0 with log := st0.log ++ [Event.fileHeader st0.snaplen st0.linkType] } := by
    unfold loopHeads
    rw [h]
    exact h2
  exact ⟨hall, st, e, hl, hh, hall st (List.mem_of_getLast?_eq_some hl)⟩

/-! ## The header, the pending packets, the closed files -/

theorem admitLoop_reconcile : ∀ (rest : List Input) (k : Nat) (st : State),
    (∀ st1, admitLoop k rest st = Except.ok st1 →
      reconcileAll (st.snaplen, st.linkType) rest = some (st1.snaplen, st1.linkType)) ∧
    (∀ st1, admitLoop k rest st = Except.error st1 →
      reconcileAll (st.snaplen, st.linkType) rest = none) := by
  intro rest
  induction rest with
  | nil =>
    intro k st
    constructor
    · intro st1 h
      simp only [admitLoop, Except.ok.injEq] at h
      subst h
      rfl
    · intro st1 h
      simp [admitLoop] at h
  | cons input rest ih =>
    intro k st
    have key : ∀ r, admitLoop k (input :: rest) st = r →
        match r with
        | Except.ok st1 =>
          reconcileAll (st.snaplen, st.linkType) (input :: rest) = some (st1.snaplen, st1.linkType)
        | Except.error _ => reconcileAll (st.snaplen, st.linkType) (input :: rest) = none := by
      intro r hr
      unfold admitLoop at hr
      cases hstep : admitInput st k input with
      | error e =>
        rw [hstep] at hr
        subst hr
        obtain ⟨s, l, rr, hin, hrec, _⟩ := admit_error st e k input hstep
        subst hin
        simp only [reconcileAll, Input.header, hrec]
      | ok st2 =>
        rw [hstep] at hr
        simp only at hr
        have hrest : reconcileAll (st.snaplen, st.linkType) (input :: rest) =
            reconcileAll (st2.snaplen, st2.linkType) rest := by
          cases input with
          | openError =>
            have := admit_ok_skip st st2 k Input.openError rfl hstep
            subst this
            rfl
          | headerError =>
            have := admit_ok_skip st st2 k Input.headerError rfl hstep
            subst this
            rfl
          | pcap s l rr =>
            obtain ⟨c1, c2⟩ := admit_ok_pcap st st2 k s l rr hstep
            simp only [reconcileAll, Input.header, c2, c1]
        rw [hrest]
        cases r with
        | ok st1 => exact (ih (k + 1) st2).1 st1 hr
        | error e => exact (ih (k + 1) st2).2 e hr
    exact ⟨fun st1 h => key _ h, fun st1 h => key _ h⟩

theorem closes_mem_iff (log : List Event) (i : Nat) : i ∈ closes log ↔ Event.close i ∈ log := by
  unfold closes
  rw [List.mem_filterMap]
  constructor
  · rintro ⟨e, he, h⟩
    cases e with
    | fileHeader a b => simp at h
    | packet p => simp at h
    | close j =>
      simp only [Option.some.injEq] at h
      subst h
      exact he
  · intro h
    exact ⟨Event.close i, h, rfl⟩

theorem MergeInv.pending {inFiles : List Input} {st0 st : State} (h : MergeInv inFiles st0 st)
    (i : Nat) (ha : admittedAt inFiles i = true) : Pending inFiles st i := by
  have hso := h.outer.2.1 i trivial
  have hco := h.close i
  rcases hco with ⟨_, ⟨c1, c2⟩ | ⟨c1, p, c2⟩⟩ | ⟨c0, _, _⟩
  · refine ⟨by rw [c2]; simp, ?_, by rw [c2]; simp, ?_⟩
    · rw [c2, ← closes_mem_iff]
      have : i ∈ closes st.log := List.count_pos_iff.mp (by omega)
      simp [this]
    · intro _
      rcases hso with ⟨_, b, c⟩ | ⟨q, a, _⟩
      · exact ⟨unread_nil_of st i b, c⟩
      · rw [c2] at a; simp at a
  · refine ⟨by rw [c2]; simp, ?_, ?_, ?_⟩
    · rw [c2, ← closes_mem_iff]
      have : i ∉ closes st.log := fun hm => by
        have := List.count_pos_iff.mpr hm
        omega
      simp [this]
    · intro q hq
      rw [c2] at hq
      simp only [List.mem_singleton] at hq
      subst hq
      rcases hso with ⟨a, _, _⟩ | ⟨q', a, b⟩
      · rw [c2] at a; simp at a
      · rw [c2] at a
        simp only [List.cons.injEq, and_true] at a
        subst a
        exact b
    · intro e
      rw [c2] at e
      simp at e
  · rw [ha] at c0
    simp at c0

theorem completed_closes (inFiles : List Input) (st : State)
    (h : main inFiles = Outcome.finished st) (i : Nat) :
    (closes st.log).count i = if admittedAt inFiles i = true then 1 else 0 := by
  rcases main_cases inFiles with ⟨st0, _, e, _⟩ | ⟨st0, hadm, ⟨st', e, hf⟩, _⟩
  · rw [e] at h; simp at h
  · rw [e] at h
    simp only [Outcome.finished.injEq] at h
    subst h
    obtain ⟨_, st2, e2, _, _, hm⟩ := loopHeads_inv inFiles st0 hadm
    rw [e] at e2
    simp only [Outcome.finished.injEq] at e2
    subst e2
    rcases hm.close i with ⟨a, ⟨c1, _⟩ | ⟨_, p, c2⟩⟩ | ⟨a, c1, _⟩
    · rw [if_pos a, c1]
    · rw [hf.heap] at c2
      simp [fromReader] at c2
    · rw [a, c1]
      simp

/-- C12 (pending-packet invariant).  In every state at the head of an iteration of the
merge loop, and for every admitted input: the heap holds at most one packet of the input;
it holds one exactly when the input has not been closed at end-of-input; that packet is the
earliest valid record of the input not yet written, every earlier valid record being
written; and when no packet is held every valid record is written.  The states at the head
of the loop end with the state in which `main` returns. -/
theorem pending_packet_invariant (inFiles : List Input) (x : State)
    (hx : x ∈ loopHeads inFiles) (i : Nat) (input : Input) (hi : inFiles[i]? = some input)
    (ha : input.admitted = true) :
    Pending inFiles x i ∧
      ∃ st, main inFiles = Outcome.finished st ∧ (loopHeads inFiles).getLast? = some st := by
  cases hadm : admitLoop 0 inFiles (initialState inFiles) with
  | error e =>
    unfold loopHeads at hx
    rw [hadm] at hx
    simp at hx
  | ok st0 =>
    obtain ⟨hall, st, e, hl, _, _⟩ := loopHeads_inv inFiles st0 hadm
    refine ⟨(hall x hx).pending i ?_, st, e, hl⟩
    rw [admittedAt_eq inFiles i input hi, ha]

theorem pending_packet_invariant_witness :
    (loopHeads [exampleA, exampleCorrupt, exampleB]).get ⟨2, by decide⟩ ∈
      loopHeads [exampleA, exampleCorrupt, exampleB] ∧
    [exampleA, exampleCorrupt, exampleB][1]? = some exampleCorrupt ∧
    exampleCorrupt.admitted = true ∧
    Pending [exampleA, exampleCorrupt, exampleB]
      ((loopHeads [exampleA, exampleCorrupt, exampleB]).get ⟨2, by decide⟩) 1 ∧
    ∃ st, main [exampleA, exampleCorrupt, exampleB] = Outcome.finished st ∧
      (loopHeads [exampleA, exampleCorrupt, exampleB]).getLast? = some st :=
  ⟨List.get_mem _ _ _, rfl, rfl,
    pending_packet_invariant [exampleA, exampleCorrupt, exampleB] _ (List.get_mem _ _ _) 1
      exampleCorrupt rfl rfl⟩

/-- C13 (header before packets).  On every run that is not aborted, `main` returns and its
log is `pre`, then one header, then `post`, where `pre` has no header and no packet, `post`
has no header, and the header carries the snaplen and link type reconciled over all inputs;
in every state at the head of the merge loop the header is already written and the snaplen
and link type still have these values.  On an aborted run nothing is written, header or
packet. -/
theorem header_before_packets (inFiles : List Input) :
    ((main inFiles).aborted = false →
      ∃ st pre post m l, main inFiles = Outcome.finished st ∧
        reconcileAll (0, LinkTypeNull) inFiles = some (m, l) ∧
        st.log = pre ++ Event.fileHeader m l :: post ∧
        written pre = [] ∧ headers pre = [] ∧ headers post = [] ∧
        st ∈ loopHeads inFiles ∧
        ∀ x ∈ loopHeads inFiles, x.snaplen = m ∧ x.linkType = l ∧
          ∃ ext, x.log = pre ++ Event.fileHeader m l :: ext ∧ headers ext = []) ∧
    ((main inFiles).aborted = true →
      (main inFiles).packets = [] ∧ headers (main inFiles).log = []) := by
  rcases main_cases inFiles with ⟨st0, hadm, e, _⟩ | ⟨st0, hadm, _, _⟩
  · rw [e]
    refine ⟨fun h => by simp [Outcome.aborted] at h, fun _ => ?_⟩
    exact admitLoop_error_log inFiles 0 _ st0 hadm rfl rfl
  · obtain ⟨hall, st, e, hl, _, hm⟩ := loopHeads_inv inFiles st0 hadm
    rw [e]
    refine ⟨fun _ => ?_, fun h => by simp [Outcome.aborted] at h⟩
    obtain ⟨post, hlog, hpost⟩ := hm.log
    have hc := admitLoop_close inFiles st0 hadm
    refine ⟨st, st0.log, post, st0.snaplen, st0.linkType, rfl,
      (admitLoop_reconcile inFiles 0 _).1 st0 hadm, hlog, hc.adm.log_written,
      hc.adm.log_headers, hpost, List.mem_of_getLast?_eq_some hl, ?_⟩
    intro x hx
    exact ⟨(hall x hx).snaplen, (hall x hx).linkType, (hall x hx).log⟩

theorem header_before_packets_witness :
    (main [exampleCorrupt, Input.openError, exampleB]).aborted = false ∧
    ∃ st pre post m l, main [exampleCorrupt, Input.openError, exampleB] = Outcome.finished st ∧
      reconcileAll (0, LinkTypeNull) [exampleCorrupt, Input.openError, exampleB] = some (m, l) ∧
      st.log = pre ++ Event.fileHeader m l :: post ∧
      written pre = [] ∧ headers pre = [] ∧ headers post = [] ∧
      st ∈ loopHeads [exampleCorrupt, Input.openError, exampleB] ∧
      ∀ x ∈ loopHeads [exampleCorrupt, Input.openError, exampleB], x.snaplen = m ∧
        x.linkType = l ∧ ∃ ext, x.log = pre ++ Event.fileHeader m l :: ext ∧ headers ext = [] :=
  ⟨by decide,
    (header_before_packets [exampleCorrupt, Input.openError, exampleB]).1 (by decide)⟩

/-- C14 (handle release), evaluation at the failing input: the first path opens but its
header cannot be decoded; the run returns, and the only `Close` call is the one on the
second input at its end-of-input, so the first file is never closed. -/
theorem header_failure_not_closed :
    (exampleHeaderError.map Input.admitted = [false, true]) ∧
    (main exampleHeaderError).completed = true ∧
    closes (main exampleHeaderError).log = [1] ∧
    (closes (main exampleHeaderError).log).count 0 = 0 := by
  decide

/-! ## The horizon on an empty heap -/

theorem heap_Push_nil (q : Packet) : heap.Push [] q = [q] := rfl

theorem lookahead_empty_heap (packet : Packet) : ∀ (fuel : Nat) (st : State),
    st.minTimeHeap = [] → (st.readers.getD packet.Reader []).length < fuel →
    ∃ st1, lookaheadLoop fuel packet 0 st = some st1 ∧
      written st1.log = written st.log ++ (unread st packet.Reader).takeWhile notAfterZero ∧
      match (unread st packet.Reader).dropWhile notAfterZero with
      | [] => st1.minTimeHeap = [] ∧ st1.readers.getD packet.Reader [] = [] ∧
          st1.log.getLast? = some (Event.close packet.Reader)
      | q :: rest => st1.minTimeHeap = [q] ∧ unread st1 packet.Reader = rest ∧
          0 < q.Timestamp := by
  intro fuel
  induction fuel with
  | zero => intro st _ hf; omega
  | succ fuel ih =>
    intro st hh hf
    unfold lookaheadLoop
    rcases hr : readNext packet.Reader st with ⟨r, st1⟩
    cases r with
    | none =>
      obtain ⟨a1, _, _, a4, _, a6, a7, _⟩ := readNext_none _ st st1 hr
      refine ⟨st1, rfl, ?_, ?_⟩
      · rw [a7, a4, written_close]
        simp
      · rw [a7]
        simp only [List.dropWhile_nil]
        refine ⟨by rw [a1, hh], a6, ?_⟩
        rw [a4]
        simp
    | some q =>
      obtain ⟨a1, _, _, a4, _, a6, _, _, _, a10⟩ := readNext_some _ st st1 q hr
      simp only
      by_cases hle : q.Timestamp ≤ 0
      · rw [if_pos hle]
        obtain ⟨st2, e, b1, b2⟩ := ih (write st1 q) (by show st1.minTimeHeap = []; rw [a1, hh])
          (by show (st1.readers.getD packet.Reader []).length < fuel; omega)
        have hu : unread (write st1 q) packet.Reader = unread st1 packet.Reader := rfl
        have hq : notAfterZero q = true := by simp [notAfterZero, hle]
        refine ⟨st2, e, ?_, ?_⟩
        · rw [b1, written_write, a4, a6, List.takeWhile_cons_of_pos hq, hu]
          simp
        · rw [a6, List.dropWhile_cons_of_pos hq]
          rw [hu] at b2
          exact b2
      · rw [if_neg hle]
        have hq : ¬ notAfterZero q = true := by simp [notAfterZero, hle]
        refine ⟨_, rfl, ?_, ?_⟩
        · show written st1.log = _
          rw [a4, a6, List.takeWhile_cons_of_neg hq]
          simp
        · rw [a6, List.dropWhile_cons_of_neg hq]
          simp only
          refine ⟨?_, rfl, by omega⟩
          rw [a1, hh]
          rfl

/-- C11, counterexample: with one input whose valid records have timestamps 1 and 2, the
heap is empty once the first packet is removed, yet the second record is not written by the
lookahead: at the head of the next iteration it is in the heap, only the first packet is
written and the file is not closed.  The loop takes two iterations, not one. -/
theorem empty_heap_horizon_not_unbounded :
    earliestHeapTime [] = 0 ∧
    (loopHeads exampleSingle).map (fun st =>
        (st.minTimeHeap.map Packet.Timestamp, (written st.log).map Packet.Timestamp,
          closes st.log)) =
      [([1], [], []), ([2], [1], []), ([], [1, 2], [0])] := by
  decide

/-- C11 as amended (horizon on an empty heap).  When the heap is empty after the minimum is
removed, the horizon `earliestHeapTime` is 0.  The inner loop then returns; it writes
immediately the valid records of the same source that come first and have a timestamp at
most 0; if such records are all that is left it ends at end-of-input, closing the file with
the heap empty; otherwise the first valid record with a positive timestamp is not written
but inserted into the heap, which ends the loop with the later records unread. -/
theorem empty_heap_horizon (packet : Packet) (fuel : Nat) (st : State)
    (hh : st.minTimeHeap = []) (hf : (st.readers.getD packet.Reader []).length < fuel) :
    earliestHeapTime st.minTimeHeap = 0 ∧
    ∃ st1, lookaheadLoop fuel packet (earliestHeapTime st.minTimeHeap) st = some st1 ∧
      written st1.log = written st.log ++ (unread st packet.Reader).takeWhile notAfterZero ∧
      match (unread st packet.Reader).dropWhile notAfterZero with
      | [] => st1.minTimeHeap = [] ∧ st1.readers.getD packet.Reader [] = [] ∧
          st1.log.getLast? = some (Event.close packet.Reader)
      | q :: rest => st1.minTimeHeap = [q] ∧ unread st1 packet.Reader = rest ∧
          0 < q.Timestamp := by
  have h0 : earliestHeapTime st.minTimeHeap = 0 := by rw [hh]; rfl
  rw [h0]
  exact ⟨rfl, lookahead_empty_heap packet fuel st hh hf⟩

theorem empty_heap_horizon_witness :
    exampleEmptyHeap.minTimeHeap = [] ∧
    (exampleEmptyHeap.readers.getD (default : Packet).Reader []).length < 5 ∧
    earliestHeapTime exampleEmptyHeap.minTimeHeap = 0 ∧
    ∃ st1, lookaheadLoop 5 default (earliestHeapTime exampleEmptyHeap.minTimeHeap)
        exampleEmptyHeap = some st1 ∧
      written st1.log = written exampleEmptyHeap.log ++
        (unread exampleEmptyHeap (default : Packet).Reader).takeWhile notAfterZero ∧
      match (unread exampleEmptyHeap (default : Packet).Reader).dropWhile notAfterZero with
      | [] => st1.minTimeHeap = [] ∧ st1.readers.getD (default : Packet).Reader [] = [] ∧
          st1.log.getLast? = some (Event.close (default : Packet).Reader)
      | q :: rest => st1.minTimeHeap = [q] ∧ unread st1 (default : Packet).Reader = rest ∧
          0 < q.Timestamp :=
  ⟨rfl, by decide, empty_heap_horizon default 5 exampleEmptyHeap rfl (by decide)⟩

/-! ## An admitted input without valid records -/

theorem reconcileAll_congr : ∀ (l1 l2 : List Input) (acc : Nat × Nat),
    l1.map Input.header = l2.map Input.header → reconcileAll acc l1 = reconcileAll acc l2 := by
  intro l1
  induction l1 with
  | nil =>
    intro l2 acc h
    cases l2 with
    | nil => rfl
    | cons b t => simp at h
  | cons a t ih =>
    intro l2 acc h
    cases l2 with
    | nil => simp at h
    | cons b t2 =>
      simp only [List.map_cons, List.cons.injEq] at h
      unfold reconcileAll
      rw [h.1]
      cases b.header with
      | none => exact ih t2 acc h.2
      | some sl =>
        obtain ⟨s, l⟩ := sl
        simp only
        cases reconcileLinkType acc.2 l with
        | none => rfl
        | some lt => exact ih t2 _ h.2

theorem main_header (inFiles : List Input) :
    (main inFiles).aborted = (reconcileAll (0, LinkTypeNull) inFiles).isNone ∧
    headers (main inFiles).log = (reconcileAll (0, LinkTypeNull) inFiles).toList := by
  rcases main_cases inFiles with ⟨st0, hadm, e, _⟩ | ⟨st0, hadm, ⟨st, e, hf⟩, _⟩
  · have h : reconcileAll (0, LinkTypeNull) inFiles = none :=
      (admitLoop_reconcile inFiles 0 _).2 st0 hadm
    rw [e, h]
    exact ⟨rfl, (admitLoop_error_log inFiles 0 _ st0 hadm rfl rfl).2⟩
  · have h : reconcileAll (0, LinkTypeNull) inFiles = some (st0.snaplen, st0.linkType) :=
      (admitLoop_reconcile inFiles 0 _).1 st0 hadm
    rw [e, h]
    exact ⟨rfl, hf.headers⟩

/-- C15 (an admitted input without valid records).  Let the input at position `pre.length`
be admitted with snaplen `s`, link type `l`, and records none of which is valid.  On a run
that is not aborted, no packet written comes from it, no state at the head of the merge loop
has a packet of it in the heap, and the snaplen of the header is at least `s`.  Whether the
run is aborted, and the header written, are the same whatever records the input has: its
snaplen and link type are reconciled like those of any admitted input.  Such an input can
raise the snaplen of the header, have its link type adopted as the reference, and trigger
the panic of the link-type check. -/
theorem empty_input_reconciles (pre post : List Input) (s l : Nat) (recs : List Record)
    (hempty : recs.filter Record.valid = []) :
    ((main (pre ++ Input.pcap s l recs :: post)).aborted = false →
      fromReader pre.length (main (pre ++ Input.pcap s l recs :: post)).packets = [] ∧
      (∀ x ∈ loopHeads (pre ++ Input.pcap s l recs :: post),
        fromReader pre.length x.minTimeHeap = []) ∧
      ∃ m lt, headers (main (pre ++ Input.pcap s l recs :: post)).log = [(m, lt)] ∧ s ≤ m) ∧
    (∀ recs', (main (pre ++ Input.pcap s l recs' :: post)).aborted =
        (main (pre ++ Input.pcap s l recs :: post)).aborted ∧
      headers (main (pre ++ Input.pcap s l recs' :: post)).log =
        headers (main (pre ++ Input.pcap s l recs :: post)).log) ∧
    headers (main [exampleA, exampleNoValid 999999 1]).log = [(999999, 1)] ∧
    headers (main [exampleNoValid 65535 7, Input.pcap 65535 7 [exampleRecord 1 [1]]]).log
      = [(65535, 7)] ∧
    (main [exampleNoValid 65535 7, exampleA]).aborted = true ∧
    (main [exampleA, exampleNoValid 65535 7]).aborted = true := by
  refine ⟨?_, ?_, by decide, by decide, by decide, by decide⟩
  · intro hna
    have hsrc : sourcePackets (pre ++ Input.pcap s l recs :: post) pre.length = [] := by
      unfold sourcePackets
      have e : ((pre ++ Input.pcap s l recs :: post).map Input.records).getD pre.length [] =
          recs := by
        simp only [List.map_append, List.map_cons, List.getD_eq_getElem?_getD]
        rw [List.getElem?_append_right (by simp)]
        simp [Input.records]
      rw [e]
      have := validPackets_toRecord pre.length recs
      rw [hempty] at this
      exact List.map_eq_nil_iff.mp this
    obtain ⟨st0, st, hadm, e, hf⟩ := finished_facts _ hna
    obtain ⟨hall, _⟩ := loopHeads_inv _ st0 hadm
    refine ⟨?_, ?_, ?_⟩
    · rw [e]
      show fromReader pre.length (written st.log) = []
      rw [hf.bySource, hsrc]
    · intro x hx
      rcases (hall x hx).outer.2.1 pre.length trivial with ⟨a, _, _⟩ | ⟨p, _, b⟩
      · exact a
      · rw [hsrc] at b
        simp at b
    · refine ⟨st0.snaplen, st0.linkType, by rw [e]; exact hf.headers, ?_⟩
      apply (admitLoop_snaplen _ 0 _ st0 hadm).2.1
      simp [snaplens]
  · intro recs'
    have hc : reconcileAll (0, LinkTypeNull) (pre ++ Input.pcap s l recs' :: post) =
        reconcileAll (0, LinkTypeNull) (pre ++ Input.pcap s l recs :: post) := by
      apply reconcileAll_congr
      simp [Input.header]
    obtain ⟨a1, a2⟩ := main_header (pre ++ Input.pcap s l recs' :: post)
    obtain ⟨b1, b2⟩ := main_header (pre ++ Input.pcap s l recs :: post)
    rw [a1, a2, b1, b2, hc]
    exact ⟨rfl, rfl⟩

theorem empty_input_reconciles_witness :
    [Record.decodeError, exampleRecord 5 []].filter Record.valid = [] ∧
    ((main ([exampleA] ++ Input.pcap 262144 1 [Record.decodeError, exampleRecord 5 []]
        :: [exampleB])).aborted = false →
      fromReader [exampleA].length (main ([exampleA] ++
        Input.pcap 262144 1 [Record.decodeError, exampleRecord 5 []] :: [exampleB])).packets
          = [] ∧
      (∀ x ∈ loopHeads ([exampleA] ++
          Input.pcap 262144 1 [Record.decodeError, exampleRecord 5 []] :: [exampleB]),
        fromReader [exampleA].length x.minTimeHeap = []) ∧
      ∃ m lt, headers (main ([exampleA] ++
        Input.pcap 262144 1 [Record.decodeError, exampleRecord 5 []] :: [exampleB])).log
          = [(m, lt)] ∧ 262144 ≤ m) :=
  ⟨by decide,
    (empty_input_reconciles [exampleA] [exampleB] 262144 1
      [Record.decodeError, exampleRecord 5 []] (by decide)).1⟩

/-! ## Termination, and readers that never report end-of-input -/

theorem readRecordsWith_eq (reader : Nat) : ∀ (records : List Record) (fuel : Nat),
    records.length < fuel →
    readRecordsWith fuel false reader records = some (readRecords reader records)
  | [], fuel, h => by
    cases fuel with
    | zero => omega
    | succ n => rfl
  | Record.decodeError :: rest, fuel, h => by
    cases fuel with
    | zero => omega
    | succ n =>
      rw [readRecordsWith, readRecords]
      exact readRecordsWith_eq reader rest n (by simp at h; omega)
  | Record.data ci d :: rest, fuel, h => by
    cases fuel with
    | zero => omega
    | succ n =>
      rw [readRecordsWith, readRecords]
      split_ifs with hd
      · exact readRecordsWith_eq reader rest n (by simp at h; omega)
      · rfl

theorem readRecordsWith_persists (reader : Nat) : ∀ (fuel : Nat),
    readRecordsWith fuel true reader [] = none := by
  intro fuel
  induction fuel with
  | zero => rfl
  | succ n ih =>
    rw [readRecordsWith, if_pos rfl]
    exact ih

theorem getD_of_all_false (persists : List Bool) (hnp : ∀ b ∈ persists, b = false) (i : Nat) :
    persists.getD i false = false := by
  by_cases hi : i < persists.length
  · rw [List.getD_eq_getElem _ _ hi]
    exact hnp _ (List.getElem_mem hi)
  · simp only [List.getD_eq_getElem?_getD]
    rw [List.getElem?_eq_none (by omega)]
    rfl

theorem readNextWith_eq (fuel : Nat) (persists : List Bool)
    (hnp : ∀ b ∈ persists, b = false) (reader : Nat) (st : State)
    (hf : (st.readers.map List.length).sum < fuel) :
    readNextWith fuel persists reader st = some (readNext reader st) := by
  have hlen : (st.readers.getD reader []).length < fuel := by
    have := getD_length_le_sum st.readers reader
    omega
  unfold readNextWith readNext
  rw [getD_of_all_false persists hnp reader, readRecordsWith_eq reader _ fuel hlen]
  rcases readRecords reader (st.readers.getD reader []) with ⟨r, rest⟩
  cases r <;> rfl

theorem readNext_sum_le (reader : Nat) (st st1 : State) (r : Option Packet)
    (h : readNext reader st = (r, st1)) :
    (st1.readers.map List.length).sum ≤ (st.readers.map List.length).sum := by
  cases r with
  | none => exact (readNext_none reader st st1 h).2.2.2.2.2.2.2.1
  | some q =>
    have := (readNext_some reader st st1 q h).2.2.2.2.2.2.2.1
    omega

theorem admitInput_sum_le (st st1 : State) (k : Nat) (input : Input)
    (h : admitInput st k input = Except.ok st1) :
    (st1.readers.map List.length).sum ≤ (st.readers.map List.length).sum := by
  cases input with
  | openError =>
    have := admit_ok_skip st st1 k Input.openError rfl h
    subst this
    exact le_refl _
  | headerError =>
    have := admit_ok_skip st st1 k Input.headerError rfl h
    subst this
    exact le_refl _
  | pcap s l r =>
    obtain ⟨st', _, e2, _, hcase⟩ := admit_ok_pcap_cases st st1 k s l r h
    rcases hcase with ⟨st2, hr, rfl⟩ | ⟨q, st2, hr, rfl⟩
    · have := readNext_sum_le k st' st1 none hr
      rw [e2] at this
      exact this
    · have := readNext_sum_le k st' st2 (some q) hr
      rw [e2] at this
      exact this

theorem admitInputWith_eq (fuel : Nat) (persists : List Bool)
    (hnp : ∀ b ∈ persists, b = false) (st : State) (k : Nat) (input : Input)
    (hf : (st.readers.map List.length).sum < fuel) :
    admitInputWith fuel persists st k input = some (admitInput st k input) := by
  cases input with
  | openError => rfl
  | headerError => rfl
  | pcap s l r =>
    unfold admitInputWith admitInput
    simp only
    cases reconcileLinkType st.linkType l with
    | none => rfl
    | some lt =>
      simp only
      rw [readNextWith_eq fuel persists hnp k
        { st with snaplen := max st.snaplen s, linkType := lt } hf]
      rcases readNext k { st with snaplen := max st.snaplen s, linkType := lt } with ⟨r, st2⟩
      cases r <;> rfl

theorem admitLoopWith_eq (fuel : Nat) (persists : List Bool)
    (hnp : ∀ b ∈ persists, b = false) : ∀ (rest : List Input) (k : Nat) (st : State),
    (st.readers.map List.length).sum < fuel →
    admitLoopWith fuel persists k rest st = some (admitLoop k rest st) := by
  intro rest
  induction rest with
  | nil => intro k st _; rfl
  | cons input rest ih =>
    intro k st hf
    unfold admitLoopWith admitLoop
    rw [admitInputWith_eq fuel persists hnp st k input hf]
    cases hstep : admitInput st k input with
    | error e => rfl
    | ok st1 =>
      simp only
      have := admitInput_sum_le st st1 k input hstep
      exact ih (k + 1) st1 (by omega)

theorem lookaheadLoop_sum_le (packet : Packet) (e : Int) (fuel : Nat) (st st2 : State)
    (h : lookaheadLoop fuel packet e st = some st2) :
    (st2.readers.map List.length).sum ≤ (st.readers.map List.length).sum := by
  refine lookaheadLoop_rule
    (fun x => (x.readers.map List.length).sum ≤ (st.readers.map List.length).sum)
    (fun x => (x.readers.map List.length).sum ≤ (st.readers.map List.length).sum)
    packet e ?_ ?_ ?_ fuel st st2 (le_refl _) h
  · intro a b hI hr
    have := readNext_sum_le _ a b none hr
    exact le_trans this hI
  · intro a b q hI hr _
    have := readNext_sum_le _ a b (some q) hr
    exact le_trans this hI
  · intro a b q hI hr _
    have := readNext_sum_le _ a b (some q) hr
    exact le_trans this hI

theorem lookaheadLoopWith_eq (readFuel : Nat) (persists : List Bool)
    (hnp : ∀ b ∈ persists, b = false) (packet : Packet) (e : Int) :
    ∀ (fuel : Nat) (st : State), (st.readers.map List.length).sum < readFuel →
    lookaheadLoopWith readFuel persists fuel packet e st = lookaheadLoop fuel packet e st := by
  intro fuel
  induction fuel with
  | zero => intro st _; rfl
  | succ fuel ih =>
    intro st hf
    unfold lookaheadLoopWith lookaheadLoop
    rw [readNextWith_eq readFuel persists hnp packet.Reader st hf]
    rcases hr : readNext packet.Reader st with ⟨r, st1⟩
    have hle := readNext_sum_le _ st st1 r hr
    cases r with
    | none => rfl
    | some q =>
      simp only
      split_ifs with hq
      · exact ih (write st1 q) (by show (st1.readers.map List.length).sum < readFuel; omega)
      · rfl

theorem mergeLoopWith_eq (readFuel : Nat) (persists : List Bool)
    (hnp : ∀ b ∈ persists, b = false) :
    ∀ (fuel : Nat) (st : State), (st.readers.map List.length).sum < readFuel →
    mergeLoopWith readFuel persists fuel st = mergeLoop fuel st := by
  intro fuel
  induction fuel with
  | zero => intro st _; rfl
  | succ fuel ih =>
    intro st hf
    unfold mergeLoopWith mergeLoop
    cases heap.Pop st.minTimeHeap with
    | none => rfl
    | some ph =>
      obtain ⟨p, h⟩ := ph
      simp only
      rw [lookaheadLoopWith_eq readFuel persists hnp p (earliestHeapTime h) (fuel + 1)
        (write { st with minTimeHeap := h } p) hf]
      cases hl : lookaheadLoop (fuel + 1) p (earliestHeapTime h)
          (write { st with minTimeHeap := h } p) with
      | none => rfl
      | some st2 =>
        simp only
        have := lookaheadLoop_sum_le p _ _ _ st2 hl
        exact ih st2 (by
          have h2 : ((write { st with minTimeHeap := h } p).readers.map List.length).sum =
            (st.readers.map List.length).sum := rfl
          omega)

theorem mainWith_eq (inFiles : List Input) (persists : List Bool)
    (hnp : ∀ b ∈ persists, b = false) (fuel : Nat) (hfuel : mergeFuel inFiles ≤ fuel) :
    mainWith fuel persists inFiles = main inFiles := by
  have hinit : ((initialState inFiles).readers.map List.length).sum < fuel := by
    unfold mergeFuel at hfuel
    simp only [initialState, List.map_map, Function.comp_def]
    omega
  unfold mainWith
  rw [admitLoopWith_eq fuel persists hnp inFiles 0 _ hinit]
  cases hadm : admitLoop 0 inFiles (initialState inFiles) with
  | error e =>
    rw [(main_error inFiles e hadm).1]
  | ok st0 =>
    simp only
    obtain ⟨st, hm, e⟩ := main_loop_some inFiles st0 hadm
    have hc := admitLoop_inv inFiles inFiles 0 _ st0 (AdmInv_init inFiles) (Nat.zero_le _) rfl hadm
    have hsum : (st0.readers.map List.length).sum < fuel := by
      have := hc.records_le
      unfold mergeFuel at hfuel
      omega
    rw [mergeLoopWith_eq fuel persists hnp fuel
      { st0 with log := st0.log ++ [Event.fileHeader st0.snaplen st0.linkType] } hsum]
    have hmono := mergeLoop_mono _ _ _ hm (fuel - mergeFuel inFiles)
    rw [show mergeFuel inFiles + (fuel - mergeFuel inFiles) = fuel by omega] at hmono
    rw [hmono, e]

theorem readNextWith_persists (fuel : Nat) (persists : List Bool) (reader : Nat) (st : State)
    (hp : persists.getD reader false = true) (hr : st.readers.getD reader [] = []) :
    readNextWith fuel persists reader st = none := by
  unfold readNextWith
  rw [hp, hr, readRecordsWith_persists reader fuel]

theorem lookaheadLoopWith_persists (readFuel : Nat) (persists : List Bool) (fuel : Nat)
    (packet : Packet) (e : Int) (st : State)
    (hp : persists.getD packet.Reader false = true)
    (hr : st.readers.getD packet.Reader [] = []) :
    lookaheadLoopWith readFuel persists fuel packet e st = none := by
  cases fuel with
  | zero => rfl
  | succ n =>
    unfold lookaheadLoopWith
    rw [readNextWith_persists readFuel persists packet.Reader st hp hr]

theorem mergeLoopWith_persists (readFuel : Nat) (persists : List Bool) (fuel : Nat)
    (st : State) (p : Packet) (h : PacketHeap)
    (hpop : heap.Pop st.minTimeHeap = some (p, h))
    (hp : persists.getD p.Reader false = true)
    (hr : st.readers.getD p.Reader [] = []) :
    mergeLoopWith readFuel persists fuel st = none := by
  cases fuel with
  | zero => rfl
  | succ n =>
    unfold mergeLoopWith
    rw [hpop]
    simp only
    rw [lookaheadLoopWith_persists readFuel persists (n + 1) p (earliestHeapTime h)
      (write { st with minTimeHeap := h } p) hp hr]

theorem mainWith_persistent_error (fuel : Nat) :
    mainWith fuel [true] examplePersistentError = Outcome.outOfFuel := by
  cases fuel with
  | zero => rfl
  | succ n =>
    have hadm : admitLoopWith (n + 1) [true] 0 examplePersistentError
        (initialState examplePersistentError) =
        some (Except.ok { snaplen := 65535, linkType := 1,
                          minTimeHeap := [examplePersistentPacket],
                          readers := [[]], log := [] }) := rfl
    unfold mainWith
    rw [hadm]
    simp only
    rw [mergeLoopWith_persists (n + 1) [true] (n + 1)
      { snaplen := 65535, linkType := 1, minTimeHeap := [examplePersistentPacket],
        readers := [[]], log := [] ++ [Event.fileHeader 65535 1] }
      examplePersistentPacket [] rfl rfl rfl]

/-- C10, counterexample: a run whose only reader delivers one packet and then keeps
returning an error other than `io.EOF` never ends: for no bound on the number of iterations
does `main` end, because the call of `readNext` on the exhausted reader does not return.
The same input ends within five iterations when its reader reports `io.EOF`. -/
theorem persistent_error_never_terminates :
    (¬ ∃ fuel, (mainWith fuel [true] examplePersistentError).ended = true) ∧
    (¬ ∃ fuel, (readNextWith fuel [true] 0
        { initialState examplePersistentError with readers := [[]] }).isSome = true) ∧
    (mainWith 5 [false] examplePersistentError).ended = true := by
  refine ⟨?_, ?_, by decide⟩
  · rintro ⟨fuel, h⟩
    rw [mainWith_persistent_error] at h
    exact absurd h (by decide)
  · rintro ⟨fuel, h⟩
    have e : readNextWith fuel [true] 0
        { initialState examplePersistentError with readers := [[]] } = none := by
      unfold readNextWith
      have := readRecordsWith_persists 0 fuel
      simp [this]
    rw [e] at h
    exact absurd h (by decide)

/-- C10 (termination, amended).  When every reader reports `io.EOF` once its finitely many
records are read, the run ends within every bound on the iterations of at least
`mergeFuel inFiles`: every call of `readNext` returns, the run is the run of `main`, and
when it returns the heap is empty, every input is at end-of-input and no valid record is
left unread. -/
theorem termination_when_readers_end (inFiles : List Input) (persists : List Bool)
    (hnp : ∀ b ∈ persists, b = false) (fuel : Nat) (hfuel : mergeFuel inFiles ≤ fuel) :
    (mainWith fuel persists inFiles).ended = true ∧
    mainWith fuel persists inFiles = main inFiles ∧
    (∀ reader st, (st.readers.map List.length).sum < fuel →
      (readNextWith fuel persists reader st).isSome = true) ∧
    (∀ st, mainWith fuel persists inFiles = Outcome.finished st →
      st.minTimeHeap = [] ∧ (∀ r ∈ st.readers, r = []) ∧
      st.readers.length = inFiles.length ∧ ∀ i, unread st i = []) := by
  have e := mainWith_eq inFiles persists hnp fuel hfuel
  have t := termination inFiles
  refine ⟨?_, e, ?_, ?_⟩
  · rw [e]
    cases hm : main inFiles with
    | outOfFuel => exact absurd hm t.1
    | panicked st => rfl
    | finished st => rfl
  · intro reader st hf
    rw [readNextWith_eq fuel persists hnp reader st hf]
    rfl
  · intro st hst
    rw [e] at hst
    exact t.2.1 st hst

/-- The amended termination statement at three inputs, one of them with corrupt records. -/
theorem termination_when_readers_end_witness :
    (∀ b ∈ [false, false, false], b = false) ∧
    mergeFuel [exampleA, exampleCorrupt, exampleB] ≤ 40 ∧
    (mainWith 40 [false, false, false] [exampleA, exampleCorrupt, exampleB]).ended = true :=
  ⟨by decide, by decide,
    (termination_when_readers_end [exampleA, exampleCorrupt, exampleB] [false, false, false]
      (by decide) 40 (by decide)).1⟩

/-! ## Order of the inputs and the link-type check -/

theorem linkTypes_cons_header_none (input : Input) (rest : List Input)
    (h : input.header = none) : linkTypes (input :: rest) = linkTypes rest := by
  cases input with
  | openError => rfl
  | headerError => rfl
  | pcap s l r => simp [Input.header] at h

theorem linkTypes_cons_header_some (input : Input) (rest : List Input) (s l : Nat)
    (h : input.header = some (s, l)) : linkTypes (input :: rest) = l :: linkTypes rest := by
  cases input with
  | openError => simp [Input.header] at h
  | headerError => simp [Input.header] at h
  | pcap s1 l1 r =>
    simp only [Input.header, Option.some.injEq, Prod.mk.injEq] at h
    obtain ⟨_, rfl⟩ := h
    rfl

theorem reconcileAll_isSome_of_equal : ∀ (l : List Input) (acc : Nat × Nat),
    (∀ a ∈ linkTypes l, ∀ b ∈ linkTypes l, a = b) →
    (∀ a ∈ linkTypes l, acc.2 = LinkTypeNull ∨ a = acc.2) →
    (reconcileAll acc l).isSome = true := by
  intro l
  induction l with
  | nil => intro acc _ _; rfl
  | cons input rest ih =>
    intro acc hall hacc
    unfold reconcileAll
    cases hh : input.header with
    | none =>
      simp only
      rw [linkTypes_cons_header_none input rest hh] at hall hacc
      exact ih acc hall hacc
    | some sl =>
      obtain ⟨s, lt⟩ := sl
      simp only
      rw [linkTypes_cons_header_some input rest s lt hh] at hall hacc
      have hrest : ∀ a ∈ linkTypes rest, ∀ b ∈ linkTypes rest, a = b :=
        fun a ha b hb => hall a (List.mem_cons_of_mem _ ha) b (List.mem_cons_of_mem _ hb)
      have hlt : ∀ a ∈ linkTypes rest, a = lt :=
        fun a ha => hall a (List.mem_cons_of_mem _ ha) lt (List.mem_cons_self _ _)
      unfold reconcileLinkType
      by_cases h0 : acc.2 = LinkTypeNull
      · rw [if_pos h0]
        exact ih _ hrest (fun a ha => Or.inr (hlt a ha))
      · rw [if_neg h0]
        have e : lt = acc.2 := (hacc lt (List.mem_cons_self _ _)).resolve_left h0
        rw [if_neg (by rw [e]; exact fun h => h rfl)]
        exact ih _ hrest (fun a ha => Or.inr ((hlt a ha).trans e))

theorem linkTypes_perm (l1 l2 : List Input) (hp : l1.Perm l2) :
    (linkTypes l1).Perm (linkTypes l2) :=
  hp.filterMap _

theorem not_aborted_of_perm (l1 l2 : List Input) (hp : l1.Perm l2)
    (hnn : ∀ l ∈ linkTypes l1, l ≠ LinkTypeNull) (h : (main l1).aborted = false) :
    (main l2).aborted = false := by
  obtain ⟨st0, _, hadm, _, _⟩ := finished_facts l1 h
  have hall := admitLoop_linkType_unset l1 0 _ st0 hadm rfl hnn
  have hperm := linkTypes_perm l1 l2 hp
  have hall2 : ∀ a ∈ linkTypes l2, ∀ b ∈ linkTypes l2, a = b :=
    fun a ha b hb => hall a (hperm.mem_iff.mpr ha) b (hperm.mem_iff.mpr hb)
  have hs := reconcileAll_isSome_of_equal l2 (0, LinkTypeNull) hall2 (fun _ _ => Or.inl rfl)
  rw [(main_header l2).1]
  cases hr : reconcileAll (0, LinkTypeNull) l2 with
  | none => rw [hr] at hs; exact absurd hs (by decide)
  | some v => rfl

theorem aborted_timestamps (inFiles : List Input) (h : (main inFiles).aborted = true) :
    (main inFiles).timestamps = [] := by
  rcases main_cases inFiles with ⟨st0, hadm, e, _⟩ | ⟨st0, _, ⟨st, e, _⟩, _⟩
  · have := (admitLoop_error_log inFiles 0 _ st0 hadm rfl rfl).1
    rw [e]
    show (written st0.log).map Packet.Timestamp = []
    rw [this]
    rfl
  · rw [e] at h
    simp [Outcome.aborted] at h

/-- Order independence where the link-type check is sound: when no admitted input has link
type `LinkTypeNull` and the inputs are sorted, the runs on a list of inputs and on a
permutation of it end the same way and write the same sequence of timestamps. -/
theorem order_independence_when_nonnull (l1 l2 : List Input) (hp : l1.Perm l2)
    (hs : ∀ input ∈ l1, input.Sorted) (hnn : ∀ l ∈ linkTypes l1, l ≠ LinkTypeNull) :
    (main l1).aborted = (main l2).aborted ∧ (main l1).timestamps = (main l2).timestamps := by
  have hnn2 : ∀ l ∈ linkTypes l2, l ≠ LinkTypeNull :=
    fun l hl => hnn l ((linkTypes_perm l1 l2 hp).mem_iff.mpr hl)
  cases h1 : (main l1).aborted with
  | false =>
    have h2 := not_aborted_of_perm l1 l2 hp hnn h1
    exact ⟨h2.symm, (interleaving_order_independence.2.2 l1 l2 hp hs h1 h2).2.2⟩
  | true =>
    cases h2 : (main l2).aborted with
    | false =>
      have := not_aborted_of_perm l2 l1 hp.symm hnn2 h2
      rw [h1] at this
      exact absurd this (by decide)
    | true =>
      exact ⟨rfl, by rw [aborted_timestamps l1 h1, aborted_timestamps l2 h2]⟩

theorem order_independence_when_nonnull_witness :
    [exampleA, exampleCorrupt, exampleB].Perm [exampleB, exampleA, exampleCorrupt] ∧
    (∀ input ∈ [exampleA, exampleCorrupt, exampleB], input.Sorted) ∧
    (∀ l ∈ linkTypes [exampleA, exampleCorrupt, exampleB], l ≠ LinkTypeNull) ∧
    (main [exampleA, exampleCorrupt, exampleB]).timestamps =
      (main [exampleB, exampleA, exampleCorrupt]).timestamps :=
  ⟨by decide, by decide, by decide,
    (order_independence_when_nonnull [exampleA, exampleCorrupt, exampleB]
      [exampleB, exampleA, exampleCorrupt] (by decide) (by decide) (by decide)).2⟩

/-- C8 (interleaving example and order independence).  Inputs A and B of the example are
merged to timestamps 1, 2, 3, 5, 9, 10 in both orders.  The general half fails: the two
sorted inputs of `exampleNullThenEthernet` (link types 0 and 1) are merged to timestamps
1, 2 in the order given, and the same two inputs in the opposite order abort the run in the
link-type check before anything is written. -/
theorem order_dependence_through_link_type :
    (main [exampleA, exampleB]).timestamps = [1, 2, 3, 5, 9, 10] ∧
    (main [exampleB, exampleA]).timestamps = [1, 2, 3, 5, 9, 10] ∧
    (∀ input ∈ exampleNullThenEthernet, input.Sorted) ∧
    exampleNullThenEthernet.reverse =
      [Input.pcap 65535 1 [exampleRecord 2 [2]], Input.pcap 65535 0 [exampleRecord 1 [1]]] ∧
    exampleNullThenEthernet.Perm exampleNullThenEthernet.reverse ∧
    (main exampleNullThenEthernet).aborted = false ∧
    (main exampleNullThenEthernet).completed = true ∧
    (main exampleNullThenEthernet).timestamps = [1, 2] ∧
    (main exampleNullThenEthernet.reverse).aborted = true ∧
    (main exampleNullThenEthernet.reverse).timestamps = [] ∧
    (main exampleNullThenEthernet).timestamps ≠
      (main exampleNullThenEthernet.reverse).timestamps := by
  refine ⟨by decide, by decide, by decide, rfl, (List.reverse_perm _).symm, by decide,
    by decide, by decide, by decide, by decide, by decide⟩

end Joincap
